import Mathlib

/-! # MiniVSFS: formatter (`mkfs_builder.c`) and ingestor (`mkfs_adder.c`)

A shallow embedding of the two programs of the repository.

Conventions of the embedding (LP64, little-endian, as the packed structs of the
source are written to disk with `memcpy`/`fwrite`):

* a byte buffer is a function from index to byte value (`Bytes`); only the value
  modulo 256 of an entry is ever looked at by a load;
* a file is its size together with its content (`File`); `fread` of `n` bytes at
  a position succeeds iff `n > 0` and the `n` bytes lie inside the file;
  `fwrite` past the end extends the file, the gap reading as zero;
* `uint32_t`/`uint64_t`/`int` arithmetic is arithmetic on `Nat`/`Int` with the
  reductions modulo `2^32`/`2^64` written out where the source performs them;
* `fopen`, `malloc` and `fwrite` are assumed to succeed.
-/

namespace MiniVSFS

/-! ## Constants -/

/-- `#define BS 4096u`. -/
def BS : Nat := 4096

/-- `#define INODE_SIZE 128u`. -/
def INODE_SIZE : Nat := 128

/-- `#define ROOT_INO 1u`. -/
def ROOT_INO : Nat := 1

/-- `#define DIRECT_MAX 12`. -/
def DIRECT_MAX : Nat := 12

/-- The magic number tested by the ingestor and written by the formatter. -/
def MAGIC : Nat := 0x4D565346

/-! ## Bytes, files and machine integers -/

/-- A byte buffer: the byte stored at each index. -/
abbrev Bytes := Nat → Nat

/-- A file on disk: its length in bytes and its content. -/
structure File where
  size : Nat
  data : Bytes

/-- The all-zero buffer (`= {0}`, `memset(block, 0, BS)`). -/
def zeros : Bytes := fun _ => 0

/-- Conversion to `uint32_t`. -/
def u32 (n : Nat) : Nat := n % 2 ^ 32

/-- Conversion to `uint64_t` (also `size_t`). -/
def u64 (n : Nat) : Nat := n % 2 ^ 64

/-- Conversion of an unsigned value to `int` (two's complement, 32 bits). -/
def to_int (n : Nat) : Int :=
  if n % 2 ^ 32 < 2 ^ 31 then ((n % 2 ^ 32 : Nat) : Int) else ((n % 2 ^ 32 : Nat) : Int) - 2 ^ 32

/-- Conversion of an `int` to `uint64_t`. -/
def of_int (z : Int) : Nat := (z % 2 ^ 64).toNat

/-- Load of a `uint8_t` field. -/
def ld8 (m : Bytes) (o : Nat) : Nat := m o % 256

/-- Load of a little-endian `uint16_t` field. -/
def ld16 (m : Bytes) (o : Nat) : Nat := m o % 256 + 256 * (m (o + 1) % 256)

/-- Load of a little-endian `uint32_t` field. -/
def ld32 (m : Bytes) (o : Nat) : Nat :=
  m o % 256 + 256 * (m (o + 1) % 256) + 65536 * (m (o + 2) % 256)
    + 16777216 * (m (o + 3) % 256)

/-- Load of a little-endian `uint64_t` field. -/
def ld64 (m : Bytes) (o : Nat) : Nat := ld32 m o + 4294967296 * ld32 m (o + 4)

/-- Store of the `w` low bytes of `v`, little-endian, at offset `o`. -/
def st (w : Nat) (m : Bytes) (o v : Nat) : Bytes :=
  fun i => if o ≤ i ∧ i < o + w then v / 256 ^ (i - o) % 256 else m i

/-- Store of a `uint8_t` field. -/
def st8 (m : Bytes) (o v : Nat) : Bytes := st 1 m o v

/-- Store of a `uint16_t` field. -/
def st16 (m : Bytes) (o v : Nat) : Bytes := st 2 m o v

/-- Store of a `uint32_t` field. -/
def st32 (m : Bytes) (o v : Nat) : Bytes := st 4 m o v

/-- Store of a `uint64_t` field. -/
def st64 (m : Bytes) (o v : Nat) : Bytes := st 8 m o v

/-- `memcpy(dst + o, src, n)`. -/
def memcpy (dst : Bytes) (o : Nat) (src : Bytes) (n : Nat) : Bytes :=
  fun i => if o ≤ i ∧ i < o + n then src (i - o) else dst i

/-- The `n` bytes of `m` starting at offset `o`, as a buffer of their own. -/
def slice (m : Bytes) (o n : Nat) : Bytes :=
  fun i => if i < n then m (o + i) else 0

/-- `fseek(fp, off, SEEK_SET)` where `off` is the `uint64_t` value handed to the
`long` parameter: a value of `2^63` or more is a negative offset, the call fails
and the position `cur` stays. -/
def fseek (cur off : Nat) : Nat := if off < 2 ^ 63 then off else cur

/-- `fread(buf, n, 1, fp)` at position `pos`: the item is read iff it is non-empty
and lies inside the file. -/
def fread (f : File) (pos n : Nat) : Option Bytes :=
  if 0 < n ∧ pos + n ≤ f.size then some (slice f.data pos n) else none

/-- `fwrite(buf, n, 1, fp)` at position `pos`. -/
def fwrite (f : File) (pos : Nat) (buf : Bytes) (n : Nat) : File :=
  { size := max f.size (pos + n),
    data := fun i =>
      if pos ≤ i ∧ i < pos + n then buf (i - pos)
      else if i < f.size then f.data i else 0 }

/-- The block number `b` of a file, as a buffer. -/
def File.block (f : File) (b : Nat) : Bytes := slice f.data (b * BS) BS

/-! ## Checksum codec -/

/-- One round of the inner loop of `crc32_init`:
`c = (c&1) ? (0xEDB88320u ^ (c>>1)) : (c>>1)`. -/
def crc32_round (c : Nat) : Nat :=
  if c &&& 1 = 1 then 0xEDB88320 ^^^ (c >>> 1) else c >>> 1

/-- The inner loop of `crc32_init`, `j` rounds. -/
def crc32_rounds : Nat → Nat → Nat
  | 0, c => c
  | j + 1, c => crc32_rounds j (crc32_round c)

/-- The table `CRC32_TAB` after `crc32_init`: entry `i` is eight rounds on `i`. -/
def CRC32_TAB (i : Nat) : Nat := crc32_rounds 8 i

/-- The state `c` of `crc32` after `i` iterations of its loop. -/
def crc32_loop (p : Bytes) : Nat → Nat
  | 0 => 0xFFFFFFFF
  | i + 1 =>
    let c := crc32_loop p i
    CRC32_TAB ((c ^^^ (p i % 256)) &&& 0xFF) ^^^ (c >>> 8)

/-- `crc32(data, n)`. -/
def crc32 (p : Bytes) (n : Nat) : Nat := crc32_loop p n ^^^ 0xFFFFFFFF

/-- `superblock_crc_finalize` on the block holding the superblock. -/
def superblock_crc_finalize (block : Bytes) : Bytes :=
  let sb := st32 block 112 0
  st32 sb 112 (crc32 sb (BS - 4))

/-- `inode_crc_finalize` on the inode record at offset `o` of `m`. -/
def inode_crc_finalize (m : Bytes) (o : Nat) : Bytes :=
  let tmp := st64 (slice m o INODE_SIZE) 120 0
  let c := crc32 tmp 120
  st64 m (o + 120) c

/-- The loop of `dirent_checksum_finalize`: XOR of the first `i` bytes. -/
def dirent_xor (p : Bytes) : Nat → Nat
  | 0 => 0
  | i + 1 => dirent_xor p i ^^^ (p i % 256)

/-- `dirent_checksum_finalize` on the entry at offset `o` of `m`. -/
def dirent_checksum_finalize (m : Bytes) (o : Nat) : Bytes :=
  st8 m (o + 63) (dirent_xor (slice m o 64) 63)

/-! ## Superblock fields -/

namespace sb

def magic (b : Bytes) : Nat := ld32 b 0
def version (b : Bytes) : Nat := ld32 b 4
def block_size (b : Bytes) : Nat := ld32 b 8
def total_blocks (b : Bytes) : Nat := ld64 b 12
def inode_count (b : Bytes) : Nat := ld64 b 20
def inode_bitmap_start (b : Bytes) : Nat := ld64 b 28
def inode_bitmap_blocks (b : Bytes) : Nat := ld64 b 36
def data_bitmap_start (b : Bytes) : Nat := ld64 b 44
def data_bitmap_blocks (b : Bytes) : Nat := ld64 b 52
def inode_table_start (b : Bytes) : Nat := ld64 b 60
def inode_table_blocks (b : Bytes) : Nat := ld64 b 68
def data_region_start (b : Bytes) : Nat := ld64 b 76
def data_region_blocks (b : Bytes) : Nat := ld64 b 84
def root_inode (b : Bytes) : Nat := ld64 b 92
def mtime_epoch (b : Bytes) : Nat := ld64 b 100
def flags (b : Bytes) : Nat := ld32 b 108
def checksum (b : Bytes) : Nat := ld32 b 112

end sb

/-- The failures of the two programs, named as in the error taxonomy of the
specification; each is a diagnostic followed by exit status 1 in the source.
`Undefined` marks an access outside a buffer, which the source does not guard. -/
inductive Err where
  | InvalidArguments
  | IOError
  | FormatError
  | LayoutError
  | FileTooLarge
  | NoFreeInodes
  | InsufficientSpace
  | DirectoryFull
  | Undefined
  deriving DecidableEq, Repr

end MiniVSFS

/-! ## The formatter, `mkfs_builder.c` -/

namespace mkfs_builder

open MiniVSFS

/-- The range check of `main` on the two numeric parameters (the one that does not
call `usage`). The remainder is only evaluated for `size_kib ≥ 180`. -/
def validated (size_kib inode_count : Int) : Prop :=
  ¬ (size_kib < 180 ∨ size_kib > 4096 ∨ size_kib % 4 ≠ 0 ∨
      inode_count < 128 ∨ inode_count > 512)

instance (size_kib inode_count : Int) : Decidable (validated size_kib inode_count) := by
  unfold validated; infer_instance

/-- `total_blocks = (uint64_t)size_kib * 1024 / BS`. -/
def total_blocks (size_kib : Int) : Nat := u64 (of_int size_kib * 1024) / BS

/-- `inode_table_blocks = (inode_count * INODE_SIZE + BS - 1) / BS`, computed in
`unsigned int` and widened. -/
def inode_table_blocks (inode_count : Int) : Nat :=
  u32 (u32 (of_int inode_count) * INODE_SIZE + BS - 1) / BS

def inode_bitmap_start : Nat := 1

def data_bitmap_start : Nat := 2

def inode_table_start : Nat := 3

/-- `data_region_start = inode_table_start + inode_table_blocks`. -/
def data_region_start (inode_count : Int) : Nat :=
  u64 (inode_table_start + inode_table_blocks inode_count)

/-- `data_region_blocks = total_blocks - data_region_start` in `uint64_t`. -/
def data_region_blocks (size_kib inode_count : Int) : Nat :=
  u64 (total_blocks size_kib + 2 ^ 64 - data_region_start inode_count)

/-- The `superblock_t sb` of `main` once all its fields but the checksum are set. -/
def superblock (size_kib inode_count : Int) (now : Nat) : Bytes :=
  let sb := zeros
  let sb := st32 sb 0 0x4D565346
  let sb := st32 sb 4 1
  let sb := st32 sb 8 BS
  let sb := st64 sb 12 (total_blocks size_kib)
  let sb := st64 sb 20 (of_int inode_count)
  let sb := st64 sb 28 inode_bitmap_start
  let sb := st64 sb 36 1
  let sb := st64 sb 44 data_bitmap_start
  let sb := st64 sb 52 1
  let sb := st64 sb 60 inode_table_start
  let sb := st64 sb 68 (inode_table_blocks inode_count)
  let sb := st64 sb 76 (data_region_start inode_count)
  let sb := st64 sb 84 (data_region_blocks size_kib inode_count)
  let sb := st64 sb 92 ROOT_INO
  let sb := st64 sb 100 now
  let sb := st32 sb 108 0
  sb

/-- The `inode_t root_inode` of `main`, checksum finalized. -/
def root_inode (inode_count : Int) (now : Nat) : Bytes :=
  let ino := zeros
  let ino := st16 ino 0 0o40000
  let ino := st16 ino 2 2
  let ino := st32 ino 4 0
  let ino := st32 ino 8 0
  let ino := st64 ino 12 (2 * 64)
  let ino := st64 (st64 (st64 ino 36 now) 28 now) 20 now
  let ino := st32 ino 44 (data_region_start inode_count)
  let ino := st32 ino 48 0
  let ino := st32 ino 52 0
  let ino := st32 ino 56 0
  let ino := st32 ino 60 0
  let ino := st32 ino 64 0
  let ino := st32 ino 68 0
  let ino := st32 ino 72 0
  let ino := st32 ino 76 0
  let ino := st32 ino 80 0
  let ino := st32 ino 84 0
  let ino := st32 ino 88 0
  let ino := st32 (st32 (st32 ino 100 0) 96 0) 92 0
  let ino := st32 ino 104 4
  let ino := st32 ino 108 0
  let ino := st64 ino 112 0
  inode_crc_finalize ino 0

/-- `strcpy(de.name, s)` for a NUL-free string `s`: the bytes of `s` and the
terminating NUL, at offset 5 of the entry. -/
def strcpy_name (de : Bytes) : Nat → List Nat → Bytes
  | o, [] => st8 de o 0
  | o, c :: cs => strcpy_name (st8 de o c) (o + 1) cs

/-- A directory entry of the root directory (`dot_entry`, `dotdot_entry`). -/
def root_dirent (name : List Nat) : Bytes :=
  let de := zeros
  let de := st32 de 0 ROOT_INO
  let de := st8 de 4 2
  let de := strcpy_name de 5 name
  dirent_checksum_finalize de 0

/-- The state of the output after `i` iterations of the loop that writes the
inode table. -/
def write_inode_table (root : Bytes) (f : File) : Nat → File
  | 0 => f
  | i + 1 =>
    let f := write_inode_table root f i
    let block := zeros
    let block := if i = 0 then memcpy block 0 root INODE_SIZE else block
    fwrite f f.size block BS

/-- The state of the output after `j` iterations of the loop that writes the
remaining data blocks (`i = 1 .. data_region_blocks - 1`). -/
def write_zero_blocks (f : File) : Nat → File
  | 0 => f
  | j + 1 =>
    let f := write_zero_blocks f j
    fwrite f f.size zeros BS

/-- The writes of `main`, in order: the image file once `main` has closed it.
`now_sb` and `now_ino` are the values of the two calls of `time(NULL)`. -/
def image (size_kib inode_count : Int) (now_sb now_ino : Nat) : File :=
  let fp : File := { size := 0, data := zeros }
  -- superblock
  let block := zeros
  let block := memcpy block 0 (superblock size_kib inode_count now_sb) 116
  let block := superblock_crc_finalize block
  let fp := fwrite fp fp.size block BS
  -- inode bitmap, root inode allocated
  let block := zeros
  let block := st8 block 0 0x01
  let fp := fwrite fp fp.size block BS
  -- data bitmap, first data block allocated
  let block := zeros
  let block := st8 block 0 0x01
  let fp := fwrite fp fp.size block BS
  -- inode table
  let fp := write_inode_table (root_inode inode_count now_ino) fp
    (inode_table_blocks inode_count)
  -- root directory data block
  let block := zeros
  let block := memcpy block 0 (root_dirent [46]) 64
  let block := memcpy block 64 (root_dirent [46, 46]) 64
  let fp := fwrite fp fp.size block BS
  -- remaining data blocks
  write_zero_blocks fp (data_region_blocks size_kib inode_count - 1)

/-- The function `main` of the formatter, from the parsed parameters on: the
range check, the layout check, then the writes of `image`. -/
def main (size_kib inode_count : Int) (now_sb now_ino : Nat) : Except Err File :=
  if ¬ validated size_kib inode_count then .error .InvalidArguments
  else if data_region_blocks size_kib inode_count < 1 then .error .LayoutError
  else .ok (image size_kib inode_count now_sb now_ino)

end mkfs_builder

/-! ## The ingestor, `mkfs_adder.c` -/

namespace mkfs_adder

open MiniVSFS

/-- The test `bitmap[i/8] & (1 << (i%8))` of the two bitmap scans. -/
def bit_mask (bitmap : Bytes) (i : Nat) : Nat :=
  (bitmap (i / 8) % 256) &&& (1 <<< (i % 8))

/-- The loop of `find_free_bit`, from index `i` on, `n` iterations left. -/
def find_free_bit_loop (bitmap : Bytes) : Nat → Nat → Int
  | 0, _ => -1
  | n + 1, i => if bit_mask bitmap i = 0 then (i : Int) else find_free_bit_loop bitmap n (i + 1)

/-- `find_free_bit(bitmap, max_bits)`. -/
def find_free_bit (bitmap : Bytes) (max_bits : Int) : Int :=
  find_free_bit_loop bitmap max_bits.toNat 0

/-- `set_bit(bitmap, bit)`. -/
def set_bit (bitmap : Bytes) (bit : Nat) : Bytes :=
  fun j => if j = bit / 8 then (bitmap j % 256 ||| (1 <<< (bit % 8))) % 256 else bitmap j

/-- The loop of `main` that collects free data blocks, from index `i` on with `n`
iterations left before `i` reaches `(int)sb->data_region_blocks`; `found` is
`free_blocks[0 .. found_blocks-1]`. -/
def scan_free_blocks (data_bitmap : Bytes) (blocks_needed : Int) :
    Nat → Nat → List Nat → List Nat
  | 0, _, found => found
  | n + 1, i, found =>
    if (found.length : Int) < blocks_needed then
      if bit_mask data_bitmap i = 0 then
        scan_free_blocks data_bitmap blocks_needed n (i + 1) (found ++ [i])
      else scan_free_blocks data_bitmap blocks_needed n (i + 1) found
    else found

/-- The loop `for (i = 0; i < blocks_needed; i++) new_inode.direct[i] = ...`,
after `i` iterations. -/
def fill_direct (data_region_start : Nat) (free_blocks : List Nat) (ino : Bytes) : Nat → Bytes
  | 0 => ino
  | i + 1 =>
    st32 (fill_direct data_region_start free_blocks ino i) (44 + 4 * i)
      (u64 (data_region_start + free_blocks.getD i 0))

/-- The loop `for (i = blocks_needed; i < 12; i++) new_inode.direct[i] = 0`,
after `j` iterations. -/
def clear_direct (blocks_needed : Nat) (ino : Bytes) : Nat → Bytes
  | 0 => ino
  | j + 1 => st32 (clear_direct blocks_needed ino j) (44 + 4 * (blocks_needed + j)) 0

/-- The `inode_t new_inode` of `main`, checksum finalized. -/
def new_inode (file_size now data_region_start blocks_needed : Nat)
    (free_blocks : List Nat) : Bytes :=
  let ino := zeros
  let ino := st16 ino 0 0o100000
  let ino := st16 ino 2 1
  let ino := st32 ino 4 0
  let ino := st32 ino 8 0
  let ino := st64 ino 12 file_size
  let ino := st64 (st64 (st64 ino 36 now) 28 now) 20 now
  let ino := fill_direct data_region_start free_blocks ino blocks_needed
  let ino := clear_direct blocks_needed ino (12 - blocks_needed)
  let ino := st32 ino 104 4
  inode_crc_finalize ino 0

/-- The loop `for (i = 0; i < blocks_needed; i++) set_bit(data_bitmap, free_blocks[i])`,
after `i` iterations. -/
def mark_blocks (free_blocks : List Nat) (data_bitmap : Bytes) : Nat → Bytes
  | 0 => data_bitmap
  | i + 1 => set_bit (mark_blocks free_blocks data_bitmap i) (free_blocks.getD i 0)

/-- The loop of `main` that looks for a directory slot with `inode_no == 0`, from
slot `i` on, `n` iterations left. -/
def find_free_entry (root_dir_block : Bytes) : Nat → Nat → Int
  | 0, _ => -1
  | n + 1, i =>
    if ld32 root_dir_block (64 * i) = 0 then (i : Int)
    else find_free_entry root_dir_block n (i + 1)

/-- `strncpy(dst + o, src, n)` where `src` is the C string whose bytes are listed
(it ends at the end of the list or at the first NUL). -/
def strncpy (dst : Bytes) : Nat → List Nat → Nat → Bytes
  | _, _, 0 => dst
  | o, [], n + 1 => strncpy (st8 dst o 0) (o + 1) [] n
  | o, c :: cs, n + 1 =>
    if c % 256 = 0 then strncpy (st8 dst o 0) (o + 1) [] n
    else strncpy (st8 dst o c) (o + 1) cs n

/-- The `dirent64_t new_entry` of `main`, checksum finalized; `filename` is the
result of `basename(file_to_add)`. -/
def new_entry (free_inode : Int) (filename : List Nat) : Bytes :=
  let de := zeros
  let de := st32 de 0 (of_int (free_inode + 1))
  let de := st8 de 4 1
  let de := strncpy de 5 filename (58 - 1)
  dirent_checksum_finalize de 0

/-- The loop that copies the input to the output block by block, after `i`
iterations; `none` when a read failed. -/
def copy_blocks (input : File) : Nat → Option File
  | 0 => some { size := 0, data := zeros }
  | i + 1 =>
    match copy_blocks input i with
    | none => none
    | some out =>
      match fread input (i * BS) BS with
      | none => none
      | some buffer => some (fwrite out (i * BS) buffer BS)

/-- The `to_read` of iteration `i` of the loop that writes the file data:
`(i == blocks_needed - 1) ? (file_size % BS) : BS`, and `BS` if that is 0. -/
def to_read (file_size blocks_needed i : Nat) : Nat :=
  let to_read := if i = blocks_needed - 1 then file_size % BS else BS
  if to_read = 0 then BS else to_read

/-- The loop that writes the file data, after `i` iterations; `none` when a read
of the source file failed. Every iteration before the last reads a full block, so
iteration `i` reads the source at position `i * BS`. -/
def write_payload (file : File) (ino : Bytes) (blocks_needed : Nat) (out : File) :
    Nat → Option File
  | 0 => some out
  | i + 1 =>
    match write_payload file ino blocks_needed out i with
    | none => none
    | some out =>
      let pos := fseek 0 (u32 (ld32 ino (44 + 4 * i) * BS))
      let to_read := to_read (u64 file.size) blocks_needed i
      match fread file (i * BS) to_read with
      | none => if to_read > 0 then none else some (fwrite out pos zeros BS)
      | some buffer => some (fwrite out pos buffer BS)

/-- What `main` holds in memory once the image is loaded. -/
structure Loaded where
  sb_block : Bytes
  inode_bitmap : Bytes
  data_bitmap : Bytes
  inode_table_size : Nat
  inode_table : Bytes

/-- The first part of `main`: the superblock is read and its magic checked, the two
bitmaps and the inode table are read. -/
def load (input : File) : Except Err Loaded :=
  match fread input 0 BS with
  | none => .error .FormatError
  | some sb_block =>
    if sb.magic sb_block ≠ 0x4D565346 then .error .FormatError
    else
      let p := fseek BS (u64 (sb.inode_bitmap_start sb_block * BS))
      match fread input p BS with
      | none => .error .IOError
      | some inode_bitmap =>
        let p := fseek (p + BS) (u64 (sb.data_bitmap_start sb_block * BS))
        match fread input p BS with
        | none => .error .IOError
        | some data_bitmap =>
          let inode_table_size := u64 (sb.inode_table_blocks sb_block * BS)
          let p := fseek (p + BS) (u64 (sb.inode_table_start sb_block * BS))
          match fread input p inode_table_size with
          | none => .error .IOError
          | some inode_table =>
            .ok { sb_block := sb_block, inode_bitmap := inode_bitmap,
                  data_bitmap := data_bitmap, inode_table_size := inode_table_size,
                  inode_table := inode_table }

/-- `blocks_needed = (file_size + BS - 1) / BS`, computed in `size_t` and stored
in an `int`. -/
def blocks_needed (file_size : Nat) : Int := to_int (u64 (u64 file_size + BS - 1) / BS)

/-- The last part of `main`: the input is copied to the output and the updated
structures and the file data are written over the copy. -/
def emit (input file : File) (sb_block inode_bitmap data_bitmap inode_table : Bytes)
    (inode_table_size : Nat) (root_dir_block ino : Bytes) (k : Nat) : Except Err File :=
  match copy_blocks input (sb.total_blocks sb_block) with
  | none => .error .IOError
  | some out =>
    let out := fwrite out (fseek (sb.total_blocks sb_block * BS) 0) sb_block BS
    let p := fseek BS (u64 (sb.inode_bitmap_start sb_block * BS))
    let out := fwrite out p inode_bitmap BS
    let p := fseek (p + BS) (u64 (sb.data_bitmap_start sb_block * BS))
    let out := fwrite out p data_bitmap BS
    let p := fseek (p + BS) (u64 (sb.inode_table_start sb_block * BS))
    let out := fwrite out p inode_table inode_table_size
    let p := fseek (p + inode_table_size) (u32 (ld32 inode_table 44 * BS))
    let out := fwrite out p root_dir_block BS
    match write_payload file ino k out k with
    | none => .error .IOError
    | some out => .ok out

/-- The function `main` of the ingestor, from the opened files on: `input` is the
input image, `filename` the base name of the file to add, `file` its content and
`now` the value of `time(NULL)`. -/
def main (input : File) (filename : List Nat) (file : File) (now : Nat) : Except Err File :=
  match load input with
  | .error e => .error e
  | .ok l =>
    let file_size := u64 file.size
    let blocks_needed := blocks_needed file_size
    if blocks_needed > 12 then .error .FileTooLarge
    else
      -- find free inode
      let max_bits := to_int (sb.inode_count l.sb_block)
      if 8 * BS < max_bits ∧ find_free_bit l.inode_bitmap (8 * BS : Nat) = -1 then
        .error .Undefined
      else
      let free_inode := find_free_bit l.inode_bitmap max_bits
      if free_inode = -1 then .error .NoFreeInodes
      else
        -- find free data blocks
        let limit := to_int (sb.data_region_blocks l.sb_block)
        if 8 * BS < limit ∧
            ((scan_free_blocks l.data_bitmap blocks_needed (8 * BS) 0 []).length : Int)
              < blocks_needed then
          .error .Undefined
        else
        let free_blocks := scan_free_blocks l.data_bitmap blocks_needed limit.toNat 0 []
        if (free_blocks.length : Int) < blocks_needed then .error .InsufficientSpace
        else if blocks_needed < 0 then .error .Undefined
        else
          let k := blocks_needed.toNat
          -- create new inode
          let ino := new_inode file_size now (sb.data_region_start l.sb_block) k free_blocks
          -- update bitmaps
          let inode_bitmap := set_bit l.inode_bitmap free_inode.toNat
          let data_bitmap := mark_blocks free_blocks l.data_bitmap k
          -- add inode to table
          let slot := u32 (free_inode.toNat * INODE_SIZE)
          if l.inode_table_size < slot + INODE_SIZE then .error .Undefined
          else
          let inode_table := memcpy l.inode_table slot ino INODE_SIZE
          -- read root directory
          let p := fseek 0 (u32 (ld32 inode_table 44 * BS))
          match fread input p BS with
          | none => .error .IOError
          | some root_dir_block =>
            -- find free directory entry slot
            let free_entry := find_free_entry root_dir_block 64 0
            if free_entry = -1 then .error .DirectoryFull
            else
              -- create directory entry
              let de := new_entry free_inode filename
              let root_dir_block := memcpy root_dir_block (64 * free_entry.toNat) de 64
              -- update root inode links
              let inode_table := st16 inode_table 2 (ld16 inode_table 2 + 1)
              let inode_table := inode_crc_finalize inode_table 0
              emit input file l.sb_block inode_bitmap data_bitmap inode_table
                l.inode_table_size root_dir_block ino k

end mkfs_adder

/-! ## Notions used to state the properties of the ingestor -/

namespace mkfs_adder

open MiniVSFS

/-- The clear bits of a bitmap below `limit`, in ascending order. -/
def clear_bits (bitmap : Bytes) (limit : Nat) : List Nat :=
  (List.range limit).filter (fun i => bit_mask bitmap i = 0)

/-- An image laid out the way the formatter lays images out: the magic is valid,
the inode bitmap, the data bitmap and the inode table start at blocks 1, 2 and 3,
the data region follows the inode table and ends the image, the file is exactly
`total_blocks` blocks long, every inode has a slot in the table and a bit in the
bitmap block, and the root inode (bit 0, slot 0) points to the first block of the
data region, whose bit is set. -/
structure WellFormed (img : File) : Prop where
  magic : sb.magic (img.block 0) = 0x4D565346
  inode_bitmap_start : sb.inode_bitmap_start (img.block 0) = 1
  data_bitmap_start : sb.data_bitmap_start (img.block 0) = 2
  inode_table_start : sb.inode_table_start (img.block 0) = 3
  inode_table_blocks : 1 ≤ sb.inode_table_blocks (img.block 0)
  data_region_start :
    sb.data_region_start (img.block 0) = 3 + sb.inode_table_blocks (img.block 0)
  data_region_blocks : 1 ≤ sb.data_region_blocks (img.block 0)
  total_blocks :
    sb.total_blocks (img.block 0)
      = sb.data_region_start (img.block 0) + sb.data_region_blocks (img.block 0)
  small : sb.total_blocks (img.block 0) ≤ 2 ^ 20
  size : img.size = sb.total_blocks (img.block 0) * BS
  inode_slots : sb.inode_count (img.block 0) ≤ 32 * sb.inode_table_blocks (img.block 0)
  inode_bits : sb.inode_count (img.block 0) ≤ 8 * BS
  data_bits : sb.data_region_blocks (img.block 0) ≤ 8 * BS
  root_inode_used : bit_mask (img.block 1) 0 ≠ 0
  root_dir_block : ld32 (img.block 3) 44 = sb.data_region_start (img.block 0)
  root_dir_used : bit_mask (img.block 2) 0 ≠ 0

/-- The bit `i` of a bitmap, counted the way the claims count it: byte `i / 8`, bit
`i % 8` of that byte, least-significant bit first. -/
def bit_is_set (bitmap : Bytes) (i : Nat) : Prop := bitmap (i / 8) % 256 / 2 ^ (i % 8) % 2 = 1

instance (bitmap : Bytes) (i : Nat) : Decidable (bit_is_set bitmap i) := by
  unfold bit_is_set; infer_instance

/-- The number of set bits of a bitmap below `limit`. -/
def used_bits (bitmap : Bytes) (limit : Nat) : Nat :=
  (List.range limit).countP (fun i => decide (bit_is_set bitmap i))

/-- One step of the bit-at-a-time reflected CRC-32 with polynomial `0xEDB88320`, as
the claim words it: the register is shifted right by one bit and the polynomial is
added when the bit shifted out is 1. -/
def reflected_crc32_bit (c : Nat) : Nat :=
  if c % 2 = 1 then (c / 2) ^^^ 0xEDB88320 else c / 2

/-- The bit-at-a-time reflected CRC-32 register after the bytes of a list: each
byte is added to the low end of the register, which then takes eight steps. -/
def reflected_crc32_register : List Nat → Nat
  | [] => 0xFFFFFFFF
  | b :: bs =>
    reflected_crc32_bit^[8] (reflected_crc32_register bs ^^^ b)

/-- The standard CRC-32 of a list of bytes, as the claim words it: reflected,
polynomial `0xEDB88320`, initial value `0xFFFFFFFF`, final XOR `0xFFFFFFFF`. -/
def reflected_crc32 (bytes : List Nat) : Nat :=
  reflected_crc32_register bytes.reverse ^^^ 0xFFFFFFFF

/-- The first `n` bytes of a buffer, as the `uint8_t` values the code reads. -/
def bytes_of (p : Bytes) (n : Nat) : List Nat := (List.range n).map (fun i => p i % 256)

/-- The XOR of a list of bytes. -/
def xor_all (bytes : List Nat) : Nat := bytes.foldl (fun x b => x ^^^ b) 0

/-- Runs of the ingestor one after another, each taking the previous output as its
input: the output of the last run, or the first failure. An item is the base name,
the content and the value of `time(NULL)` of one run. -/
def ingest_all : File → List (List Nat × File × Nat) → Except Err File
  | img, [] => .ok img
  | img, (filename, file, now) :: rest =>
    match main img filename file now with
    | .ok out => ingest_all out rest
    | .error e => .error e

/-- The inode record with bitmap bit `i` (inode number `i + 1`) of an image: the 128
bytes at offset `i * 128` of the inode table. -/
def inode_at (img : File) (i : Nat) : Bytes :=
  slice img.data (sb.inode_table_start (img.block 0) * BS + i * INODE_SIZE) INODE_SIZE

/-- The images reachable from an output of the formatter by successful ingests of
source files that satisfy `P`. -/
inductive ReachableBy (P : File → Prop) : File → Prop
  | format {size_kib inode_count : Int} {now_sb now_ino : Nat} {img : File} :
      mkfs_builder.main size_kib inode_count now_sb now_ino = .ok img → ReachableBy P img
  | ingest {input : File} {filename : List Nat} {file : File} {now : Nat} {out : File} :
      ReachableBy P input → P file → main input filename file now = .ok out →
      ReachableBy P out

/-- The images reachable from an output of the formatter by any sequence of
successful ingests. -/
def Reachable (img : File) : Prop := ReachableBy (fun _ => True) img

/-- A well-formed image that holds the root directory and `n` files and nothing
else: of its inodes exactly the first `n + 1` are allocated, of the 64 slots of the
root directory block exactly the first `n + 2` are used, and `room` more data blocks
are free. -/
structure Holds (n room : Nat) (img : File) : Prop where
  wf : WellFormed img
  inodes : 64 ≤ sb.inode_count (img.block 0)
  inode_bits : ∀ i, i < sb.inode_count (img.block 0) →
    (bit_mask (img.block 1) i ≠ 0 ↔ i ≤ n)
  slots : ∀ s, s < 64 →
    (ld32 (img.block (sb.data_region_start (img.block 0))) (64 * s) ≠ 0 ↔ s < n + 2)
  free : room ≤ (clear_bits (img.block 2) (sb.data_region_blocks (img.block 0))).length

end mkfs_adder

/-! ## Reading a file back, and concrete inputs -/

namespace mkfs_adder

open MiniVSFS

/-- The error a run ends with, `none` for a run that succeeds. -/
def outcome (r : Except Err File) : Option Err :=
  match r with
  | .ok _ => none
  | .error e => some e

/-- The image a run produced; the empty file for a run that failed. -/
def result (r : Except Err File) : File :=
  match r with
  | .ok f => f
  | .error _ => { size := 0, data := zeros }

/-- The non-zero direct pointers of an inode record, in index order. -/
def nonzero_direct (ino : Bytes) : List Nat :=
  ((List.range 12).map (fun t => ld32 ino (44 + 4 * t))).filter (fun p => p ≠ 0)

/-- What a reader gets from an image through an inode record: the blocks named by
the non-zero direct pointers in index order, concatenated, cut to `size_bytes`. -/
def read_back (img : File) (ino : Bytes) : List Nat :=
  ((nonzero_direct ino).flatMap
    (fun p => (List.range BS).map (fun j => img.data (p * BS + j)))).take (ld64 ino 12)

/-- The bytes of a file, in order. -/
def content (f : File) : List Nat := (List.range f.size).map f.data

/-- A file with one changed byte. -/
def poke (f : File) (i v : Nat) : File :=
  { size := f.size, data := fun j => if j = i then v else f.data j }

/-- A source file of `n` bytes (letters `A` to `Z`, repeated). -/
def letters (n : Nat) : File :=
  { size := n, data := fun i => if i < n then 65 + i % 26 else 0 }

/-- The image written by the formatter for `size_kib = 180`, `inode_count = 128`. -/
def fresh : File := mkfs_builder.image 180 128 1700000000 1700000000

/-- The image `fresh` with the low byte of its stored superblock checksum changed. -/
def stale : File := poke fresh 112 ((fresh.data 112 + 1) % 256)

/-- The image `fresh` with every bit of its two bitmap blocks set. -/
def full : File :=
  { size := fresh.size, data := fun i => if BS ≤ i ∧ i < 3 * BS then 255 else fresh.data i }

/-- The first block of the image `fresh`, and nothing else. -/
def truncated : File := { size := BS, data := fresh.data }

/-- The image `fresh` with `data_region_start` set to 0 in its superblock and bit 0
of its data bitmap cleared. -/
def crafted : File := poke (poke fresh 76 0) (2 * BS) 0

/-- The image `fresh` with bit 0 of its data bitmap, the bit of the root directory
block, cleared. -/
def unmarked : File := poke fresh (2 * BS) 0

/-- The image `fresh` with `data_region_start` set to 45, the number of blocks of
the image, in its superblock. -/
def stretched : File := poke fresh 76 45

/-- The nine ASCII bytes `123456789`. -/
def check_string : Bytes := fun i => [49, 50, 51, 52, 53, 54, 55, 56, 57].getD i 0

/-- A source file without content. -/
def empty_file : File := { size := 0, data := zeros }

/-- A source file of `2^44` bytes, all zero. -/
def huge : File := { size := 2 ^ 44, data := zeros }

/-- The image written by the formatter for `size_kib = 1024`, `inode_count = 128`:
its data region has 249 blocks. -/
def roomy : File := mkfs_builder.image 1024 128 1700000000 1700000000

/-- The first `n` of a series of distinct small files: file `j` has the three-letter
name made of the base-26 digits of `j`, `j + 1` bytes of content, and is ingested at
time `1700000001 + j`. -/
def batch (n : Nat) : List (List Nat × File × Nat) :=
  (List.range n).map (fun j =>
    ([97 + j / 676 % 26, 97 + j / 26 % 26, 97 + j % 26], letters (j + 1), 1700000001 + j))

end mkfs_adder

/-! # Theorems -/

/-! ## Loads, stores, checksums and file writes -/

open MiniVSFS

namespace MiniVSFS

theorem st_apply (w : Nat) (m : Bytes) (o v i : Nat) :
    st w m o v i = if o ≤ i ∧ i < o + w then v / 256 ^ (i - o) % 256 else m i := rfl

theorem st_outside {w : Nat} {m : Bytes} {o v i : Nat} (h : i < o ∨ o + w ≤ i) :
    st w m o v i = m i := by
  rw [st_apply, if_neg]; omega

theorem st_inside {w : Nat} {m : Bytes} {o v i : Nat} (h : o ≤ i ∧ i < o + w) :
    st w m o v i = v / 256 ^ (i - o) % 256 := by
  rw [st_apply, if_pos h]

theorem ld8_st8 (m : Bytes) (o v : Nat) : ld8 (st8 m o v) o = v % 256 := by
  simp [ld8, st8, st_apply]

theorem ld16_st16 (m : Bytes) (o v : Nat) : ld16 (st16 m o v) o = v % 2 ^ 16 := by
  simp [ld16, st16, st_apply]
  omega

theorem ld32_st32 (m : Bytes) (o v : Nat) : ld32 (st32 m o v) o = v % 2 ^ 32 := by
  simp [ld32, st32, st_apply]
  omega

theorem ld64_st64 (m : Bytes) (o v : Nat) : ld64 (st64 m o v) o = v % 2 ^ 64 := by
  simp [ld64, ld32, st64, st_apply, Nat.add_assoc]
  omega

theorem ld32_congr {a b : Bytes} {o o' : Nat} (h : ∀ j, j < 4 → a (o + j) = b (o' + j)) :
    ld32 a o = ld32 b o' := by
  have h0 := h 0 (by omega); have h1 := h 1 (by omega)
  have h2 := h 2 (by omega); have h3 := h 3 (by omega)
  simp only [Nat.add_zero] at h0
  simp only [ld32, h0, h1, h2, h3]

theorem ld64_congr {a b : Bytes} {o o' : Nat} (h : ∀ j, j < 8 → a (o + j) = b (o' + j)) :
    ld64 a o = ld64 b o' := by
  unfold ld64
  rw [@ld32_congr a b o o' (fun j hj => h j (by omega)),
    @ld32_congr a b (o + 4) (o' + 4)
      (fun j hj => by have := h (4 + j) (by omega); simpa [Nat.add_assoc] using this)]

theorem ld16_congr {a b : Bytes} {o o' : Nat} (h : ∀ j, j < 2 → a (o + j) = b (o' + j)) :
    ld16 a o = ld16 b o' := by
  have h0 := h 0 (by omega); have h1 := h 1 (by omega)
  simp only [Nat.add_zero] at h0
  simp only [ld16, h0, h1]

theorem ld32_lt (m : Bytes) (o : Nat) : ld32 m o < 2 ^ 32 := by
  unfold ld32; omega

theorem ld64_lt (m : Bytes) (o : Nat) : ld64 m o < 2 ^ 64 := by
  have h1 := ld32_lt m o; have h2 := ld32_lt m (o + 4)
  unfold ld64; omega

theorem ld16_lt (m : Bytes) (o : Nat) : ld16 m o < 2 ^ 16 := by
  unfold ld16; omega

end MiniVSFS
namespace MiniVSFS

theorem crc32_round_lt {c : Nat} (h : c < 2 ^ 32) : crc32_round c < 2 ^ 32 := by
  unfold crc32_round
  have h1 : c >>> 1 < 2 ^ 32 := by
    rw [Nat.shiftRight_eq_div_pow]; omega
  split
  · exact Nat.xor_lt_two_pow (by norm_num) h1
  · exact h1

theorem crc32_rounds_lt (j : Nat) {c : Nat} (h : c < 2 ^ 32) : crc32_rounds j c < 2 ^ 32 := by
  induction j generalizing c with
  | zero => simpa [crc32_rounds] using h
  | succ j ih => exact ih (crc32_round_lt h)

theorem CRC32_TAB_lt {i : Nat} (h : i < 2 ^ 32) : CRC32_TAB i < 2 ^ 32 :=
  crc32_rounds_lt 8 h

theorem crc32_loop_lt (p : Bytes) (n : Nat) : crc32_loop p n < 2 ^ 32 := by
  induction n with
  | zero => simp [crc32_loop]
  | succ n ih =>
    simp only [crc32_loop]
    apply Nat.xor_lt_two_pow
    · apply CRC32_TAB_lt
      exact Nat.lt_trans (Nat.and_lt_two_pow _ (by norm_num : 255 < 2 ^ 8)) (by norm_num)
    · rw [Nat.shiftRight_eq_div_pow]; omega

theorem crc32_lt (p : Bytes) (n : Nat) : crc32 p n < 2 ^ 32 :=
  Nat.xor_lt_two_pow (crc32_loop_lt p n) (by norm_num)

theorem crc32_loop_congr {p q : Bytes} {n : Nat} (h : ∀ i, i < n → p i % 256 = q i % 256) :
    crc32_loop p n = crc32_loop q n := by
  induction n with
  | zero => rfl
  | succ n ih =>
    simp only [crc32_loop]
    rw [ih (fun i hi => h i (by omega)), h n (by omega)]

theorem crc32_congr {p q : Bytes} {n : Nat} (h : ∀ i, i < n → p i % 256 = q i % 256) :
    crc32 p n = crc32 q n := by
  unfold crc32; rw [crc32_loop_congr h]

theorem dirent_xor_congr {p q : Bytes} {n : Nat} (h : ∀ i, i < n → p i % 256 = q i % 256) :
    dirent_xor p n = dirent_xor q n := by
  induction n with
  | zero => rfl
  | succ n ih =>
    simp only [dirent_xor]
    rw [ih (fun i hi => h i (by omega)), h n (by omega)]

theorem dirent_xor_lt (p : Bytes) (n : Nat) : dirent_xor p n < 2 ^ 8 := by
  induction n with
  | zero => simp [dirent_xor]
  | succ n ih =>
    simp only [dirent_xor]
    exact Nat.xor_lt_two_pow ih (by omega)

/-! File writes -/

theorem fwrite_size (f : File) (pos : Nat) (buf : Bytes) (n : Nat) :
    (fwrite f pos buf n).size = max f.size (pos + n) := rfl

theorem fwrite_data (f : File) (pos : Nat) (buf : Bytes) (n i : Nat) :
    (fwrite f pos buf n).data i =
      if pos ≤ i ∧ i < pos + n then buf (i - pos) else if i < f.size then f.data i else 0 := rfl

theorem slice_apply (m : Bytes) (o n i : Nat) :
    slice m o n i = if i < n then m (o + i) else 0 := rfl

theorem memcpy_apply (dst : Bytes) (o : Nat) (src : Bytes) (n i : Nat) :
    memcpy dst o src n i = if o ≤ i ∧ i < o + n then src (i - o) else dst i := rfl

end MiniVSFS

namespace mkfs_builder

theorem write_inode_table_size (root : Bytes) (f : File) (n : Nat) :
    (write_inode_table root f n).size = f.size + n * BS := by
  induction n with
  | zero => simp [write_inode_table]
  | succ n ih =>
    simp only [write_inode_table, fwrite_size, ih]
    rw [Nat.succ_mul]; omega

theorem write_inode_table_old (root : Bytes) (f : File) (n i : Nat) (h : i < f.size) :
    (write_inode_table root f n).data i = f.data i := by
  induction n with
  | zero => simp [write_inode_table]
  | succ n ih =>
    simp only [write_inode_table, fwrite_data, write_inode_table_size, ih]
    have : ¬ (f.size + n * BS ≤ i ∧ i < f.size + n * BS + BS) := by omega
    rw [if_neg this, if_pos (by omega)]

theorem write_inode_table_new (root : Bytes) (f : File) (n i : Nat) (h1 : f.size ≤ i)
    (h2 : i < f.size + n * BS) :
    (write_inode_table root f n).data i =
      if i - f.size < INODE_SIZE then root (i - f.size) else 0 := by
  induction n with
  | zero => omega
  | succ n ih =>
    simp only [write_inode_table, fwrite_data, write_inode_table_size]
    rw [Nat.succ_mul] at h2
    by_cases h3 : i < f.size + n * BS
    · have : ¬ (f.size + n * BS ≤ i ∧ i < f.size + n * BS + BS) := by omega
      rw [if_neg this, if_pos h3, ih h3]
    · have : (f.size + n * BS ≤ i ∧ i < f.size + n * BS + BS) := by omega
      rw [if_pos this]
      by_cases h0 : n = 0
      · subst h0
        simp only [Nat.zero_mul, Nat.add_zero, if_true, memcpy_apply, zeros, Nat.zero_add,
          Nat.zero_le, true_and, Nat.sub_zero]
      · have hn : BS ≤ n * BS := Nat.le_mul_of_pos_left _ (by omega)
        have h4 : ¬ (i - f.size < INODE_SIZE) := by
          simp only [BS, INODE_SIZE] at *; omega
        simp only [h0, if_false, zeros, h4]

theorem write_zero_blocks_size (f : File) (n : Nat) :
    (write_zero_blocks f n).size = f.size + n * BS := by
  induction n with
  | zero => simp [write_zero_blocks]
  | succ n ih =>
    simp only [write_zero_blocks, fwrite_size, ih]
    rw [Nat.succ_mul]; omega

theorem write_zero_blocks_old (f : File) (n i : Nat) (h : i < f.size) :
    (write_zero_blocks f n).data i = f.data i := by
  induction n with
  | zero => simp [write_zero_blocks]
  | succ n ih =>
    simp only [write_zero_blocks, fwrite_data, write_zero_blocks_size, ih]
    have : ¬ (f.size + n * BS ≤ i ∧ i < f.size + n * BS + BS) := by omega
    rw [if_neg this, if_pos (by omega)]

theorem write_zero_blocks_new (f : File) (n i : Nat) (h1 : f.size ≤ i)
    (h2 : i < f.size + n * BS) : (write_zero_blocks f n).data i = 0 := by
  induction n with
  | zero => omega
  | succ n ih =>
    simp only [write_zero_blocks, fwrite_data, write_zero_blocks_size]
    rw [Nat.succ_mul] at h2
    by_cases h3 : i < f.size + n * BS
    · have : ¬ (f.size + n * BS ≤ i ∧ i < f.size + n * BS + BS) := by omega
      rw [if_neg this, if_pos h3, ih h3]
    · have : (f.size + n * BS ≤ i ∧ i < f.size + n * BS + BS) := by omega
      rw [if_pos this]; rfl

end mkfs_builder

namespace mkfs_builder
theorem layout_facts (size_kib inode_count : Int) (hv : validated size_kib inode_count) :
    total_blocks size_kib = size_kib.toNat * 1024 / 4096 ∧
    inode_table_blocks inode_count = (inode_count.toNat * 128 + 4095) / 4096 ∧
    data_region_start inode_count = 3 + inode_table_blocks inode_count ∧
    data_region_start inode_count + data_region_blocks size_kib inode_count
      = total_blocks size_kib ∧
    1 ≤ data_region_blocks size_kib inode_count ∧
    45 ≤ total_blocks size_kib ∧ total_blocks size_kib ≤ 1024 ∧
    4 ≤ inode_table_blocks inode_count ∧ inode_table_blocks inode_count ≤ 16 ∧
    of_int inode_count = inode_count.toNat := by
  unfold validated at hv
  simp only [total_blocks, inode_table_blocks, data_region_start, data_region_blocks,
    inode_table_start, u64, u32, of_int, BS, INODE_SIZE]
  norm_num
  omega

theorem image_size (s n : Int) (t1 t2 : Nat) :
    (image s n t1 t2).size =
      (3 + inode_table_blocks n + 1 + (data_region_blocks s n - 1)) * BS := by
  unfold image
  simp only [write_zero_blocks_size, fwrite_size, write_inode_table_size, BS]
  omega

theorem image_block0 (s n : Int) (t1 t2 : Nat) (j : Nat) (hj : j < BS) :
    (image s n t1 t2).data j =
      superblock_crc_finalize (memcpy zeros 0 (superblock s n t1) 116) j := by
  unfold image
  simp only []
  rw [write_zero_blocks_old, fwrite_data, write_inode_table_size, if_neg, if_pos,
    write_inode_table_old, fwrite_data, if_neg, if_pos, fwrite_data, if_neg, if_pos,
    fwrite_data, if_pos, Nat.sub_zero]
  all_goals simp only [fwrite_size, write_inode_table_size, BS] at *
  all_goals omega

theorem image_block1 (s n : Int) (t1 t2 : Nat) (j : Nat) (hj : j < BS) :
    (image s n t1 t2).data (BS + j) = st8 zeros 0 1 j := by
  unfold image
  simp only []
  rw [write_zero_blocks_old, fwrite_data, write_inode_table_size, if_neg, if_pos,
    write_inode_table_old, fwrite_data, if_neg, if_pos, fwrite_data, if_pos]
  · simp only [fwrite_size, BS]
    exact congrArg (st8 zeros 0 1) (by omega)
  all_goals simp only [fwrite_size, write_inode_table_size, BS] at *
  all_goals omega

theorem image_block2 (s n : Int) (t1 t2 : Nat) (j : Nat) (hj : j < BS) :
    (image s n t1 t2).data (2 * BS + j) = st8 zeros 0 1 j := by
  unfold image
  simp only []
  rw [write_zero_blocks_old, fwrite_data, write_inode_table_size, if_neg, if_pos,
    write_inode_table_old, fwrite_data, if_pos]
  · simp only [fwrite_size, BS]
    exact congrArg (st8 zeros 0 1) (by omega)
  all_goals simp only [fwrite_size, write_inode_table_size, BS] at *
  all_goals omega

theorem image_inode_table (s n : Int) (t1 t2 : Nat) (j : Nat)
    (hj : j < inode_table_blocks n * BS) :
    (image s n t1 t2).data (3 * BS + j) =
      if j < INODE_SIZE then root_inode n t2 j else 0 := by
  unfold image
  simp only []
  rw [write_zero_blocks_old, fwrite_data, write_inode_table_size, if_neg, if_pos,
    write_inode_table_new]
  · simp only [fwrite_size, BS]
    have : 3 * 4096 + j - max (max (max 0 (0 + 4096)) (max 0 (0 + 4096) + 4096))
        (max (max 0 (0 + 4096)) (max 0 (0 + 4096) + 4096) + 4096) = j := by omega
    rw [this]
  all_goals simp only [fwrite_size, write_inode_table_size, BS] at *
  all_goals omega

theorem image_root_dir (s n : Int) (t1 t2 : Nat) (j : Nat) (hj : j < BS) :
    (image s n t1 t2).data ((3 + inode_table_blocks n) * BS + j) =
      memcpy (memcpy zeros 0 (root_dirent [46]) 64) 64 (root_dirent [46, 46]) 64 j := by
  unfold image
  simp only []
  rw [write_zero_blocks_old, fwrite_data, write_inode_table_size, if_pos]
  · simp only [fwrite_size, BS]
    exact congrArg
      (memcpy (memcpy zeros 0 (root_dirent [46]) 64) 64 (root_dirent [46, 46]) 64) (by omega)
  all_goals simp only [fwrite_size, write_inode_table_size, BS] at *
  all_goals omega

theorem image_rest (s n : Int) (t1 t2 : Nat) (i : Nat)
    (h1 : (3 + inode_table_blocks n + 1) * BS ≤ i) (h2 : i < (image s n t1 t2).size) :
    (image s n t1 t2).data i = 0 := by
  rw [image_size] at h2
  unfold image
  simp only []
  rw [write_zero_blocks_new]
  all_goals simp only [fwrite_size, write_inode_table_size, BS] at *
  all_goals omega

end mkfs_builder

/-! ## The formatter: superblock and layout -/

namespace MiniVSFS

theorem ld32_st_rt (m : Bytes) (o v : Nat) : ld32 (st 4 m o v) o = v % 2 ^ 32 :=
  ld32_st32 m o v

theorem ld64_st_rt (m : Bytes) (o v : Nat) : ld64 (st 8 m o v) o = v % 2 ^ 64 :=
  ld64_st64 m o v

theorem ld16_st_rt (m : Bytes) (o v : Nat) : ld16 (st 2 m o v) o = v % 2 ^ 16 :=
  ld16_st16 m o v

theorem ld8_st_rt (m : Bytes) (o v : Nat) : ld8 (st 1 m o v) o = v % 256 :=
  ld8_st8 m o v

theorem ld8_st_frame {w : Nat} {m : Bytes} {o v o' : Nat} (h : o' + 1 ≤ o ∨ o + w ≤ o') :
    ld8 (st w m o v) o' = ld8 m o' := by
  unfold ld8; rw [st_outside (by omega)]

theorem ld16_st_frame {w : Nat} {m : Bytes} {o v o' : Nat} (h : o' + 2 ≤ o ∨ o + w ≤ o') :
    ld16 (st w m o v) o' = ld16 m o' :=
  ld16_congr (fun j hj => st_outside (by omega))

theorem ld32_st_frame {w : Nat} {m : Bytes} {o v o' : Nat} (h : o' + 4 ≤ o ∨ o + w ≤ o') :
    ld32 (st w m o v) o' = ld32 m o' :=
  ld32_congr (fun j hj => st_outside (by omega))

theorem ld64_st_frame {w : Nat} {m : Bytes} {o v o' : Nat} (h : o' + 8 ≤ o ∨ o + w ≤ o') :
    ld64 (st w m o v) o' = ld64 m o' :=
  ld64_congr (fun j hj => st_outside (by omega))

theorem ld32_memcpy_inside {d s : Bytes} {o n o' : Nat} (h : o ≤ o' ∧ o' + 4 ≤ o + n) :
    ld32 (memcpy d o s n) o' = ld32 s (o' - o) :=
  ld32_congr (fun j hj => by
    rw [memcpy_apply, if_pos (by omega)]; exact congrArg s (by omega))

theorem ld64_memcpy_inside {d s : Bytes} {o n o' : Nat} (h : o ≤ o' ∧ o' + 8 ≤ o + n) :
    ld64 (memcpy d o s n) o' = ld64 s (o' - o) :=
  ld64_congr (fun j hj => by
    rw [memcpy_apply, if_pos (by omega)]; exact congrArg s (by omega))

theorem ld32_slice {m : Bytes} {o n o' : Nat} (h : o' + 4 ≤ n) :
    ld32 (slice m o n) o' = ld32 m (o + o') :=
  ld32_congr (fun j hj => by
    rw [slice_apply, if_pos (by omega)]; exact congrArg m (by omega))

theorem ld64_slice {m : Bytes} {o n o' : Nat} (h : o' + 8 ≤ n) :
    ld64 (slice m o n) o' = ld64 m (o + o') :=
  ld64_congr (fun j hj => by
    rw [slice_apply, if_pos (by omega)]; exact congrArg m (by omega))

theorem ld32_zeros (o : Nat) : ld32 zeros o = 0 := by simp [ld32, zeros]

theorem ld64_zeros (o : Nat) : ld64 zeros o = 0 := by simp [ld64, ld32_zeros]

/-- The stored checksum of a finalized superblock block re-validates. -/
theorem superblock_crc_finalize_valid (block : Bytes) :
    ld32 (superblock_crc_finalize block) 112 =
      crc32 (st32 (superblock_crc_finalize block) 112 0) (BS - 4) := by
  unfold superblock_crc_finalize
  simp only [st32]
  rw [ld32_st_rt, Nat.mod_eq_of_lt (crc32_lt _ _)]
  apply crc32_congr
  intro i _
  simp only [st_apply]
  split <;> rfl

theorem superblock_crc_finalize_frame (block : Bytes) (i : Nat) (h : i < 112 ∨ 116 ≤ i) :
    superblock_crc_finalize block i = block i := by
  unfold superblock_crc_finalize
  simp only [st32]
  rw [st_outside (by omega), st_outside (by omega)]

end MiniVSFS

namespace mkfs_builder

theorem image_sb_field64 (s n : Int) (t1 t2 : Nat) (o : Nat) (h : o + 8 ≤ 112) :
    ld64 (slice (image s n t1 t2).data 0 116) o = ld64 (superblock s n t1) o := by
  apply ld64_congr
  intro j hj
  rw [slice_apply, if_pos (by omega), Nat.zero_add, image_block0 _ _ _ _ _ (by simp only [BS]; omega),
    superblock_crc_finalize_frame _ _ (by omega), memcpy_apply, if_pos (by omega), Nat.sub_zero]

theorem image_sb_field32 (s n : Int) (t1 t2 : Nat) (o : Nat) (h : o + 4 ≤ 112) :
    ld32 (slice (image s n t1 t2).data 0 116) o = ld32 (superblock s n t1) o := by
  apply ld32_congr
  intro j hj
  rw [slice_apply, if_pos (by omega), Nat.zero_add, image_block0 _ _ _ _ _ (by simp only [BS]; omega),
    superblock_crc_finalize_frame _ _ (by omega), memcpy_apply, if_pos (by omega), Nat.sub_zero]

theorem image_sb_checksum (s n : Int) (t1 t2 : Nat) :
    ld32 (slice (image s n t1 t2).data 0 116) 112 =
      crc32 (st32 ((image s n t1 t2).block 0) 112 0) (BS - 4) := by
  rw [← crc32_congr (p := st32 (superblock_crc_finalize
      (memcpy zeros 0 (superblock s n t1) 116)) 112 0), ← superblock_crc_finalize_valid]
  · apply ld32_congr
    intro j hj
    rw [slice_apply, if_pos (by omega), Nat.zero_add,
      image_block0 _ _ _ _ _ (by simp only [BS]; omega)]
  · intro i hi
    simp only [st32, st_apply, File.block, slice_apply, Nat.zero_mul, Nat.zero_add]
    split
    · rfl
    · rw [if_pos (by simp only [BS] at *; omega),
        image_block0 _ _ _ _ _ (by simp only [BS] at *; omega)]

/-- C1. Superblock round trip: for validated parameters and any 64-bit timestamp the
formatter succeeds, the first 116 bytes of its image decode (little-endian, packed)
to exactly the field values the formatter set, and the stored checksum equals the
CRC-32 of the first 4092 bytes of block 0 taken with the checksum field zeroed. -/
theorem superblock_round_trip (size_kib inode_count : Int) (now_sb now_ino : Nat)
    (hv : validated size_kib inode_count) (ht : now_sb < 2 ^ 64) :
    ∃ img, main size_kib inode_count now_sb now_ino = .ok img ∧
      (let b := slice img.data 0 116
       sb.magic b = 0x4D565346 ∧ sb.version b = 1 ∧ sb.block_size b = 4096 ∧
       sb.total_blocks b = total_blocks size_kib ∧
       (sb.inode_count b : Int) = inode_count ∧
       sb.inode_bitmap_start b = 1 ∧ sb.inode_bitmap_blocks b = 1 ∧
       sb.data_bitmap_start b = 2 ∧ sb.data_bitmap_blocks b = 1 ∧
       sb.inode_table_start b = 3 ∧
       sb.inode_table_blocks b = inode_table_blocks inode_count ∧
       sb.data_region_start b = data_region_start inode_count ∧
       sb.data_region_blocks b = data_region_blocks size_kib inode_count ∧
       sb.root_inode b = 1 ∧ sb.mtime_epoch b = now_sb ∧ sb.flags b = 0 ∧
       sb.checksum b = crc32 (st32 (img.block 0) 112 0) (BS - 4)) := by
  obtain ⟨h1, h2, h3, h4, h5, h6, h7, h8, h9, h10⟩ := layout_facts size_kib inode_count hv
  refine ⟨image size_kib inode_count now_sb now_ino, ?_, ?_⟩
  · unfold main
    rw [if_neg (not_not.mpr hv), if_neg (by omega)]
  · have hic : (of_int inode_count : Int) = inode_count := by
      unfold validated at hv; rw [h10]; omega
    simp only [sb.magic, sb.version, sb.block_size, sb.total_blocks, sb.inode_count,
      sb.inode_bitmap_start, sb.inode_bitmap_blocks, sb.data_bitmap_start,
      sb.data_bitmap_blocks, sb.inode_table_start, sb.inode_table_blocks,
      sb.data_region_start, sb.data_region_blocks, sb.root_inode, sb.mtime_epoch, sb.flags,
      sb.checksum]
    rw [image_sb_checksum]
    simp only [image_sb_field64 _ _ _ _ _ (by decide : 12 + 8 ≤ 112), image_sb_field32,
      image_sb_field64, Nat.reduceAdd, Nat.reduceLeDiff, superblock, st32, st64,
      ld32_st_rt, ld64_st_rt, ld32_st_frame, ld64_st_frame, inode_bitmap_start,
      data_bitmap_start, inode_table_start, ROOT_INO, BS, true_or, or_true]
    unfold validated at hv
    norm_num at ht ⊢
    omega

/-- Witness of `superblock_round_trip` at `size_kib = 180`, `inode_count = 128`. -/
theorem superblock_round_trip_witness :
    validated 180 128 ∧ (1700000000 : Nat) < 2 ^ 64 ∧
    ∃ img, main 180 128 1700000000 1700000001 = .ok img ∧
      sb.magic (slice img.data 0 116) = 0x4D565346 ∧
      sb.total_blocks (slice img.data 0 116) = total_blocks 180 ∧
      sb.mtime_epoch (slice img.data 0 116) = 1700000000 ∧
      sb.checksum (slice img.data 0 116) = crc32 (st32 (img.block 0) 112 0) (BS - 4) := by
  refine ⟨by decide, by decide, ?_⟩
  obtain ⟨img, h, h1, _, _, h4, _, _, _, _, _, _, _, _, _, _, h15, _, h17⟩ :=
    superblock_round_trip 180 128 1700000000 1700000001 (by decide) (by decide)
  exact ⟨img, h, h1, h4, h15, h17⟩

/-- C3. Layout calculation: for validated parameters the formatter's
`total_blocks`, `inode_table_blocks`, `data_region_start` and `data_region_blocks`
are `size_kib*1024/4096`, `ceil(inode_count*128/4096)`, `3 + inode_table_blocks` and
`total_blocks - data_region_start` with no wrap-around; the region starts are
strictly increasing, consecutive regions are adjacent, the data region has at least
one block, and `main` does not fail with `LayoutError`; for `(180, 128)` the values
are 45, 4, 7 and 38. -/
theorem layout_calculation (size_kib inode_count : Int)
    (hv : validated size_kib inode_count) :
    ((total_blocks size_kib : Int) = size_kib * 1024 / 4096 ∧
     (inode_table_blocks inode_count : Int) = (inode_count * 128 + 4095) / 4096 ∧
     inode_count * 128 ≤ (inode_table_blocks inode_count : Int) * 4096 ∧
     ((inode_table_blocks inode_count : Int) - 1) * 4096 < inode_count * 128 ∧
     data_region_start inode_count = 3 + inode_table_blocks inode_count ∧
     (data_region_blocks size_kib inode_count : Int)
       = (total_blocks size_kib : Int) - (data_region_start inode_count : Int)) ∧
    (0 < inode_bitmap_start ∧ inode_bitmap_start < data_bitmap_start ∧
     data_bitmap_start < inode_table_start ∧
     inode_table_start < data_region_start inode_count ∧
     data_region_start inode_count < total_blocks size_kib) ∧
    (0 + 1 = inode_bitmap_start ∧ inode_bitmap_start + 1 = data_bitmap_start ∧
     data_bitmap_start + 1 = inode_table_start ∧
     inode_table_start + inode_table_blocks inode_count = data_region_start inode_count ∧
     data_region_start inode_count + data_region_blocks size_kib inode_count
       = total_blocks size_kib) ∧
    1 ≤ data_region_blocks size_kib inode_count ∧
    (∀ now_sb now_ino, ∃ img, main size_kib inode_count now_sb now_ino = .ok img) ∧
    (total_blocks 180 = 45 ∧ inode_table_blocks 128 = 4 ∧ data_region_start 128 = 7 ∧
     data_region_blocks 180 128 = 38) := by
  obtain ⟨h1, h2, h3, h4, h5, h6, h7, h8, h9, h10⟩ := layout_facts size_kib inode_count hv
  have hv' := hv
  unfold validated at hv'
  have hs : inode_table_start = 3 := rfl
  refine ⟨⟨by omega, by omega, by omega, by omega, h3, by omega⟩,
    ⟨by decide, by decide, by decide, by omega, by omega⟩,
    ⟨by decide, by decide, by decide, by omega, h4⟩, h5, ?_, by decide⟩
  intro t1 t2
  refine ⟨image size_kib inode_count t1 t2, ?_⟩
  unfold main
  rw [if_neg (not_not.mpr hv), if_neg (by omega)]

/-- Witness of `layout_calculation` at `size_kib = 180`, `inode_count = 128`. -/
theorem layout_calculation_witness :
    validated 180 128 ∧ data_region_start 128 < total_blocks 180 ∧
      1 ≤ data_region_blocks 180 128 ∧
      (∀ now_sb now_ino, ∃ img, main 180 128 now_sb now_ino = .ok img) :=
  ⟨by decide, (layout_calculation 180 128 (by decide)).2.1.2.2.2.2,
    (layout_calculation 180 128 (by decide)).2.2.2.1,
    (layout_calculation 180 128 (by decide)).2.2.2.2.1⟩

end mkfs_builder

/-! ## The formatter: root inode, root directory and regions -/

namespace MiniVSFS

theorem inode_crc_finalize_frame (m : Bytes) (o i : Nat) (h : i < o + 120 ∨ o + 128 ≤ i) :
    inode_crc_finalize m o i = m i := by
  unfold inode_crc_finalize
  simp only [st64]
  rw [st_outside (by omega)]

/-- The checksum stored by `inode_crc_finalize` is the CRC-32 of the first 120
bytes of the finalized record, widened to 64 bits. -/
theorem inode_crc_finalize_crc (m : Bytes) (o : Nat) :
    ld64 (inode_crc_finalize m o) (o + 120) =
      crc32 (slice (inode_crc_finalize m o) o INODE_SIZE) 120 := by
  have hc : crc32 (slice (inode_crc_finalize m o) o INODE_SIZE) 120 =
      crc32 (st64 (slice m o INODE_SIZE) 120 0) 120 := by
    apply crc32_congr
    intro i hi
    rw [slice_apply, if_pos (by simp only [INODE_SIZE]; omega),
      inode_crc_finalize_frame _ _ _ (by omega)]
    simp only [st64]
    rw [st_outside (by omega), slice_apply, if_pos (by simp only [INODE_SIZE]; omega)]
  rw [hc]
  unfold inode_crc_finalize
  simp only [st64]
  rw [ld64_st_rt, Nat.mod_eq_of_lt]
  exact Nat.lt_trans (crc32_lt _ _) (by norm_num)

theorem inode_crc_finalize_crc0 (m : Bytes) :
    ld64 (inode_crc_finalize m 0) 120 = crc32 (inode_crc_finalize m 0) 120 := by
  have h := inode_crc_finalize_crc m 0
  rw [Nat.zero_add] at h
  rw [h]
  apply crc32_congr
  intro i hi
  rw [slice_apply, if_pos (by simp only [INODE_SIZE]; omega), Nat.zero_add]

theorem dirent_checksum_finalize_frame (m : Bytes) (o i : Nat) (h : i ≠ o + 63) :
    dirent_checksum_finalize m o i = m i := by
  unfold dirent_checksum_finalize
  simp only [st8]
  rw [st_outside (by omega)]

/-- The checksum byte stored by `dirent_checksum_finalize` is the XOR of the first
63 bytes of the finalized entry. -/
theorem dirent_checksum_finalize_xor (m : Bytes) (o : Nat) :
    dirent_checksum_finalize m o (o + 63) =
      dirent_xor (slice (dirent_checksum_finalize m o) o 64) 63 := by
  have hc : dirent_xor (slice (dirent_checksum_finalize m o) o 64) 63 =
      dirent_xor (slice m o 64) 63 := by
    apply dirent_xor_congr
    intro i hi
    rw [slice_apply, if_pos (by omega), dirent_checksum_finalize_frame _ _ _ (by omega),
      slice_apply, if_pos (by omega)]
  rw [hc]
  unfold dirent_checksum_finalize
  simp only [st8]
  rw [st_inside (by omega), Nat.sub_self, Nat.pow_zero, Nat.div_one, Nat.mod_eq_of_lt]
  exact dirent_xor_lt _ _

end MiniVSFS

namespace mkfs_builder

theorem root_inode_fields (n : Int) (t : Nat) (hn : data_region_start n < 2 ^ 32) :
    ld16 (root_inode n t) 0 = 0o40000 ∧ ld16 (root_inode n t) 2 = 2 ∧
    ld64 (root_inode n t) 12 = 128 ∧ ld32 (root_inode n t) 44 = data_region_start n ∧
    (∀ k, 1 ≤ k → k < 12 → ld32 (root_inode n t) (44 + 4 * k) = 0) ∧
    ld64 (root_inode n t) 120 = crc32 (root_inode n t) 120 := by
  have hcrc : ld64 (root_inode n t) 120 = crc32 (root_inode n t) 120 := by
    unfold root_inode
    exact inode_crc_finalize_crc0 _
  refine ⟨?_, ?_, ?_, ?_, ?_, hcrc⟩
  · unfold root_inode inode_crc_finalize
    simp [st16, st32, st64, ld16_st_frame, ld16_st_rt]
  · unfold root_inode inode_crc_finalize
    simp [st16, st32, st64, ld16_st_frame, ld16_st_rt]
  · unfold root_inode inode_crc_finalize
    simp [st16, st32, st64, ld64_st_frame, ld64_st_rt]
  · unfold root_inode inode_crc_finalize
    simp [st16, st32, st64, ld32_st_frame, ld32_st_rt]
    omega
  · intro k hk1 hk2
    unfold root_inode inode_crc_finalize
    interval_cases k <;> simp [st16, st32, st64, ld32_st_frame, ld32_st_rt]


theorem root_dirent_dot_bytes (j : Nat) (h : j ≠ 63) :
    root_dirent [46] j = if j = 0 then 1 else if j = 4 then 2 else if j = 5 then 46 else 0 := by
  unfold root_dirent
  rw [dirent_checksum_finalize_frame _ _ _ (by omega)]
  simp only [strcpy_name, st8, st32, ROOT_INO]
  rcases Nat.lt_or_ge j 8 with h8 | h8
  · interval_cases j <;> simp [st_apply, zeros]
  · rw [st_outside (by omega), st_outside (by omega), st_outside (by omega),
      st_outside (by omega)]
    simp only [zeros]
    rw [if_neg (by omega), if_neg (by omega), if_neg (by omega)]

theorem root_dirent_dotdot_bytes (j : Nat) (h : j ≠ 63) :
    root_dirent [46, 46] j =
      if j = 0 then 1 else if j = 4 then 2 else if j = 5 then 46 else if j = 6 then 46
      else 0 := by
  unfold root_dirent
  rw [dirent_checksum_finalize_frame _ _ _ (by omega)]
  simp only [strcpy_name, st8, st32, ROOT_INO]
  rcases Nat.lt_or_ge j 8 with h8 | h8
  · interval_cases j <;> simp [st_apply, zeros]
  · rw [st_outside (by omega), st_outside (by omega), st_outside (by omega),
      st_outside (by omega), st_outside (by omega)]
    simp only [zeros]
    rw [if_neg (by omega), if_neg (by omega), if_neg (by omega), if_neg (by omega)]

theorem root_dirent_checksum (name : List Nat) :
    root_dirent name 63 = dirent_xor (root_dirent name) 63 := by
  unfold root_dirent
  have h := dirent_checksum_finalize_xor (strcpy_name (st8 (st32 zeros 0 ROOT_INO) 4 2) 5 name) 0
  rw [Nat.zero_add] at h
  rw [h]
  apply dirent_xor_congr
  intro i hi
  rw [slice_apply, if_pos (by omega), Nat.zero_add]

theorem image_root_inode (s n : Int) (t1 t2 : Nat) (hv : validated s n) (j : Nat)
    (hj : j < INODE_SIZE) :
    slice (image s n t1 t2).data (inode_table_start * BS) INODE_SIZE j = root_inode n t2 j := by
  obtain ⟨h1, h2, h3, h4, h5, h6, h7, h8, h9, h10⟩ := layout_facts s n hv
  rw [slice_apply, if_pos hj]
  have h := image_inode_table s n t1 t2 j (by simp only [BS, INODE_SIZE] at *; omega)
  rw [if_pos hj] at h
  exact h

theorem image_root_dir_block (s n : Int) (t1 t2 : Nat) (hv : validated s n) (j : Nat)
    (hj : j < BS) :
    (image s n t1 t2).block
        (ld32 (slice (image s n t1 t2).data (inode_table_start * BS) INODE_SIZE) 44) j =
      memcpy (memcpy zeros 0 (root_dirent [46]) 64) 64 (root_dirent [46, 46]) 64 j := by
  obtain ⟨h1, h2, h3, h4, h5, h6, h7, h8, h9, h10⟩ := layout_facts s n hv
  have hd : ld32 (slice (image s n t1 t2).data (inode_table_start * BS) INODE_SIZE) 44
      = 3 + inode_table_blocks n := by
    rw [ld32_congr (b := root_inode n t2)
      (fun j hj => image_root_inode s n t1 t2 hv _ (by simp only [INODE_SIZE]; omega)),
      (root_inode_fields n t2 (by omega)).2.2.2.1, h3]
  rw [hd, File.block, slice_apply, if_pos hj, image_root_dir _ _ _ _ _ hj]

/-- C9. Root directory of a fresh image: for validated parameters, slot 0 of the
inode table of the formatter's image holds an inode with mode 040000, links 2,
size 128, `direct[0] = data_region_start`, `direct[1..11] = 0` and `inode_crc` equal
to the CRC-32 of its first 120 bytes; every other byte of the inode table is zero;
the block `direct[0]` points to holds the entries `(1, 2, ".")` and `(1, 2, "..")`
in slots 0 and 1, each with its checksum byte equal to the XOR of its first 63
bytes, and the remaining 62 slots are zero. -/
theorem fresh_root_directory (size_kib inode_count : Int) (now_sb now_ino : Nat)
    (hv : validated size_kib inode_count) :
    ∃ img, main size_kib inode_count now_sb now_ino = .ok img ∧
      (let ino := slice img.data (inode_table_start * BS) INODE_SIZE
       ld16 ino 0 = 0o40000 ∧ ld16 ino 2 = 2 ∧ ld64 ino 12 = 128 ∧
       ld32 ino 44 = data_region_start inode_count ∧
       (∀ k, 1 ≤ k → k < 12 → ld32 ino (44 + 4 * k) = 0) ∧
       ld64 ino 120 = crc32 ino 120) ∧
      (∀ j, INODE_SIZE ≤ j → j < inode_table_blocks inode_count * BS →
         img.data (inode_table_start * BS + j) = 0) ∧
      (let dir := img.block (ld32 (slice img.data (inode_table_start * BS) INODE_SIZE) 44)
       (ld32 dir 0 = 1 ∧ ld8 dir 4 = 2 ∧ dir 5 = 46 ∧ (∀ j, 6 ≤ j → j < 63 → dir j = 0) ∧
        dir 63 = dirent_xor (slice dir 0 64) 63) ∧
       (ld32 dir 64 = 1 ∧ ld8 dir 68 = 2 ∧ dir 69 = 46 ∧ dir 70 = 46 ∧
        (∀ j, 71 ≤ j → j < 127 → dir j = 0) ∧
        dir 127 = dirent_xor (slice dir 64 64) 63) ∧
       (∀ j, 128 ≤ j → j < BS → dir j = 0)) := by
  obtain ⟨h1, h2, h3, h4, h5, h6, h7, h8, h9, h10⟩ := layout_facts size_kib inode_count hv
  refine ⟨image size_kib inode_count now_sb now_ino, ?_, ?_, ?_, ?_⟩
  · unfold main
    rw [if_neg (not_not.mpr hv), if_neg (by omega)]
  · obtain ⟨r1, r2, r3, r4, r5, r6⟩ := root_inode_fields inode_count now_ino (by omega)
    have he := image_root_inode size_kib inode_count now_sb now_ino hv
    refine ⟨?_, ?_, ?_, ?_, ?_, ?_⟩
    · rw [← r1]
      exact ld16_congr (fun j hj => he _ (by simp only [INODE_SIZE]; omega))
    · rw [← r2]
      exact ld16_congr (fun j hj => he _ (by simp only [INODE_SIZE]; omega))
    · rw [← r3]
      exact ld64_congr (fun j hj => he _ (by simp only [INODE_SIZE]; omega))
    · rw [← r4]
      exact ld32_congr (fun j hj => he _ (by simp only [INODE_SIZE]; omega))
    · intro k hk1 hk2
      rw [← r5 k hk1 hk2]
      exact ld32_congr (fun j hj => he _ (by simp only [INODE_SIZE]; omega))
    · rw [ld64_congr (b := root_inode inode_count now_ino)
        (fun j hj => he _ (by simp only [INODE_SIZE]; omega)), r6]
      apply crc32_congr
      intro i hi
      rw [he _ (by simp only [INODE_SIZE]; omega)]
  · intro j hj1 hj2
    have h := image_inode_table size_kib inode_count now_sb now_ino j hj2
    rw [if_neg (by omega)] at h
    exact h
  · have hb := image_root_dir_block size_kib inode_count now_sb now_ino hv
    have hlo : ∀ j, j < 64 →
        (image size_kib inode_count now_sb now_ino).block
          (ld32 (slice (image size_kib inode_count now_sb now_ino).data
            (inode_table_start * BS) INODE_SIZE) 44) j = root_dirent [46] j := by
      intro j hj
      rw [hb j (by simp only [BS]; omega), memcpy_apply, if_neg (by omega), memcpy_apply,
        if_pos (by omega), Nat.sub_zero]
    have hhi : ∀ j, j < 64 →
        (image size_kib inode_count now_sb now_ino).block
          (ld32 (slice (image size_kib inode_count now_sb now_ino).data
            (inode_table_start * BS) INODE_SIZE) 44) (64 + j) = root_dirent [46, 46] j := by
      intro j hj
      rw [hb _ (by simp only [BS]; omega), memcpy_apply, if_pos (by omega)]
      exact congrArg _ (by omega)
    obtain ⟨d1, d2⟩ := (⟨root_dirent_dot_bytes, root_dirent_dotdot_bytes⟩ :
      (∀ j, j ≠ 63 → root_dirent [46] j = _) ∧ (∀ j, j ≠ 63 → root_dirent [46, 46] j = _))
    refine ⟨⟨?_, ?_, ?_, ?_, ?_⟩, ⟨?_, ?_, ?_, ?_, ?_, ?_⟩, ?_⟩
    · rw [ld32_congr (b := root_dirent [46]) (fun j hj => by
        rw [hlo _ (by omega)])]
      simp [ld32, d1]
    · unfold ld8
      rw [hlo _ (by omega), d1 _ (by omega)]; rfl
    · rw [hlo _ (by omega), d1 _ (by omega)]; rfl
    · intro j hj1 hj2
      rw [hlo _ (by omega), d1 _ (by omega), if_neg (by omega), if_neg (by omega),
        if_neg (by omega)]
    · rw [hlo _ (by omega), root_dirent_checksum]
      apply dirent_xor_congr
      intro i hi
      rw [slice_apply, if_pos (by omega), Nat.zero_add, hlo _ (by omega)]
    · rw [@ld32_congr _ (root_dirent [46, 46]) 64 0 (fun j hj => by
        rw [hhi _ (by omega), Nat.zero_add])]
      simp [ld32, d2]
    · unfold ld8
      rw [hhi 4 (by omega), d2 _ (by omega)]; rfl
    · rw [hhi 5 (by omega), d2 _ (by omega)]; rfl
    · rw [hhi 6 (by omega), d2 _ (by omega)]; rfl
    · intro j hj1 hj2
      obtain ⟨k, rfl⟩ : ∃ k, j = 64 + k := ⟨j - 64, by omega⟩
      rw [hhi _ (by omega), d2 _ (by omega), if_neg (by omega), if_neg (by omega),
        if_neg (by omega), if_neg (by omega)]
    · rw [hhi 63 (by omega), root_dirent_checksum]
      apply dirent_xor_congr
      intro i hi
      rw [slice_apply, if_pos (by omega), hhi _ (by omega)]
    · intro j hj1 hj2
      rw [hb j hj2, memcpy_apply, if_neg (by omega), memcpy_apply, if_neg (by omega)]
      rfl

/-- Witness of `fresh_root_directory` at `size_kib = 180`, `inode_count = 128`. -/
theorem fresh_root_directory_witness :
    validated 180 128 ∧
    ∃ img, main 180 128 1700000000 1700000001 = .ok img ∧
      ld16 (slice img.data (inode_table_start * BS) INODE_SIZE) 0 = 0o40000 ∧
      ld32 (slice img.data (inode_table_start * BS) INODE_SIZE) 44 = data_region_start 128 ∧
      ld32 (img.block (ld32 (slice img.data (inode_table_start * BS) INODE_SIZE) 44)) 64
        = 1 := by
  refine ⟨by decide, ?_⟩
  obtain ⟨img, h, ⟨a1, _, _, a4, _⟩, _, _, ⟨b1, _⟩, _⟩ :=
    fresh_root_directory 180 128 1700000000 1700000001 (by decide)
  exact ⟨img, h, a1, a4, b1⟩

end mkfs_builder

namespace mkfs_adder

theorem bit_mask_congr {a b : Bytes} {i : Nat} (h : a (i / 8) = b (i / 8)) :
    bit_mask a i = bit_mask b i := by
  unfold bit_mask; rw [h]

theorem bit_mask_first_only (i : Nat) : bit_mask (st8 zeros 0 1) i ≠ 0 ↔ i = 0 := by
  unfold bit_mask
  rcases Nat.lt_or_ge i 8 with h | h
  · interval_cases i <;> simp [st8, st_apply, zeros]
  · have : st8 zeros 0 1 (i / 8) = 0 := by
      simp only [st8]; rw [st_outside (by omega)]; rfl
    rw [this]
    simp
    omega

end mkfs_adder

namespace mkfs_builder

theorem image_block0_field64 (s n : Int) (t1 t2 : Nat) (o : Nat) (h : o + 8 ≤ 112) :
    ld64 ((image s n t1 t2).block 0) o = ld64 (superblock s n t1) o := by
  rw [← image_sb_field64 s n t1 t2 o h]
  apply ld64_congr
  intro j hj
  rw [File.block, slice_apply, slice_apply, if_pos (by simp only [BS]; omega),
    if_pos (by omega), Nat.zero_mul]

/-- C10. Image size and region placement: for validated parameters the formatter
writes exactly `total_blocks = size_kib*1024/4096` blocks of 4096 bytes, that is
`size_kib*1024` bytes; the regions lie where the superblock records them (inode
bitmap in block 1, data bitmap in block 2, inode table from block 3, data region
from `data_region_start` to the end); the two bitmap blocks have exactly bit 0
set; every data-region block after the first is zero-filled. -/
theorem image_size_and_regions (size_kib inode_count : Int) (now_sb now_ino : Nat)
    (hv : validated size_kib inode_count) :
    ∃ img, main size_kib inode_count now_sb now_ino = .ok img ∧
      img.size = total_blocks size_kib * BS ∧ (img.size : Int) = size_kib * 1024 ∧
      (let b := img.block 0
       img.size = sb.total_blocks b * BS ∧
       sb.inode_bitmap_start b = 1 ∧ sb.data_bitmap_start b = 2 ∧
       sb.inode_table_start b = 3 ∧
       sb.data_region_start b = 3 + sb.inode_table_blocks b ∧
       sb.data_region_start b + sb.data_region_blocks b = sb.total_blocks b ∧
       (∀ i, i < 8 * BS →
          (mkfs_adder.bit_mask (img.block (sb.inode_bitmap_start b)) i ≠ 0 ↔ i = 0)) ∧
       (∀ i, i < 8 * BS →
          (mkfs_adder.bit_mask (img.block (sb.data_bitmap_start b)) i ≠ 0 ↔ i = 0)) ∧
       ld16 (img.block (sb.inode_table_start b)) 0 = 0o40000 ∧
       ld32 (img.block (sb.data_region_start b)) 0 = 1 ∧
       (∀ blk j, sb.data_region_start b < blk → blk < sb.total_blocks b → j < BS →
          img.block blk j = 0)) := by
  obtain ⟨h1, h2, h3, h4, h5, h6, h7, h8, h9, h10⟩ := layout_facts size_kib inode_count hv
  have hsz : (image size_kib inode_count now_sb now_ino).size
      = total_blocks size_kib * BS := by
    rw [image_size]; congr 1; omega
  have f1 : sb.total_blocks ((image size_kib inode_count now_sb now_ino).block 0)
      = total_blocks size_kib := by
    unfold sb.total_blocks
    rw [image_block0_field64 _ _ _ _ _ (by decide)]
    simp [superblock, st32, st64, ld64_st_frame, ld64_st_rt]
    omega
  have f2 : sb.inode_bitmap_start ((image size_kib inode_count now_sb now_ino).block 0)
      = 1 := by
    unfold sb.inode_bitmap_start
    rw [image_block0_field64 _ _ _ _ _ (by decide)]
    simp [superblock, st32, st64, ld64_st_frame, ld64_st_rt, inode_bitmap_start]
  have f3 : sb.data_bitmap_start ((image size_kib inode_count now_sb now_ino).block 0)
      = 2 := by
    unfold sb.data_bitmap_start
    rw [image_block0_field64 _ _ _ _ _ (by decide)]
    simp [superblock, st32, st64, ld64_st_frame, ld64_st_rt, data_bitmap_start]
  have f4 : sb.inode_table_start ((image size_kib inode_count now_sb now_ino).block 0)
      = 3 := by
    unfold sb.inode_table_start
    rw [image_block0_field64 _ _ _ _ _ (by decide)]
    simp [superblock, st32, st64, ld64_st_frame, ld64_st_rt, inode_table_start]
  have f5 : sb.inode_table_blocks ((image size_kib inode_count now_sb now_ino).block 0)
      = inode_table_blocks inode_count := by
    unfold sb.inode_table_blocks
    rw [image_block0_field64 _ _ _ _ _ (by decide)]
    simp [superblock, st32, st64, ld64_st_frame, ld64_st_rt]
    omega
  have f6 : sb.data_region_start ((image size_kib inode_count now_sb now_ino).block 0)
      = data_region_start inode_count := by
    unfold sb.data_region_start
    rw [image_block0_field64 _ _ _ _ _ (by decide)]
    simp [superblock, st32, st64, ld64_st_frame, ld64_st_rt]
    omega
  have f7 : sb.data_region_blocks ((image size_kib inode_count now_sb now_ino).block 0)
      = data_region_blocks size_kib inode_count := by
    unfold sb.data_region_blocks
    rw [image_block0_field64 _ _ _ _ _ (by decide)]
    simp [superblock, st32, st64, ld64_st_frame, ld64_st_rt]
    omega
  refine ⟨image size_kib inode_count now_sb now_ino, ?_, hsz, ?_, ?_⟩
  · unfold main
    rw [if_neg (not_not.mpr hv), if_neg (by omega)]
  · rw [hsz, h1]
    unfold validated at hv
    simp only [BS]
    omega
  · simp only [f1, f2, f3, f4, f5, f6, f7]
    refine ⟨hsz, trivial, trivial, trivial, h3, h4, ?_, ?_, ?_, ?_, ?_⟩
    · intro i hi
      rw [mkfs_adder.bit_mask_congr (b := st8 zeros 0 1)]
      · exact mkfs_adder.bit_mask_first_only i
      · rw [File.block, slice_apply, if_pos (by omega), Nat.one_mul,
          image_block1 _ _ _ _ _ (by omega)]
    · intro i hi
      rw [mkfs_adder.bit_mask_congr (b := st8 zeros 0 1)]
      · exact mkfs_adder.bit_mask_first_only i
      · rw [File.block, slice_apply, if_pos (by omega),
          image_block2 _ _ _ _ _ (by omega)]
    · rw [← (root_inode_fields inode_count now_ino (by omega)).1]
      apply ld16_congr
      intro j hj
      rw [File.block, slice_apply, if_pos (by simp only [BS]; omega),
        image_inode_table _ _ _ _ _ (by simp only [BS]; omega),
        if_pos (by simp only [INODE_SIZE]; omega)]
    · rw [h3, @ld32_congr _ (root_dirent [46]) _ 0 (fun j hj => by
        rw [File.block, slice_apply, if_pos (by simp only [BS]; omega),
          image_root_dir _ _ _ _ _ (by simp only [BS]; omega), memcpy_apply,
          if_neg (by omega), memcpy_apply, if_pos (by omega), Nat.zero_add,
          Nat.sub_zero])]
      simp [ld32, root_dirent_dot_bytes]
    · intro blk j hb1 hb2 hj
      rw [File.block, slice_apply, if_pos hj]
      apply image_rest
      · have : (3 + inode_table_blocks inode_count + 1) * BS ≤ blk * BS :=
          Nat.mul_le_mul_right _ (by omega)
        omega
      · rw [hsz]
        have : (blk + 1) * BS ≤ total_blocks size_kib * BS :=
          Nat.mul_le_mul_right _ (by omega)
        rw [Nat.succ_mul] at this
        omega

/-- Witness of `image_size_and_regions` at `size_kib = 180`, `inode_count = 128`. -/
theorem image_size_and_regions_witness :
    validated 180 128 ∧
    ∃ img, main 180 128 1700000000 1700000001 = .ok img ∧
      img.size = total_blocks 180 * BS ∧ (img.size : Int) = 180 * 1024 := by
  refine ⟨by decide, ?_⟩
  obtain ⟨img, h, a1, a2, _⟩ :=
    image_size_and_regions 180 128 1700000000 1700000001 (by decide)
  exact ⟨img, h, a1, a2⟩

end mkfs_builder

/-! ## The ingestor: scans and loops -/

namespace MiniVSFS

theorem fread_block {f : File} {b : Nat} (h : (b + 1) * BS ≤ f.size) :
    fread f (b * BS) BS = some (f.block b) := by
  unfold fread
  rw [if_pos]
  · rfl
  · rw [Nat.succ_mul] at h
    exact ⟨by decide, h⟩

theorem block_apply (f : File) (b j : Nat) :
    f.block b j = if j < BS then f.data (b * BS + j) else 0 := rfl

end MiniVSFS

namespace mkfs_adder

/-- What the loop of `find_free_bit` returns: `-1` when the `n` bits from `i` on are all
set, otherwise the first clear one. -/
theorem find_free_bit_loop_spec (bitmap : Bytes) (n i : Nat) :
    (find_free_bit_loop bitmap n i = -1 ∧ ∀ j, i ≤ j → j < i + n → bit_mask bitmap j ≠ 0) ∨
    (∃ r : Nat, find_free_bit_loop bitmap n i = (r : Int) ∧ i ≤ r ∧ r < i + n ∧
      bit_mask bitmap r = 0 ∧ ∀ j, i ≤ j → j < r → bit_mask bitmap j ≠ 0) := by
  induction n generalizing i with
  | zero =>
    left
    exact ⟨rfl, fun j h1 h2 => by omega⟩
  | succ n ih =>
    unfold find_free_bit_loop
    by_cases h : bit_mask bitmap i = 0
    · right
      rw [if_pos h]
      exact ⟨i, rfl, Nat.le_refl _, by omega, h, fun j h1 h2 => by omega⟩
    · rw [if_neg h]
      rcases ih (i + 1) with ⟨h1, h2⟩ | ⟨r, h1, h2, h3, h4, h5⟩
      · left
        refine ⟨h1, fun j hj1 hj2 => ?_⟩
        by_cases hji : j = i
        · rw [hji]; exact h
        · exact h2 j (by omega) (by omega)
      · right
        refine ⟨r, h1, by omega, by omega, h4, fun j hj1 hj2 => ?_⟩
        by_cases hji : j = i
        · rw [hji]; exact h
        · exact h5 j (by omega) hj2

theorem find_free_bit_spec (bitmap : Bytes) (n : Nat) :
    (find_free_bit bitmap (n : Int) = -1 ∧ ∀ j, j < n → bit_mask bitmap j ≠ 0) ∨
    (∃ r : Nat, find_free_bit bitmap (n : Int) = (r : Int) ∧ r < n ∧
      bit_mask bitmap r = 0 ∧ ∀ j, j < r → bit_mask bitmap j ≠ 0) := by
  unfold find_free_bit
  rw [Int.toNat_ofNat]
  rcases find_free_bit_loop_spec bitmap n 0 with ⟨h1, h2⟩ | ⟨r, h1, h2, h3, h4, h5⟩
  · left
    exact ⟨h1, fun j hj => h2 j (Nat.zero_le _) (by omega)⟩
  · right
    exact ⟨r, h1, by omega, h4, fun j hj => h5 j (Nat.zero_le _) hj⟩

/-- The loop that collects free data blocks, in closed form. -/
theorem scan_free_blocks_eq (bm : Bytes) (k : Int) (n i : Nat) (found : List Nat) :
    scan_free_blocks bm k n i found =
      found ++ ((List.range' i n).filter (fun j => bit_mask bm j = 0)).take
        (k - found.length).toNat := by
  induction n generalizing i found with
  | zero => simp [scan_free_blocks]
  | succ n ih =>
    unfold scan_free_blocks
    by_cases hk : (found.length : Int) < k
    · rw [if_pos hk]
      by_cases hb : bit_mask bm i = 0
      · rw [if_pos hb, ih]
        simp only [List.range'_succ, List.filter_cons, hb, decide_True, if_true,
          List.length_append, List.length_singleton, List.append_assoc, List.singleton_append]
        have : (k - (found.length : Int)).toNat
            = (k - ((found.length + 1 : Nat) : Int)).toNat + 1 := by omega
        rw [this, List.take_succ_cons]
      · rw [if_neg hb, ih]
        simp only [List.range'_succ, List.filter_cons, hb, decide_False]
        rfl
    · rw [if_neg hk]
      have : (k - (found.length : Int)).toNat = 0 := by omega
      rw [this, List.take_zero, List.append_nil]

theorem scan_free_blocks_clear_bits (bm : Bytes) (k n : Nat) :
    scan_free_blocks bm (k : Int) n 0 [] = (clear_bits bm n).take k := by
  rw [scan_free_blocks_eq]
  simp only [List.nil_append, List.length_nil, Int.ofNat_zero, Int.sub_zero, Int.toNat_ofNat,
    clear_bits, List.range_eq_range']

end mkfs_adder
namespace mkfs_adder

theorem to_read_pos (s k i : Nat) : 0 < to_read s k i := by
  unfold to_read
  simp only [BS]
  split <;> split <;> omega

theorem to_read_le (s k i : Nat) : to_read s k i ≤ BS := by
  unfold to_read
  simp only [BS]
  split <;> split <;> omega

theorem copy_blocks_spec (input : File) (n : Nat) (h : n * BS ≤ input.size) :
    ∃ c, copy_blocks input n = some c ∧ c.size = n * BS ∧
      ∀ i, i < n * BS → c.data i = input.data i := by
  induction n with
  | zero => exact ⟨_, rfl, by simp, fun i hi => by omega⟩
  | succ n ih =>
    have h' : (n + 1) * BS = n * BS + BS := Nat.succ_mul _ _
    obtain ⟨c, hc, hs, hd⟩ := ih (by omega)
    unfold copy_blocks
    rw [hc, fread_block h]
    refine ⟨_, rfl, ?_, ?_⟩
    · rw [fwrite_size, hs]; omega
    · intro i hi
      rw [fwrite_data, hs]
      by_cases hlt : i < n * BS
      · rw [if_neg (by omega), if_pos hlt, hd i hlt]
      · rw [if_pos (by omega), block_apply, if_pos (by omega)]
        exact congrArg _ (by omega)

theorem copy_blocks_fail (input : File) (n : Nat) (h : input.size < n * BS) :
    copy_blocks input n = none := by
  induction n with
  | zero => omega
  | succ n ih =>
    have h' : (n + 1) * BS = n * BS + BS := Nat.succ_mul _ _
    unfold copy_blocks
    by_cases hn : input.size < n * BS
    · rw [ih hn]
    · cases hc : copy_blocks input n with
      | none => rfl
      | some c =>
        simp only []
        have : fread input (n * BS) BS = none := by
          unfold fread; rw [if_neg (by omega)]
        rw [this]

/-- The loop that writes the file data, when every read of the source succeeds and
the blocks written are distinct blocks inside the output. -/
theorem write_payload_spec (file : File) (ino : Bytes) (k : Nat) (out : File) (n : Nat)
    (hread : ∀ t, t < n → t * BS + to_read (u64 file.size) k t ≤ file.size)
    (hwrap : ∀ t, t < n → u32 (ld32 ino (44 + 4 * t) * BS) = ld32 ino (44 + 4 * t) * BS)
    (hin : ∀ t, t < n → (ld32 ino (44 + 4 * t) + 1) * BS ≤ out.size)
    (hdist : ∀ t t', t < n → t' < n → t ≠ t' → ld32 ino (44 + 4 * t) ≠ ld32 ino (44 + 4 * t')) :
    ∃ o, write_payload file ino k out n = some o ∧ o.size = out.size ∧
      (∀ t j, t < n → j < BS →
        o.data (ld32 ino (44 + 4 * t) * BS + j)
          = slice file.data (t * BS) (to_read (u64 file.size) k t) j) ∧
      (∀ i, i < out.size → (∀ t, t < n → i / BS ≠ ld32 ino (44 + 4 * t)) →
        o.data i = out.data i) := by
  induction n with
  | zero =>
    exact ⟨out, rfl, rfl, fun t j ht => by omega, fun i _ _ => rfl⟩
  | succ n ih =>
    obtain ⟨o, ho, hs, hp, hf⟩ := ih (fun t ht => hread t (by omega))
      (fun t ht => hwrap t (by omega)) (fun t ht => hin t (by omega))
      (fun t t' ht ht' => hdist t t' (by omega) (by omega))
    unfold write_payload
    rw [ho]
    simp only []
    have hfr : fread file (n * BS) (to_read (u64 file.size) k n)
        = some (slice file.data (n * BS) (to_read (u64 file.size) k n)) := by
      unfold fread
      rw [if_pos ⟨to_read_pos _ _ _, hread n (by omega)⟩]
    have hlt : ld32 ino (44 + 4 * n) * BS < 2 ^ 63 := by
      have := hwrap n (by omega)
      unfold u32 at this
      have h2 : ld32 ino (44 + 4 * n) * BS % 2 ^ 32 < 2 ^ 32 := Nat.mod_lt _ (by norm_num)
      omega
    have hseek : fseek 0 (u32 (ld32 ino (44 + 4 * n) * BS)) = ld32 ino (44 + 4 * n) * BS := by
      rw [hwrap n (by omega)]
      unfold fseek
      rw [if_pos hlt]
    rw [hfr, hseek]
    have hinn := hin n (by omega)
    rw [Nat.succ_mul] at hinn
    refine ⟨_, rfl, ?_, ?_, ?_⟩
    · rw [fwrite_size, hs]; omega
    · intro t j ht hj
      rw [fwrite_data]
      by_cases htn : t = n
      · subst htn
        rw [if_pos (by omega)]
        exact congrArg _ (by omega)
      · have hne := hdist t n (by omega) (by omega) htn
        have hsep : ¬ (ld32 ino (44 + 4 * n) * BS ≤ ld32 ino (44 + 4 * t) * BS + j ∧
            ld32 ino (44 + 4 * t) * BS + j < ld32 ino (44 + 4 * n) * BS + BS) := by
          intro ⟨h1, h2⟩
          rcases Nat.lt_or_gt_of_ne hne with hl | hl
          · have : (ld32 ino (44 + 4 * t) + 1) * BS ≤ ld32 ino (44 + 4 * n) * BS :=
              Nat.mul_le_mul_right _ hl
            rw [Nat.succ_mul] at this
            omega
          · have : (ld32 ino (44 + 4 * n) + 1) * BS ≤ ld32 ino (44 + 4 * t) * BS :=
              Nat.mul_le_mul_right _ hl
            rw [Nat.succ_mul] at this
            omega
        rw [if_neg hsep, hs, if_pos, hp t j (by omega) hj]
        have := hin t (by omega)
        rw [Nat.succ_mul] at this
        omega
    · intro i hi hne
      rw [fwrite_data, hs, if_neg, if_pos hi]
      · exact hf i hi (fun t ht => hne t (by omega))
      · intro ⟨h1, h2⟩
        apply hne n (by omega)
        simp only [BS] at *
        omega

end mkfs_adder

/-! ## The ingestor on well-formed images -/

namespace mkfs_adder

theorem WellFormed.bounds {img : File} (hw : WellFormed img) :
    sb.inode_table_blocks (img.block 0) * BS < 2 ^ 32 ∧
    sb.data_region_start (img.block 0) * BS < 2 ^ 32 ∧
    sb.total_blocks (img.block 0) * BS ≤ 2 ^ 32 ∧
    4 ≤ sb.data_region_start (img.block 0) ∧
    sb.data_region_start (img.block 0) < sb.total_blocks (img.block 0) ∧
    5 * BS ≤ img.size := by
  have h1 := hw.inode_table_blocks
  have h2 := hw.data_region_start
  have h3 := hw.data_region_blocks
  have h4 := hw.total_blocks
  have h5 := hw.small
  have h6 := hw.size
  simp only [BS] at *
  norm_num at h5 ⊢
  omega

theorem load_wf {input : File} (hw : WellFormed input) :
    load input = .ok
      { sb_block := input.block 0, inode_bitmap := input.block 1,
        data_bitmap := input.block 2,
        inode_table_size := sb.inode_table_blocks (input.block 0) * BS,
        inode_table := slice input.data (3 * BS) (sb.inode_table_blocks (input.block 0) * BS) } := by
  obtain ⟨b1, b2, b3, b4, b5, b6⟩ := hw.bounds
  have hsz := hw.size
  have r0 : fread input 0 BS = some (input.block 0) := by
    have := @fread_block input 0 (by simp only [BS] at *; omega)
    rwa [Nat.zero_mul] at this
  have r1 : fread input BS BS = some (input.block 1) := by
    have := @fread_block input 1 (by simp only [BS] at *; omega)
    rwa [Nat.one_mul] at this
  have r2 : fread input (2 * BS) BS = some (input.block 2) :=
    fread_block (by simp only [BS] at *; omega)
  have r3 : fread input (3 * BS) (sb.inode_table_blocks (input.block 0) * BS)
      = some (slice input.data (3 * BS) (sb.inode_table_blocks (input.block 0) * BS)) := by
    unfold fread
    rw [if_pos]
    have h1 := hw.inode_table_blocks
    have h2 := hw.data_region_start
    have h3 := hw.data_region_blocks
    have h4 := hw.total_blocks
    simp only [BS] at *
    omega
  have s1 : fseek BS (u64 (1 * BS)) = BS := by decide
  have s2 : fseek (BS + BS) (u64 (2 * BS)) = 2 * BS := by decide
  have s3 : fseek (2 * BS + BS) (u64 (3 * BS)) = 3 * BS := by decide
  have s4 : u64 (sb.inode_table_blocks (input.block 0) * BS)
      = sb.inode_table_blocks (input.block 0) * BS := by
    unfold u64
    exact Nat.mod_eq_of_lt (Nat.lt_trans b1 (by norm_num))
  unfold load
  simp only [r0, hw.magic, ne_eq, not_true_eq_false, if_false, hw.inode_bitmap_start,
    hw.data_bitmap_start, hw.inode_table_start, s1, s2, s3, s4, r1, r2, r3]

end mkfs_adder
set_option maxHeartbeats 800000

namespace mkfs_adder

theorem to_int_small {n : Nat} (h : n < 2 ^ 31) : to_int n = (n : Int) := by
  unfold to_int
  have : n % 2 ^ 32 = n := Nat.mod_eq_of_lt (by omega)
  rw [this, if_pos h]

/-- The function `main` on a well-formed image: the reads of the image succeed, no
access leaves a buffer, and what remains are the resource checks and the writes. -/
theorem main_wf {input : File} (hw : WellFormed input) (filename : List Nat) (file : File)
    (now : Nat) :
    main input filename file now =
      if blocks_needed (u64 file.size) > 12 then .error .FileTooLarge
      else if find_free_bit (input.block 1) (sb.inode_count (input.block 0) : Nat) = -1 then
        .error .NoFreeInodes
      else if ((scan_free_blocks (input.block 2) (blocks_needed (u64 file.size))
          (sb.data_region_blocks (input.block 0)) 0 []).length : Int)
            < blocks_needed (u64 file.size) then
        .error .InsufficientSpace
      else if blocks_needed (u64 file.size) < 0 then .error .Undefined
      else if find_free_entry (input.block (sb.data_region_start (input.block 0))) 64 0 = -1 then
        .error .DirectoryFull
      else
        emit input file (input.block 0)
          (set_bit (input.block 1)
            (find_free_bit (input.block 1) (sb.inode_count (input.block 0) : Nat)).toNat)
          (mark_blocks
            (scan_free_blocks (input.block 2) (blocks_needed (u64 file.size))
              (sb.data_region_blocks (input.block 0)) 0 [])
            (input.block 2) (blocks_needed (u64 file.size)).toNat)
          (inode_crc_finalize
            (st16
              (memcpy
                (slice input.data (3 * BS) (sb.inode_table_blocks (input.block 0) * BS))
                ((find_free_bit (input.block 1)
                  (sb.inode_count (input.block 0) : Nat)).toNat * INODE_SIZE)
                (new_inode (u64 file.size) now (sb.data_region_start (input.block 0))
                  (blocks_needed (u64 file.size)).toNat
                  (scan_free_blocks (input.block 2) (blocks_needed (u64 file.size))
                    (sb.data_region_blocks (input.block 0)) 0 []))
                INODE_SIZE)
              2
              (ld16
                (memcpy
                  (slice input.data (3 * BS) (sb.inode_table_blocks (input.block 0) * BS))
                  ((find_free_bit (input.block 1)
                    (sb.inode_count (input.block 0) : Nat)).toNat * INODE_SIZE)
                  (new_inode (u64 file.size) now (sb.data_region_start (input.block 0))
                    (blocks_needed (u64 file.size)).toNat
                    (scan_free_blocks (input.block 2) (blocks_needed (u64 file.size))
                      (sb.data_region_blocks (input.block 0)) 0 []))
                  INODE_SIZE) 2 + 1))
            0)
          (sb.inode_table_blocks (input.block 0) * BS)
          (memcpy (input.block (sb.data_region_start (input.block 0)))
            (64 * (find_free_entry
              (input.block (sb.data_region_start (input.block 0))) 64 0).toNat)
            (new_entry
              (find_free_bit (input.block 1) (sb.inode_count (input.block 0) : Nat))
              filename) 64)
          (new_inode (u64 file.size) now (sb.data_region_start (input.block 0))
            (blocks_needed (u64 file.size)).toNat
            (scan_free_blocks (input.block 2) (blocks_needed (u64 file.size))
              (sb.data_region_blocks (input.block 0)) 0 []))
          (blocks_needed (u64 file.size)).toNat := by
  obtain ⟨b1, b2, b3, b4, b5, b6⟩ := hw.bounds
  have hic := hw.inode_bits
  have hdb := hw.data_bits
  have e1 : to_int (sb.inode_count (input.block 0)) = (sb.inode_count (input.block 0) : Nat) :=
    to_int_small (by simp only [BS] at hic; omega)
  have e2 : to_int (sb.data_region_blocks (input.block 0))
      = (sb.data_region_blocks (input.block 0) : Nat) :=
    to_int_small (by simp only [BS] at hdb; omega)
  have g1 : ¬ ((8 * BS : Int) < (sb.inode_count (input.block 0) : Nat)) := by
    simp only [BS] at hic ⊢; omega
  have g2 : ¬ ((8 * BS : Int) < (sb.data_region_blocks (input.block 0) : Nat)) := by
    simp only [BS] at hdb ⊢; omega
  unfold main
  rw [load_wf hw]
  simp only [e1, e2, g1, g2, false_and, if_false, Int.toNat_ofNat]
  by_cases c1 : blocks_needed (u64 file.size) > 12
  · rw [if_pos c1, if_pos c1]
  rw [if_neg c1, if_neg c1]
  by_cases c2 : find_free_bit (input.block 1) (sb.inode_count (input.block 0) : Nat) = -1
  · rw [if_pos c2, if_pos c2]
  rw [if_neg c2, if_neg c2]
  by_cases c3 : ((scan_free_blocks (input.block 2) (blocks_needed (u64 file.size))
      (sb.data_region_blocks (input.block 0)) 0 []).length : Int)
        < blocks_needed (u64 file.size)
  · rw [if_pos c3, if_pos c3]
  rw [if_neg c3, if_neg c3]
  by_cases c4 : blocks_needed (u64 file.size) < 0
  · rw [if_pos c4, if_pos c4]
  rw [if_neg c4, if_neg c4]
  -- the free inode is a bit below `inode_count`, and not bit 0
  rcases find_free_bit_spec (input.block 1) (sb.inode_count (input.block 0)) with
    ⟨h, _⟩ | ⟨r, hr, hr1, hr2, hr3⟩
  · exact absurd h c2
  have hr0 : r ≠ 0 := by
    intro h0
    rw [h0] at hr2
    exact hw.root_inode_used hr2
  have hslots := hw.inode_slots
  rw [hr, Int.toNat_ofNat]
  have hslot : u32 (r * INODE_SIZE) = r * INODE_SIZE := by
    unfold u32
    apply Nat.mod_eq_of_lt
    simp only [BS, INODE_SIZE] at *
    omega
  have g3 : ¬ (sb.inode_table_blocks (input.block 0) * BS < r * INODE_SIZE + INODE_SIZE) := by
    simp only [BS, INODE_SIZE] at *
    omega
  rw [hslot, if_neg g3]
  -- the root directory block
  have hroot : ∀ ino : Bytes,
      ld32 (memcpy (slice input.data (3 * BS) (sb.inode_table_blocks (input.block 0) * BS))
        (r * INODE_SIZE) ino INODE_SIZE) 44 = sb.data_region_start (input.block 0) := by
    intro ino
    rw [← hw.root_dir_block]
    apply ld32_congr
    intro j hj
    rw [memcpy_apply, if_neg (by simp only [INODE_SIZE]; omega), slice_apply,
      if_pos (by simp only [BS] at *; omega), block_apply, if_pos (by simp only [BS]; omega)]
  have hseek : fseek 0 (u32 (sb.data_region_start (input.block 0) * BS))
      = sb.data_region_start (input.block 0) * BS := by
    unfold u32
    rw [Nat.mod_eq_of_lt b2]
    unfold fseek
    rw [if_pos (Nat.lt_trans b2 (by norm_num))]
  have hrd : fread input (sb.data_region_start (input.block 0) * BS) BS
      = some (input.block (sb.data_region_start (input.block 0))) := by
    apply fread_block
    rw [hw.size]
    exact Nat.mul_le_mul_right _ (by omega)
  simp only [hroot, hseek, hrd]

end mkfs_adder

namespace mkfs_adder

/-- The writes of `emit` on a well-formed image, region by region. -/
theorem emit_wf {input : File} (hw : WellFormed input) (file : File)
    (ib db tbl rd ino : Bytes) (k : Nat)
    (htbl : ld32 tbl 44 = sb.data_region_start (input.block 0))
    (hread : ∀ t, t < k → t * BS + to_read (u64 file.size) k t ≤ file.size)
    (hptr : ∀ t, t < k → sb.data_region_start (input.block 0) < ld32 ino (44 + 4 * t) ∧
      ld32 ino (44 + 4 * t) < sb.total_blocks (input.block 0))
    (hdist : ∀ t t', t < k → t' < k → t ≠ t' →
      ld32 ino (44 + 4 * t) ≠ ld32 ino (44 + 4 * t')) :
    ∃ out, emit input file (input.block 0) ib db tbl
        (sb.inode_table_blocks (input.block 0) * BS) rd ino k = .ok out ∧
      out.size = input.size ∧
      (∀ j, j < BS → out.data j = input.data j) ∧
      (∀ j, j < BS → out.data (BS + j) = ib j) ∧
      (∀ j, j < BS → out.data (2 * BS + j) = db j) ∧
      (∀ j, j < sb.inode_table_blocks (input.block 0) * BS → out.data (3 * BS + j) = tbl j) ∧
      (∀ j, j < BS → out.data (sb.data_region_start (input.block 0) * BS + j) = rd j) ∧
      (∀ t j, t < k → j < BS →
        out.data (ld32 ino (44 + 4 * t) * BS + j)
          = slice file.data (t * BS) (to_read (u64 file.size) k t) j) ∧
      (∀ i, (sb.data_region_start (input.block 0) + 1) * BS ≤ i → i < input.size →
        (∀ t, t < k → i / BS ≠ ld32 ino (44 + 4 * t)) → out.data i = input.data i) := by
  obtain ⟨b1, b2, b3, b4, b5, b6⟩ := hw.bounds
  have hsz := hw.size
  have hdrs := hw.data_region_start
  have hitb := hw.inode_table_blocks
  obtain ⟨c, hc, hcs, hcd⟩ := copy_blocks_spec input (sb.total_blocks (input.block 0))
    (by rw [hsz])
  have s0 : fseek (sb.total_blocks (input.block 0) * BS) 0 = 0 := by
    unfold fseek
    rw [if_pos (by norm_num)]
  have s1 : fseek BS (u64 (1 * BS)) = BS := by decide
  have s2 : fseek (BS + BS) (u64 (2 * BS)) = 2 * BS := by decide
  have s3 : fseek (2 * BS + BS) (u64 (3 * BS)) = 3 * BS := by decide
  have s4 : fseek (3 * BS + sb.inode_table_blocks (input.block 0) * BS)
      (u32 (sb.data_region_start (input.block 0) * BS))
        = sb.data_region_start (input.block 0) * BS := by
    unfold u32
    rw [Nat.mod_eq_of_lt b2]
    unfold fseek
    rw [if_pos (Nat.lt_trans b2 (by norm_num))]
  have hmul : sb.data_region_start (input.block 0) * BS
      = 3 * BS + sb.inode_table_blocks (input.block 0) * BS := by
    rw [hdrs, Nat.add_mul]
  have htot : (sb.data_region_start (input.block 0) + 1) * BS
      ≤ sb.total_blocks (input.block 0) * BS := Nat.mul_le_mul_right _ (by omega)
  rw [Nat.succ_mul] at htot
  -- the output after the five writes of the updated structures
  obtain ⟨o, ho, hos, hop, hof⟩ := write_payload_spec file ino k
    (fwrite (fwrite (fwrite (fwrite (fwrite c 0 (input.block 0) BS) BS ib BS) (2 * BS) db BS)
      (3 * BS) tbl (sb.inode_table_blocks (input.block 0) * BS))
      (sb.data_region_start (input.block 0) * BS) rd BS) k hread
    (fun t ht => by
      unfold u32
      apply Nat.mod_eq_of_lt
      have h1 := (hptr t ht).2
      have : (ld32 ino (44 + 4 * t) + 1) * BS ≤ sb.total_blocks (input.block 0) * BS :=
        Nat.mul_le_mul_right _ (by omega)
      rw [Nat.succ_mul] at this
      simp only [BS] at *
      omega)
    (fun t ht => by
      have h1 := (hptr t ht).2
      have : (ld32 ino (44 + 4 * t) + 1) * BS ≤ sb.total_blocks (input.block 0) * BS :=
        Nat.mul_le_mul_right _ (by omega)
      simp only [fwrite_size, hcs]
      simp only [BS] at *
      omega)
    hdist
  have hsize5 : (fwrite (fwrite (fwrite (fwrite (fwrite c 0 (input.block 0) BS) BS ib BS)
      (2 * BS) db BS) (3 * BS) tbl (sb.inode_table_blocks (input.block 0) * BS))
      (sb.data_region_start (input.block 0) * BS) rd BS).size = input.size := by
    simp only [fwrite_size, hcs]
    simp only [BS] at *
    omega
  -- a byte of the region blocks is not a byte of a payload block
  have hlow : ∀ i, i < (sb.data_region_start (input.block 0) + 1) * BS →
      ∀ t, t < k → i / BS ≠ ld32 ino (44 + 4 * t) := by
    intro i hi t ht heq
    have h1 := (hptr t ht).1
    have : (sb.data_region_start (input.block 0) + 1) * BS ≤ ld32 ino (44 + 4 * t) * BS :=
      Nat.mul_le_mul_right _ (by omega)
    rw [← heq] at this
    have := Nat.div_mul_le_self i BS
    omega
  refine ⟨o, ?_, by rw [hos, hsize5], ?_, ?_, ?_, ?_, ?_, hop, ?_⟩
  · unfold emit
    rw [hc]
    simp only [hw.inode_bitmap_start, hw.data_bitmap_start, hw.inode_table_start, htbl,
      s0, s1, s2, s3, s4, ho]
  · intro j hj
    rw [hof j (by rw [hsize5]; simp only [BS] at *; omega)
      (hlow j (by rw [Nat.succ_mul]; simp only [BS] at *; omega))]
    simp only [fwrite_data, fwrite_size, hcs]
    rw [if_neg (by simp only [BS] at *; omega), if_pos (by simp only [BS] at *; omega),
      if_neg (by simp only [BS] at *; omega), if_pos (by simp only [BS] at *; omega),
      if_neg (by simp only [BS] at *; omega), if_pos (by simp only [BS] at *; omega),
      if_neg (by simp only [BS] at *; omega), if_pos (by simp only [BS] at *; omega),
      if_pos (by simp only [BS] at *; omega), Nat.sub_zero, block_apply, if_pos hj,
      Nat.zero_mul, Nat.zero_add]
  · intro j hj
    rw [hof _ (by rw [hsize5]; simp only [BS] at *; omega)
      (hlow _ (by rw [Nat.succ_mul]; simp only [BS] at *; omega))]
    simp only [fwrite_data, fwrite_size, hcs]
    rw [if_neg (by simp only [BS] at *; omega), if_pos (by simp only [BS] at *; omega),
      if_neg (by simp only [BS] at *; omega), if_pos (by simp only [BS] at *; omega),
      if_neg (by simp only [BS] at *; omega), if_pos (by simp only [BS] at *; omega),
      if_pos (by simp only [BS] at *; omega)]
    exact congrArg _ (by omega)
  · intro j hj
    rw [hof _ (by rw [hsize5]; simp only [BS] at *; omega)
      (hlow _ (by rw [Nat.succ_mul]; simp only [BS] at *; omega))]
    simp only [fwrite_data, fwrite_size, hcs]
    rw [if_neg (by simp only [BS] at *; omega), if_pos (by simp only [BS] at *; omega),
      if_neg (by simp only [BS] at *; omega), if_pos (by simp only [BS] at *; omega),
      if_pos (by simp only [BS] at *; omega)]
    exact congrArg _ (by omega)
  · intro j hj
    rw [hof _ (by rw [hsize5]; simp only [BS] at *; omega)
      (hlow _ (by rw [Nat.succ_mul]; simp only [BS] at *; omega))]
    simp only [fwrite_data, fwrite_size, hcs]
    rw [if_neg (by simp only [BS] at *; omega), if_pos (by simp only [BS] at *; omega),
      if_pos (by simp only [BS] at *; omega)]
    exact congrArg _ (by omega)
  · intro j hj
    rw [hof _ (by rw [hsize5]; simp only [BS] at *; omega)
      (hlow _ (by rw [Nat.succ_mul]; simp only [BS] at *; omega))]
    simp only [fwrite_data, fwrite_size, hcs]
    rw [if_pos (by simp only [BS] at *; omega)]
    exact congrArg _ (by omega)
  · intro i hi1 hi2 hne
    rw [Nat.succ_mul] at hi1
    rw [hof i (by rw [hsize5]; exact hi2) hne]
    simp only [fwrite_data, fwrite_size, hcs]
    rw [if_neg (by simp only [BS] at *; omega), if_pos (by simp only [BS] at *; omega),
      if_neg (by simp only [BS] at *; omega), if_pos (by simp only [BS] at *; omega),
      if_neg (by simp only [BS] at *; omega), if_pos (by simp only [BS] at *; omega),
      if_neg (by simp only [BS] at *; omega), if_pos (by simp only [BS] at *; omega),
      if_neg (by simp only [BS] at *; omega), if_pos (by simp only [BS] at *; omega)]
    exact hcd i (by omega)

end mkfs_adder

namespace mkfs_adder

/-! Free blocks -/

theorem clear_bits_pairwise (bm : Bytes) (n k : Nat) :
    ((clear_bits bm n).take k).Pairwise (· < ·) :=
  ((List.pairwise_lt_range n).filter _).take

theorem clear_bits_take_getD (bm : Bytes) (n k t : Nat)
    (ht : t < ((clear_bits bm n).take k).length) :
    ((clear_bits bm n).take k).getD t 0 < n ∧
      bit_mask bm (((clear_bits bm n).take k).getD t 0) = 0 := by
  rw [List.getD_eq_getElem _ _ ht]
  have hm : ((clear_bits bm n).take k)[t] ∈ clear_bits bm n :=
    List.mem_of_mem_take (List.getElem_mem _)
  unfold clear_bits at hm
  rw [List.mem_filter, List.mem_range] at hm
  exact ⟨hm.1, by simpa using hm.2⟩

theorem clear_bits_take_lt (bm : Bytes) (n k t t' : Nat) (h : t < t')
    (ht : t' < ((clear_bits bm n).take k).length) :
    ((clear_bits bm n).take k).getD t 0 < ((clear_bits bm n).take k).getD t' 0 := by
  rw [List.getD_eq_getElem _ _ ht, List.getD_eq_getElem _ _ (by omega)]
  exact List.pairwise_iff_getElem.mp (clear_bits_pairwise bm n k) t t' (by omega) ht h

/-! The new inode -/

theorem fill_direct_frame (drs : Nat) (fb : List Nat) (ino : Bytes) (n i : Nat)
    (h : i < 44 ∨ 44 + 4 * n ≤ i) : fill_direct drs fb ino n i = ino i := by
  induction n with
  | zero => rfl
  | succ n ih =>
    unfold fill_direct
    simp only [st32]
    rw [st_outside (by omega), ih (by omega)]

theorem fill_direct_ld32 (drs : Nat) (fb : List Nat) (ino : Bytes) (n t : Nat) (h : t < n) :
    ld32 (fill_direct drs fb ino n) (44 + 4 * t) = u64 (drs + fb.getD t 0) % 2 ^ 32 := by
  induction n with
  | zero => omega
  | succ n ih =>
    unfold fill_direct
    simp only [st32]
    by_cases htn : t = n
    · subst htn
      rw [ld32_st_rt]
    · rw [ld32_st_frame (by omega), ih (by omega)]

theorem clear_direct_frame (k : Nat) (ino : Bytes) (n i : Nat)
    (h : i < 44 + 4 * k ∨ 44 + 4 * (k + n) ≤ i) : clear_direct k ino n i = ino i := by
  induction n with
  | zero => rfl
  | succ n ih =>
    unfold clear_direct
    simp only [st32]
    rw [st_outside (by omega), ih (by omega)]

theorem clear_direct_ld32 (k : Nat) (ino : Bytes) (n t : Nat) (h1 : k ≤ t) (h2 : t < k + n) :
    ld32 (clear_direct k ino n) (44 + 4 * t) = 0 := by
  induction n with
  | zero => omega
  | succ n ih =>
    unfold clear_direct
    simp only [st32]
    by_cases htn : t = k + n
    · subst htn
      rw [ld32_st_rt]; rfl
    · rw [ld32_st_frame (by omega), ih (by omega)]

theorem new_inode_low (fs now drs k : Nat) (fb : List Nat) (i : Nat) (h : i < 44) :
    new_inode fs now drs k fb i =
      st64 (st64 (st64 (st64 (st32 (st32 (st16 (st16 zeros 0 0o100000) 2 1) 4 0) 8 0) 12 fs)
        36 now) 28 now) 20 now i := by
  unfold new_inode
  rw [inode_crc_finalize_frame _ _ _ (by omega)]
  simp only [st32]
  rw [st_outside (by omega), clear_direct_frame _ _ _ _ (by omega),
    fill_direct_frame _ _ _ _ _ (by omega)]

/-- The direct pointers of the new inode. -/
theorem new_inode_direct (fs now drs k : Nat) (fb : List Nat) (hk : k ≤ 12) (t : Nat)
    (ht : t < 12) :
    ld32 (new_inode fs now drs k fb) (44 + 4 * t) =
      if t < k then u64 (drs + fb.getD t 0) % 2 ^ 32 else 0 := by
  unfold new_inode
  have h1 : ∀ m : Bytes, ld32 (inode_crc_finalize m 0) (44 + 4 * t) = ld32 m (44 + 4 * t) :=
    fun m => ld32_congr (fun j hj => inode_crc_finalize_frame _ _ _ (by omega))
  rw [h1]
  simp only [st32]
  rw [ld32_st_frame (by omega)]
  by_cases h : t < k
  · rw [if_pos h, ← fill_direct_ld32 drs fb _ k t h]
    exact ld32_congr (fun j hj => clear_direct_frame _ _ _ _ (by omega))
  · rw [if_neg h]
    exact clear_direct_ld32 _ _ _ _ (by omega) (by omega)

theorem new_inode_fields (fs now drs k : Nat) (fb : List Nat) :
    ld16 (new_inode fs now drs k fb) 0 = 0o100000 ∧
    ld16 (new_inode fs now drs k fb) 2 = 1 ∧
    ld64 (new_inode fs now drs k fb) 12 = fs % 2 ^ 64 ∧
    ld64 (new_inode fs now drs k fb) 120 = crc32 (new_inode fs now drs k fb) 120 := by
  refine ⟨?_, ?_, ?_, ?_⟩
  · rw [ld16_congr (fun j hj => new_inode_low fs now drs k fb _ (by omega))]
    simp [st16, st32, st64, ld16_st_frame, ld16_st_rt]
  · rw [ld16_congr (fun j hj => new_inode_low fs now drs k fb _ (by omega))]
    simp [st16, st32, st64, ld16_st_frame, ld16_st_rt]
  · rw [ld64_congr (fun j hj => new_inode_low fs now drs k fb _ (by omega))]
    simp [st16, st32, st64, ld64_st_frame, ld64_st_rt]
  · unfold new_inode
    exact inode_crc_finalize_crc0 _

/-! The number of blocks -/

theorem blocks_needed_small {s : Nat} (h : (s + BS - 1) / BS < 2 ^ 31) :
    blocks_needed (u64 s) = (((s + BS - 1) / BS : Nat) : Int) := by
  unfold blocks_needed u64
  simp only [BS] at *
  have h1 : s % 2 ^ 64 = s := Nat.mod_eq_of_lt (by omega)
  simp only [h1]
  have h2 : (s + 4096 - 1) % 2 ^ 64 = s + 4096 - 1 := Nat.mod_eq_of_lt (by omega)
  rw [h2]
  exact to_int_small h

theorem to_read_sum {s k : Nat} (hk : k = (s + BS - 1) / BS) (t : Nat) (ht : t < k) :
    t * BS + to_read s k t ≤ s ∧
      (t * BS + to_read s k t = if t = k - 1 then s else (t + 1) * BS) := by
  unfold to_read
  simp only [BS] at *
  by_cases h1 : t = k - 1
  · rw [if_pos h1, if_pos h1]
    by_cases h2 : s % 4096 = 0
    · rw [if_pos h2]; omega
    · rw [if_neg h2]; omega
  · rw [if_neg h1, if_neg h1, if_neg (by omega)]
    omega

end mkfs_adder

namespace mkfs_adder

/-- What the scan of the root directory returns: `-1` when the `n` slots from `i` on
all have a non-zero inode number, otherwise the first slot whose inode number is 0. -/
theorem find_free_entry_spec (blk : Bytes) (n i : Nat) :
    (find_free_entry blk n i = -1 ∧ ∀ j, i ≤ j → j < i + n → ld32 blk (64 * j) ≠ 0) ∨
    (∃ e : Nat, find_free_entry blk n i = (e : Int) ∧ i ≤ e ∧ e < i + n ∧
      ld32 blk (64 * e) = 0 ∧ ∀ j, i ≤ j → j < e → ld32 blk (64 * j) ≠ 0) := by
  induction n generalizing i with
  | zero =>
    left
    exact ⟨rfl, fun j h1 h2 => by omega⟩
  | succ n ih =>
    unfold find_free_entry
    by_cases h : ld32 blk (64 * i) = 0
    · right
      rw [if_pos h]
      exact ⟨i, rfl, Nat.le_refl _, by omega, h, fun j h1 h2 => by omega⟩
    · rw [if_neg h]
      rcases ih (i + 1) with ⟨h1, h2⟩ | ⟨r, h1, h2, h3, h4, h5⟩
      · left
        refine ⟨h1, fun j hj1 hj2 => ?_⟩
        by_cases hji : j = i
        · rw [hji]; exact h
        · exact h2 j (by omega) (by omega)
      · right
        refine ⟨r, h1, by omega, by omega, h4, fun j hj1 hj2 => ?_⟩
        by_cases hji : j = i
        · rw [hji]; exact h
        · exact h5 j (by omega) hj2

/-- A successful ingest into a well-formed image, region by region: `r` is the bit
of the new inode, `e` the directory slot, and the data blocks are the first clear
bits of the data bitmap; `k` is the value of `blocks_needed`. -/
theorem main_wf_ok_gen {input : File} (hw : WellFormed input) (filename : List Nat)
    (file : File) (now : Nat) {k r e : Nat}
    (hbn : blocks_needed (u64 file.size) = (k : Int)) (hk12 : k ≤ 12)
    (hread : ∀ t, t < k → t * BS + to_read (u64 file.size) k t ≤ file.size)
    (hr : find_free_bit (input.block 1) (sb.inode_count (input.block 0) : Nat) = (r : Int))
    (hfb : k ≤ (clear_bits (input.block 2) (sb.data_region_blocks (input.block 0))).length)
    (he : find_free_entry (input.block (sb.data_region_start (input.block 0))) 64 0
      = (e : Int)) :
    ∃ out, main input filename file now = .ok out ∧ out.size = input.size ∧
      (∀ j, j < BS → out.data j = input.data j) ∧
      (∀ j, j < BS → out.data (BS + j) = set_bit (input.block 1) r j) ∧
      (∀ j, j < BS → out.data (2 * BS + j) =
        mark_blocks ((clear_bits (input.block 2)
          (sb.data_region_blocks (input.block 0))).take k)
          (input.block 2) k j) ∧
      (∀ j, j < sb.inode_table_blocks (input.block 0) * BS → out.data (3 * BS + j) =
        inode_crc_finalize
          (st16
            (memcpy (slice input.data (3 * BS) (sb.inode_table_blocks (input.block 0) * BS))
              (r * INODE_SIZE)
              (new_inode (u64 file.size) now (sb.data_region_start (input.block 0))
                k
                ((clear_bits (input.block 2)
                  (sb.data_region_blocks (input.block 0))).take k))
              INODE_SIZE)
            2
            (ld16
              (memcpy (slice input.data (3 * BS) (sb.inode_table_blocks (input.block 0) * BS))
                (r * INODE_SIZE)
                (new_inode (u64 file.size) now (sb.data_region_start (input.block 0))
                  k
                  ((clear_bits (input.block 2)
                    (sb.data_region_blocks (input.block 0))).take k))
                INODE_SIZE) 2 + 1))
          0 j) ∧
      (∀ j, j < BS → out.data (sb.data_region_start (input.block 0) * BS + j) =
        memcpy (input.block (sb.data_region_start (input.block 0))) (64 * e)
          (new_entry r filename) 64 j) ∧
      (∀ t j, t < k → j < BS →
        out.data ((sb.data_region_start (input.block 0) +
          ((clear_bits (input.block 2) (sb.data_region_blocks (input.block 0))).take
            k).getD t 0) * BS + j) =
          slice file.data (t * BS) (to_read (u64 file.size) k t) j) ∧
      (∀ i, (sb.data_region_start (input.block 0) + 1) * BS ≤ i → i < input.size →
        (∀ t, t < k → i / BS ≠
          sb.data_region_start (input.block 0) +
            ((clear_bits (input.block 2) (sb.data_region_blocks (input.block 0))).take
              k).getD t 0) →
        out.data i = input.data i) := by
  obtain ⟨b1, b2, b3, b4, b5, b6⟩ := hw.bounds
  have hitb := hw.inode_table_blocks
  have hscan : scan_free_blocks (input.block 2) ((k : Nat) : Int)
      (sb.data_region_blocks (input.block 0)) 0 [] =
        (clear_bits (input.block 2) (sb.data_region_blocks (input.block 0))).take
          k := scan_free_blocks_clear_bits _ _ _
  have hlen : ((clear_bits (input.block 2) (sb.data_region_blocks (input.block 0))).take
      k).length = k := by
    rw [List.length_take]; omega
  -- the free inode is not the root inode
  have hr0 : r ≠ 0 := by
    rcases find_free_bit_spec (input.block 1) (sb.inode_count (input.block 0)) with
      ⟨h, _⟩ | ⟨r', hr', _, hr2, _⟩
    · rw [hr] at h; omega
    · rw [hr] at hr'
      have : r = r' := by omega
      subst this
      intro h0
      rw [h0] at hr2
      exact hw.root_inode_used hr2
  -- the pointers of the new inode
  have hdir : ∀ t, t < k →
      ld32 (new_inode (u64 file.size) now (sb.data_region_start (input.block 0))
        k
        ((clear_bits (input.block 2) (sb.data_region_blocks (input.block 0))).take
          k)) (44 + 4 * t) =
        sb.data_region_start (input.block 0) +
          ((clear_bits (input.block 2) (sb.data_region_blocks (input.block 0))).take
            k).getD t 0 := by
    intro t ht
    rw [new_inode_direct _ _ _ _ _ hk12 t (by omega), if_pos ht]
    have hb := (clear_bits_take_getD (input.block 2) (sb.data_region_blocks (input.block 0))
      k t (by rw [hlen]; exact ht)).1
    have := hw.total_blocks
    unfold u64
    rw [Nat.mod_eq_of_lt (by simp only [BS] at *; omega),
      Nat.mod_eq_of_lt (by simp only [BS] at *; omega)]
  have hpos : ∀ t, t < k →
      0 < ((clear_bits (input.block 2) (sb.data_region_blocks (input.block 0))).take
        k).getD t 0 := by
    intro t ht
    have hb := (clear_bits_take_getD (input.block 2) (sb.data_region_blocks (input.block 0))
      k t (by rw [hlen]; exact ht)).2
    rcases Nat.eq_zero_or_pos (((clear_bits (input.block 2)
      (sb.data_region_blocks (input.block 0))).take k).getD t 0)
      with h0 | h0
    · rw [h0] at hb
      exact absurd hb hw.root_dir_used
    · exact h0
  have htbl : ld32 (inode_crc_finalize
      (st16
        (memcpy (slice input.data (3 * BS) (sb.inode_table_blocks (input.block 0) * BS))
          (r * INODE_SIZE)
          (new_inode (u64 file.size) now (sb.data_region_start (input.block 0))
            k
            ((clear_bits (input.block 2)
              (sb.data_region_blocks (input.block 0))).take k))
          INODE_SIZE)
        2
        (ld16
          (memcpy (slice input.data (3 * BS) (sb.inode_table_blocks (input.block 0) * BS))
            (r * INODE_SIZE)
            (new_inode (u64 file.size) now (sb.data_region_start (input.block 0))
              k
              ((clear_bits (input.block 2)
                (sb.data_region_blocks (input.block 0))).take k))
            INODE_SIZE) 2 + 1))
      0) 44 = sb.data_region_start (input.block 0) := by
    rw [← hw.root_dir_block]
    apply ld32_congr
    intro j hj
    rw [inode_crc_finalize_frame _ _ _ (by omega)]
    simp only [st16]
    rw [st_outside (by omega), memcpy_apply, if_neg (by simp only [INODE_SIZE]; omega),
      slice_apply, if_pos (by simp only [BS]; omega), block_apply,
      if_pos (by simp only [BS]; omega)]
  obtain ⟨out, ho, h1, h2, h3, h4, h5, h6, h7, h8⟩ := emit_wf hw file
    (set_bit (input.block 1) r)
    (mark_blocks ((clear_bits (input.block 2)
      (sb.data_region_blocks (input.block 0))).take k)
      (input.block 2) k)
    _
    (memcpy (input.block (sb.data_region_start (input.block 0))) (64 * e)
      (new_entry r filename) 64)
    (new_inode (u64 file.size) now (sb.data_region_start (input.block 0))
      k
      ((clear_bits (input.block 2)
        (sb.data_region_blocks (input.block 0))).take k))
    k htbl
    hread
    (fun t ht => by
      rw [hdir t ht]
      have hb := (clear_bits_take_getD (input.block 2) (sb.data_region_blocks (input.block 0))
        k t (by rw [hlen]; exact ht)).1
      have := hpos t ht
      have := hw.total_blocks
      omega)
    (fun t t' ht ht' hne => by
      rw [hdir t ht, hdir t' ht']
      rcases Nat.lt_or_gt_of_ne hne with hl | hl
      · have := clear_bits_take_lt (input.block 2) (sb.data_region_blocks (input.block 0))
          k t t' hl (by rw [hlen]; exact ht')
        omega
      · have := clear_bits_take_lt (input.block 2) (sb.data_region_blocks (input.block 0))
          k t' t hl (by rw [hlen]; exact ht)
        omega)
  refine ⟨out, ?_, h1, h2, h3, h4, h5, h6, ?_, ?_⟩
  · rw [main_wf hw, hbn, hscan, hlen, hr, he]
    rw [if_neg (by omega), if_neg (by omega), if_neg (by omega), if_neg (by omega),
      if_neg (by omega)]
    simp only [Int.toNat_ofNat]
    exact ho
  · intro t j ht hj
    rw [← hdir t ht, h7 t j ht hj]
  · intro i hi1 hi2 hne
    exact h8 i hi1 hi2 (fun t ht => by rw [hdir t ht]; exact hne t ht)

end mkfs_adder

namespace mkfs_adder

theorem u64_of_fit {s : Nat} (h : (s + BS - 1) / BS < 2 ^ 31) : u64 s = s := by
  unfold u64
  apply Nat.mod_eq_of_lt
  simp only [BS] at h
  omega

/-- What a successful ingest into a well-formed image implies about its inputs. -/
theorem main_wf_inv {input : File} (hw : WellFormed input) {filename : List Nat} {file : File}
    {now : Nat} {out : File} (hfit : (file.size + BS - 1) / BS < 2 ^ 31)
    (h : main input filename file now = .ok out) :
    file.size ≤ 12 * BS ∧
    (∃ r : Nat, find_free_bit (input.block 1) (sb.inode_count (input.block 0) : Nat)
      = (r : Int)) ∧
    (file.size + BS - 1) / BS ≤
      (clear_bits (input.block 2) (sb.data_region_blocks (input.block 0))).length ∧
    (∃ e : Nat, find_free_entry (input.block (sb.data_region_start (input.block 0))) 64 0
      = (e : Int)) := by
  have hbn := blocks_needed_small hfit
  rw [u64_of_fit hfit] at hbn
  rw [main_wf hw, u64_of_fit hfit, hbn, scan_free_blocks_clear_bits] at h
  by_cases c1 : (((file.size + BS - 1) / BS : Nat) : Int) > 12
  · rw [if_pos c1] at h; cases h
  rw [if_neg c1] at h
  by_cases c2 : find_free_bit (input.block 1) (sb.inode_count (input.block 0) : Nat) = -1
  · rw [if_pos c2] at h; cases h
  rw [if_neg c2] at h
  by_cases c3 : (((clear_bits (input.block 2) (sb.data_region_blocks (input.block 0))).take
      ((file.size + BS - 1) / BS)).length : Int) < (((file.size + BS - 1) / BS : Nat) : Int)
  · rw [if_pos c3] at h; cases h
  rw [if_neg c3,
    if_neg (show ¬ ((((file.size + BS - 1) / BS : Nat) : Int) < 0) from
      Int.not_lt.mpr (Int.ofNat_zero_le _))] at h
  by_cases c5 : find_free_entry (input.block (sb.data_region_start (input.block 0))) 64 0 = -1
  · rw [if_pos c5] at h; cases h
  refine ⟨?_, ?_, ?_, ?_⟩
  · simp only [BS] at c1 ⊢; omega
  · rcases find_free_bit_spec (input.block 1) (sb.inode_count (input.block 0)) with
      ⟨h1, _⟩ | ⟨r, hr, _⟩
    · exact absurd h1 c2
    · exact ⟨r, hr⟩
  · rw [List.length_take] at c3
    omega
  · rcases find_free_entry_spec (input.block (sb.data_region_start (input.block 0))) 64 0 with
      ⟨h1, _⟩ | ⟨e, he, _⟩
    · exact absurd h1 c5
    · exact ⟨e, he⟩

end mkfs_adder

/-! ## The formatter writes a well-formed image -/

namespace mkfs_builder

theorem image_block0_fields (s n : Int) (t1 t2 : Nat) (hv : validated s n) :
    sb.magic ((image s n t1 t2).block 0) = 0x4D565346 ∧
    sb.total_blocks ((image s n t1 t2).block 0) = total_blocks s ∧
    sb.inode_count ((image s n t1 t2).block 0) = n.toNat ∧
    sb.inode_bitmap_start ((image s n t1 t2).block 0) = 1 ∧
    sb.data_bitmap_start ((image s n t1 t2).block 0) = 2 ∧
    sb.inode_table_start ((image s n t1 t2).block 0) = 3 ∧
    sb.inode_table_blocks ((image s n t1 t2).block 0) = inode_table_blocks n ∧
    sb.data_region_start ((image s n t1 t2).block 0) = data_region_start n ∧
    sb.data_region_blocks ((image s n t1 t2).block 0) = data_region_blocks s n := by
  obtain ⟨h1, h2, h3, h4, h5, h6, h7, h8, h9, h10⟩ := layout_facts s n hv
  have hm : sb.magic ((image s n t1 t2).block 0) = ld32 (superblock s n t1) 0 := by
    unfold sb.magic
    rw [← image_sb_field32 s n t1 t2 0 (by decide)]
    apply ld32_congr
    intro j hj
    rw [File.block, slice_apply, slice_apply, if_pos (by simp only [BS]; omega),
      if_pos (by omega), Nat.zero_mul]
  refine ⟨?_, ?_, ?_, ?_, ?_, ?_, ?_, ?_, ?_⟩
  · rw [hm]
    simp [superblock, st32, st64, ld32_st_frame, ld32_st_rt]
  · unfold sb.total_blocks
    rw [image_block0_field64 _ _ _ _ _ (by decide)]
    simp [superblock, st32, st64, ld64_st_frame, ld64_st_rt]
    omega
  · unfold sb.inode_count
    rw [image_block0_field64 _ _ _ _ _ (by decide)]
    simp [superblock, st32, st64, ld64_st_frame, ld64_st_rt]
    unfold validated at hv
    omega
  · unfold sb.inode_bitmap_start
    rw [image_block0_field64 _ _ _ _ _ (by decide)]
    simp [superblock, st32, st64, ld64_st_frame, ld64_st_rt, inode_bitmap_start]
  · unfold sb.data_bitmap_start
    rw [image_block0_field64 _ _ _ _ _ (by decide)]
    simp [superblock, st32, st64, ld64_st_frame, ld64_st_rt, data_bitmap_start]
  · unfold sb.inode_table_start
    rw [image_block0_field64 _ _ _ _ _ (by decide)]
    simp [superblock, st32, st64, ld64_st_frame, ld64_st_rt, inode_table_start]
  · unfold sb.inode_table_blocks
    rw [image_block0_field64 _ _ _ _ _ (by decide)]
    simp [superblock, st32, st64, ld64_st_frame, ld64_st_rt]
    omega
  · unfold sb.data_region_start
    rw [image_block0_field64 _ _ _ _ _ (by decide)]
    simp [superblock, st32, st64, ld64_st_frame, ld64_st_rt]
    omega
  · unfold sb.data_region_blocks
    rw [image_block0_field64 _ _ _ _ _ (by decide)]
    simp [superblock, st32, st64, ld64_st_frame, ld64_st_rt]
    omega

theorem image_bitmap_bits (s n : Int) (t1 t2 : Nat) (i : Nat) (hi : i < 8 * BS) :
    (mkfs_adder.bit_mask ((image s n t1 t2).block 1) i ≠ 0 ↔ i = 0) ∧
    (mkfs_adder.bit_mask ((image s n t1 t2).block 2) i ≠ 0 ↔ i = 0) := by
  constructor
  · rw [mkfs_adder.bit_mask_congr (b := st8 zeros 0 1)]
    · exact mkfs_adder.bit_mask_first_only i
    · rw [File.block, slice_apply, if_pos (by omega), Nat.one_mul,
        image_block1 _ _ _ _ _ (by omega)]
  · rw [mkfs_adder.bit_mask_congr (b := st8 zeros 0 1)]
    · exact mkfs_adder.bit_mask_first_only i
    · rw [File.block, slice_apply, if_pos (by omega),
        image_block2 _ _ _ _ _ (by omega)]

/-- The image written by the formatter is well-formed. -/
theorem image_wellFormed (s n : Int) (t1 t2 : Nat) (hv : validated s n) :
    mkfs_adder.WellFormed (image s n t1 t2) := by
  obtain ⟨h1, h2, h3, h4, h5, h6, h7, h8, h9, h10⟩ := layout_facts s n hv
  obtain ⟨f0, f1, f2, f3, f4, f5, f6, f7, f8⟩ := image_block0_fields s n t1 t2 hv
  have hv' := hv
  unfold validated at hv'
  refine ⟨f0, f3, f4, f5, ?_, ?_, ?_, ?_, ?_, ?_, ?_, ?_, ?_, ?_, ?_, ?_⟩
  · rw [f6]; omega
  · rw [f7, f6]; omega
  · rw [f8]; omega
  · rw [f1, f7, f8]; omega
  · rw [f1]; norm_num; omega
  · rw [f1, image_size]; congr 1; omega
  · rw [f2, f6]; omega
  · rw [f2]; simp only [BS]; omega
  · rw [f8]; simp only [BS]; omega
  · exact ((image_bitmap_bits s n t1 t2 0 (by decide)).1).mpr rfl
  · rw [f7, ← (root_inode_fields n t2 (by omega)).2.2.2.1]
    apply ld32_congr
    intro j hj
    rw [File.block, slice_apply, if_pos (by simp only [BS]; omega),
      image_inode_table _ _ _ _ _ (by simp only [BS]; omega),
      if_pos (by simp only [INODE_SIZE]; omega)]
  · exact ((image_bitmap_bits s n t1 t2 0 (by decide)).2).mpr rfl

end mkfs_builder

namespace mkfs_adder

theorem write_payload_some_inv (file : File) (ino : Bytes) (k : Nat) (out : File) (n : Nat)
    {o : File} (h : write_payload file ino k out n = some o) :
    ∀ t, t < n → t * BS + to_read (u64 file.size) k t ≤ file.size := by
  induction n generalizing o with
  | zero => intro t ht; omega
  | succ n ih =>
    unfold write_payload at h
    cases hp : write_payload file ino k out n with
    | none => rw [hp] at h; cases h
    | some o' =>
      rw [hp] at h
      simp only [] at h
      intro t ht
      by_cases htn : t = n
      · subst htn
        by_contra hc
        have : fread file (t * BS) (to_read (u64 file.size) k t) = none := by
          unfold fread; rw [if_neg (by omega)]
        rw [this, if_pos (to_read_pos _ _ _)] at h
        cases h
      · exact ih hp t (by omega)

theorem emit_ok_inv {input file : File} {sbk ib db tbl : Bytes} {its : Nat} {rd ino : Bytes}
    {k : Nat} {out : File} (h : emit input file sbk ib db tbl its rd ino k = .ok out) :
    ∀ t, t < k → t * BS + to_read (u64 file.size) k t ≤ file.size := by
  unfold emit at h
  cases hc : copy_blocks input (sb.total_blocks sbk) with
  | none => rw [hc] at h; cases h
  | some c =>
    rw [hc] at h
    simp only [] at h
    split at h
    · cases h
    · rename_i o ho
      exact write_payload_some_inv _ _ _ _ _ ho

/-- What a successful ingest into a well-formed image implies about its inputs. -/
theorem main_wf_inv_gen {input : File} (hw : WellFormed input) {filename : List Nat}
    {file : File} {now : Nat} {out : File} (h : main input filename file now = .ok out) :
    ∃ k r e : Nat, blocks_needed (u64 file.size) = (k : Int) ∧ k ≤ 12 ∧
      (∀ t, t < k → t * BS + to_read (u64 file.size) k t ≤ file.size) ∧
      find_free_bit (input.block 1) (sb.inode_count (input.block 0) : Nat) = (r : Int) ∧
      k ≤ (clear_bits (input.block 2) (sb.data_region_blocks (input.block 0))).length ∧
      find_free_entry (input.block (sb.data_region_start (input.block 0))) 64 0 = (e : Int) := by
  rw [main_wf hw] at h
  by_cases c1 : blocks_needed (u64 file.size) > 12
  · rw [if_pos c1] at h; cases h
  rw [if_neg c1] at h
  by_cases c2 : find_free_bit (input.block 1) (sb.inode_count (input.block 0) : Nat) = -1
  · rw [if_pos c2] at h; cases h
  rw [if_neg c2] at h
  by_cases c3 : ((scan_free_blocks (input.block 2) (blocks_needed (u64 file.size))
      (sb.data_region_blocks (input.block 0)) 0 []).length : Int)
        < blocks_needed (u64 file.size)
  · rw [if_pos c3] at h; cases h
  rw [if_neg c3] at h
  by_cases c4 : blocks_needed (u64 file.size) < 0
  · rw [if_pos c4] at h; cases h
  rw [if_neg c4] at h
  by_cases c5 : find_free_entry (input.block (sb.data_region_start (input.block 0))) 64 0 = -1
  · rw [if_pos c5] at h; cases h
  rw [if_neg c5] at h
  obtain ⟨k, hk⟩ : ∃ k : Nat, blocks_needed (u64 file.size) = (k : Int) :=
    ⟨(blocks_needed (u64 file.size)).toNat, by omega⟩
  have hread := emit_ok_inv h
  rw [hk, Int.toNat_ofNat] at hread
  rw [hk, scan_free_blocks_clear_bits, List.length_take] at c3
  rcases find_free_bit_spec (input.block 1) (sb.inode_count (input.block 0)) with
    ⟨h1, _⟩ | ⟨r, hr, _⟩
  · exact absurd h1 c2
  rcases find_free_entry_spec (input.block (sb.data_region_start (input.block 0))) 64 0 with
    ⟨h1, _⟩ | ⟨e, he, _⟩
  · exact absurd h1 c5
  exact ⟨k, r, e, hk, by omega, hread, hr, by omega, he⟩

end mkfs_adder

/-! ## The ingestor: the superblock is written back unchanged -/

namespace mkfs_adder

/-- A successful ingest into a well-formed image, region by region. -/
theorem main_wf_spec {input : File} (hw : WellFormed input) {filename : List Nat}
    {file : File} {now : Nat} {out : File} (h : main input filename file now = .ok out) :
    ∃ k r e : Nat, blocks_needed (u64 file.size) = (k : Int) ∧ k ≤ 12 ∧
      (∀ t, t < k → t * BS + to_read (u64 file.size) k t ≤ file.size) ∧
      find_free_bit (input.block 1) (sb.inode_count (input.block 0) : Nat) = (r : Int) ∧
      k ≤ (clear_bits (input.block 2) (sb.data_region_blocks (input.block 0))).length ∧
      find_free_entry (input.block (sb.data_region_start (input.block 0))) 64 0 = (e : Int) ∧
      out.size = input.size ∧
      (∀ j, j < BS → out.data j = input.data j) ∧
      (∀ j, j < BS → out.data (BS + j) = set_bit (input.block 1) r j) ∧
      (∀ j, j < BS → out.data (2 * BS + j) =
        mark_blocks ((clear_bits (input.block 2)
          (sb.data_region_blocks (input.block 0))).take k) (input.block 2) k j) ∧
      (∀ j, j < sb.inode_table_blocks (input.block 0) * BS → out.data (3 * BS + j) =
        inode_crc_finalize
          (st16
            (memcpy (slice input.data (3 * BS) (sb.inode_table_blocks (input.block 0) * BS))
              (r * INODE_SIZE)
              (new_inode (u64 file.size) now (sb.data_region_start (input.block 0)) k
                ((clear_bits (input.block 2) (sb.data_region_blocks (input.block 0))).take k))
              INODE_SIZE)
            2
            (ld16
              (memcpy (slice input.data (3 * BS) (sb.inode_table_blocks (input.block 0) * BS))
                (r * INODE_SIZE)
                (new_inode (u64 file.size) now (sb.data_region_start (input.block 0)) k
                  ((clear_bits (input.block 2)
                    (sb.data_region_blocks (input.block 0))).take k))
                INODE_SIZE) 2 + 1))
          0 j) ∧
      (∀ j, j < BS → out.data (sb.data_region_start (input.block 0) * BS + j) =
        memcpy (input.block (sb.data_region_start (input.block 0))) (64 * e)
          (new_entry r filename) 64 j) ∧
      (∀ t j, t < k → j < BS →
        out.data ((sb.data_region_start (input.block 0) +
          ((clear_bits (input.block 2) (sb.data_region_blocks (input.block 0))).take
            k).getD t 0) * BS + j) =
          slice file.data (t * BS) (to_read (u64 file.size) k t) j) ∧
      (∀ i, (sb.data_region_start (input.block 0) + 1) * BS ≤ i → i < input.size →
        (∀ t, t < k → i / BS ≠
          sb.data_region_start (input.block 0) +
            ((clear_bits (input.block 2) (sb.data_region_blocks (input.block 0))).take
              k).getD t 0) →
        out.data i = input.data i) := by
  obtain ⟨k, r, e, h1, h2, h3, h4, h5, h6⟩ := main_wf_inv_gen hw h
  obtain ⟨out', ho, g⟩ := main_wf_ok_gen hw filename file now h1 h2 h3 h4 h5 h6
  rw [h] at ho
  cases ho
  exact ⟨k, r, e, h1, h2, h3, h4, h5, h6, g⟩

theorem poke_data (f : File) (i v j : Nat) :
    (poke f i v).data j = if j = i then v else f.data j := rfl

theorem stale_wellFormed : WellFormed stale := by
  constructor <;> decide!

theorem stale_ingest_facts :
    blocks_needed (u64 (letters 1).size) = ((1 : Nat) : Int) ∧
    find_free_bit (stale.block 1) (sb.inode_count (stale.block 0) : Nat) = ((1 : Nat) : Int) ∧
    1 ≤ (clear_bits (stale.block 2) (sb.data_region_blocks (stale.block 0))).length ∧
    find_free_entry (stale.block (sb.data_region_start (stale.block 0))) 64 0
      = ((2 : Nat) : Int) ∧
    0 * BS + to_read (u64 (letters 1).size) 1 0 ≤ (letters 1).size := by
  refine ⟨?_, ?_, ?_, ?_, ?_⟩ <;> decide!

/-- An output whose block 0 is the block 0 of an image with a validating checksum,
but for one changed byte of the checksum field, carries a checksum that does not
validate. -/
theorem changed_checksum_invalid (img out : File) (v : Nat)
    (hb0 : ∀ j, j < BS → out.data j = (poke img 112 v).data j)
    (hv : v % 256 ≠ img.data 112 % 256)
    (hvalid : ld32 (slice img.data 0 116) 112 = crc32 (st32 (img.block 0) 112 0) (BS - 4)) :
    sb.checksum (out.block 0) ≠ crc32 (st32 (out.block 0) 112 0) (BS - 4) := by
  have hcrc : crc32 (st32 (out.block 0) 112 0) (BS - 4)
      = crc32 (st32 (img.block 0) 112 0) (BS - 4) := by
    apply crc32_congr
    intro i hi
    simp only [st32, st_apply]
    split
    · rfl
    · rw [block_apply, block_apply, if_pos (by simp only [BS] at hi ⊢; omega),
        if_pos (by simp only [BS] at hi ⊢; omega), Nat.zero_mul, Nat.zero_add,
        hb0 i (by simp only [BS] at hi ⊢; omega), poke_data, if_neg (by omega)]
  rw [hcrc, ← hvalid]
  have hs : sb.checksum (out.block 0) = ld32 (poke img 112 v).data 112 := by
    unfold sb.checksum
    apply ld32_congr
    intro j hj
    rw [block_apply, if_pos (by simp only [BS]; omega), Nat.zero_mul, Nat.zero_add,
      hb0 _ (by simp only [BS]; omega)]
  rw [hs]
  have hf : ld32 (slice img.data 0 116) 112 = ld32 img.data 112 := by
    apply ld32_congr
    intro j hj
    rw [slice_apply, if_pos (by omega), Nat.zero_add]
  rw [hf]
  unfold ld32
  rw [poke_data, poke_data, poke_data, poke_data, if_pos rfl, if_neg (by omega),
    if_neg (by omega), if_neg (by omega)]
  omega

theorem succ_mod_ne (x : Nat) : (x + 1) % 256 % 256 ≠ x % 256 := by omega

/-- C2, counterexample: the image `stale` has a valid magic and a stored checksum
that does not validate; a one-byte file is ingested successfully and the checksum
stored in the output does not equal the CRC-32 of the first 4092 bytes of the
output's block 0 taken with the checksum field zeroed. -/
theorem stale_checksum_survives_ingest :
    sb.magic (stale.block 0) = 0x4D565346 ∧
    ∃ out, main stale [97] (letters 1) 1700000005 = .ok out ∧
      sb.checksum (out.block 0) ≠ crc32 (st32 (out.block 0) 112 0) (BS - 4) := by
  refine ⟨stale_wellFormed.magic, ?_⟩
  obtain ⟨out, ho, _, hb0, _⟩ := main_wf_ok_gen stale_wellFormed [97] (letters 1) 1700000005
    (k := 1) (r := 1) (e := 2) stale_ingest_facts.1 (by decide)
    (fun t ht => by
      have : t = 0 := by omega
      subst this
      exact stale_ingest_facts.2.2.2.2)
    stale_ingest_facts.2.1 stale_ingest_facts.2.2.1 stale_ingest_facts.2.2.2.1
  exact ⟨out, ho, changed_checksum_invalid fresh out _ hb0 (succ_mod_ne _)
    (mkfs_builder.image_sb_checksum 180 128 _ _)⟩

/-- C2, amended: the ingest does not rewrite the superblock. For every well-formed
input image and every source file for which ingest succeeds, block 0 of the output
is byte-identical to block 0 of the input; the stored checksum is the input's, and
it equals the CRC-32 of the first 4092 bytes of block 0 (checksum field zeroed) in
the output exactly when it does in the input. -/
theorem ingest_keeps_superblock {input : File} (hw : WellFormed input) {filename : List Nat}
    {file : File} {now : Nat} {out : File} (h : main input filename file now = .ok out) :
    out.block 0 = input.block 0 ∧
    sb.checksum (out.block 0) = sb.checksum (input.block 0) ∧
    (sb.checksum (out.block 0) = crc32 (st32 (out.block 0) 112 0) (BS - 4) ↔
      sb.checksum (input.block 0) = crc32 (st32 (input.block 0) 112 0) (BS - 4)) := by
  obtain ⟨k, r, e, _, _, _, _, _, _, _, hb0, _⟩ := main_wf_spec hw h
  have hb : out.block 0 = input.block 0 := by
    funext j
    rw [block_apply, block_apply, Nat.zero_mul, Nat.zero_add]
    by_cases hj : j < BS
    · rw [if_pos hj, if_pos hj, hb0 j hj]
    · rw [if_neg hj, if_neg hj]
  rw [hb]
  exact ⟨rfl, rfl, Iff.rfl⟩

theorem fresh_wellFormed : WellFormed fresh :=
  mkfs_builder.image_wellFormed 180 128 _ _ (by decide)

theorem fresh_ingest_facts :
    blocks_needed (u64 (letters 5000).size) = ((2 : Nat) : Int) ∧
    find_free_bit (fresh.block 1) (sb.inode_count (fresh.block 0) : Nat) = ((1 : Nat) : Int) ∧
    2 ≤ (clear_bits (fresh.block 2) (sb.data_region_blocks (fresh.block 0))).length ∧
    find_free_entry (fresh.block (sb.data_region_start (fresh.block 0))) 64 0
      = ((2 : Nat) : Int) ∧
    0 * BS + to_read (u64 (letters 5000).size) 2 0 ≤ (letters 5000).size ∧
    1 * BS + to_read (u64 (letters 5000).size) 2 1 ≤ (letters 5000).size := by
  refine ⟨?_, ?_, ?_, ?_, ?_, ?_⟩ <;> decide!

/-- A 5000-byte file is ingested into the fresh image. -/
theorem fresh_ingest_ok (filename : List Nat) (now : Nat) :
    ∃ out, main fresh filename (letters 5000) now = .ok out := by
  obtain ⟨out, ho, _⟩ := main_wf_ok_gen fresh_wellFormed filename (letters 5000) now
    (k := 2) (r := 1) (e := 2) fresh_ingest_facts.1 (by decide)
    (fun t ht => by
      rcases Nat.lt_or_ge t 1 with h | h
      · have : t = 0 := by omega
        subst this
        exact fresh_ingest_facts.2.2.2.2.1
      · have : t = 1 := by omega
        subst this
        exact fresh_ingest_facts.2.2.2.2.2)
    fresh_ingest_facts.2.1 fresh_ingest_facts.2.2.1 fresh_ingest_facts.2.2.2.1
  exact ⟨out, ho⟩

/-- Witness of `ingest_keeps_superblock`: a 5000-byte file ingested into the
fresh image. -/
theorem ingest_keeps_superblock_witness :
    WellFormed fresh ∧
    ∃ out, main fresh [104, 105] (letters 5000) 1700000005 = .ok out ∧
      out.block 0 = fresh.block 0 := by
  refine ⟨fresh_wellFormed, ?_⟩
  obtain ⟨out, ho⟩ := fresh_ingest_ok [104, 105] 1700000005
  exact ⟨out, ho, (ingest_keeps_superblock fresh_wellFormed ho).1⟩

end mkfs_adder

/-! ## The ingestor: allocation of data blocks -/

namespace mkfs_adder

theorem outcome_error {x : Except Err File} {e : Err} (h : outcome x = some e) :
    x = .error e := by
  cases x with
  | ok o => cases h
  | error e' =>
    simp only [outcome, Option.some.injEq] at h
    rw [h]

theorem free_inode_facts {input : File} (hw : WellFormed input) {r : Nat}
    (hr : find_free_bit (input.block 1) (sb.inode_count (input.block 0) : Nat) = (r : Int)) :
    1 ≤ r ∧ r < sb.inode_count (input.block 0) ∧ bit_mask (input.block 1) r = 0 ∧
      (∀ j, j < r → bit_mask (input.block 1) j ≠ 0) ∧
      (r + 1) * INODE_SIZE ≤ sb.inode_table_blocks (input.block 0) * BS := by
  rcases find_free_bit_spec (input.block 1) (sb.inode_count (input.block 0)) with
    ⟨h, _⟩ | ⟨r', hr', h1, h2, h3⟩
  · rw [hr] at h; omega
  · rw [hr] at hr'
    have : r = r' := by omega
    subst this
    have hr0 : r ≠ 0 := by
      intro h0
      rw [h0] at h2
      exact hw.root_inode_used h2
    have := hw.inode_slots
    refine ⟨by omega, h1, h2, h3, ?_⟩
    simp only [BS, INODE_SIZE]
    omega

/-- The record of the new inode in the output of a successful ingest. -/
theorem ingest_new_inode {input : File} (hw : WellFormed input) {filename : List Nat}
    {file : File} {now : Nat} {out : File} (h : main input filename file now = .ok out) :
    ∃ k r : Nat, blocks_needed (u64 file.size) = (k : Int) ∧ k ≤ 12 ∧
      find_free_bit (input.block 1) (sb.inode_count (input.block 0) : Nat) = (r : Int) ∧
      k ≤ (clear_bits (input.block 2) (sb.data_region_blocks (input.block 0))).length ∧
      ∀ j, j < INODE_SIZE → slice out.data (3 * BS + r * INODE_SIZE) INODE_SIZE j =
        new_inode (u64 file.size) now (sb.data_region_start (input.block 0)) k
          ((clear_bits (input.block 2) (sb.data_region_blocks (input.block 0))).take k) j := by
  obtain ⟨k, r, e, h1, h2, _, h4, h5, _, _, _, _, _, ht, _⟩ := main_wf_spec hw h
  obtain ⟨r1, r2, r3, r4, r5⟩ := free_inode_facts hw h4
  refine ⟨k, r, h1, h2, h4, h5, ?_⟩
  intro j hj
  rw [Nat.succ_mul] at r5
  rw [slice_apply, if_pos hj, Nat.add_assoc, ht _ (by omega),
    inode_crc_finalize_frame _ _ _ (by simp only [INODE_SIZE] at *; omega)]
  simp only [st16]
  rw [st_outside (by simp only [INODE_SIZE] at *; omega), memcpy_apply, if_pos (by omega)]
  exact congrArg _ (by omega)

theorem ld32_eq_of_fit {s : Nat} (hk : (s + BS - 1) / BS ≤ 12) :
    u64 s = s ∧ blocks_needed (u64 s) = (((s + BS - 1) / BS : Nat) : Int) :=
  ⟨u64_of_fit (Nat.lt_of_le_of_lt hk (by norm_num)),
    blocks_needed_small (Nat.lt_of_le_of_lt hk (by norm_num))⟩

/-- C4, counterexample: the image `full` has a valid magic; a one-byte file needs
one block and the data bitmap has no clear bit below `data_region_blocks`, yet the
ingest does not fail with `InsufficientSpace`: it fails with `NoFreeInodes`. -/
theorem full_image_reports_no_inode :
    sb.magic (full.block 0) = 0x4D565346 ∧ ((letters 1).size + BS - 1) / BS = 1 ∧
    (clear_bits (full.block 2) (sb.data_region_blocks (full.block 0))).length < 1 ∧
    main full [97] (letters 1) 1700000005 = .error .NoFreeInodes ∧
    main full [97] (letters 1) 1700000005 ≠ .error .InsufficientSpace := by
  have h : main full [97] (letters 1) 1700000005 = .error .NoFreeInodes :=
    outcome_error (by decide!)
  refine ⟨by decide!, by decide, by decide!, h, ?_⟩
  rw [h]
  intro hc
  cases hc

theorem fresh_clear_bits :
    sb.data_region_start (fresh.block 0) = 7 ∧
    (clear_bits (fresh.block 2) (sb.data_region_blocks (fresh.block 0))).getD 0 0 = 1 ∧
    (clear_bits (fresh.block 2) (sb.data_region_blocks (fresh.block 0))).getD 1 0 = 2 ∧
    ((letters 5000).size + BS - 1) / BS = 2 := by
  refine ⟨?_, ?_, ?_, ?_⟩ <;> decide!

/-- C4, amended: data-block allocation of ingest on a well-formed image, for a
source file needing `k = ceil(size/4096) <= 12` blocks. With `b` the clear bits of
the input data bitmap below `data_region_blocks` in ascending order: every
successful ingest stores the new inode in the table slot of the lowest clear
inode-bitmap bit, with `direct[t] = data_region_start + b[t]` for `t < k` (the `k`
lowest clear bits, ascending) and `direct[k..11] = 0`; when a free inode exists and
fewer than `k` clear bits exist the ingest fails with `InsufficientSpace`; when a
free inode, `k` clear bits and a free directory slot exist the ingest succeeds. On
the fresh `(180, 128)` image a 5000-byte file gets `k = 2` and
`direct = [8, 9, 0, ..., 0]`. -/
theorem data_block_allocation {input : File} (hw : WellFormed input) (filename : List Nat)
    (file : File) (now : Nat) (hk : (file.size + BS - 1) / BS ≤ 12) :
    let k := (file.size + BS - 1) / BS
    let b := clear_bits (input.block 2) (sb.data_region_blocks (input.block 0))
    (∀ out, main input filename file now = .ok out →
      k ≤ b.length ∧
      ∃ r : Nat, find_free_bit (input.block 1) (sb.inode_count (input.block 0) : Nat)
          = (r : Int) ∧
        (∀ t, t < k →
          ld32 (slice out.data (3 * BS + r * INODE_SIZE) INODE_SIZE) (44 + 4 * t)
            = sb.data_region_start (input.block 0) + b.getD t 0) ∧
        (∀ t, k ≤ t → t < 12 →
          ld32 (slice out.data (3 * BS + r * INODE_SIZE) INODE_SIZE) (44 + 4 * t) = 0)) ∧
    (∀ t t', t < t' → t' < b.length → b.getD t 0 < b.getD t' 0) ∧
    (∀ t, t < b.length →
      b.getD t 0 < sb.data_region_blocks (input.block 0) ∧
        bit_mask (input.block 2) (b.getD t 0) = 0) ∧
    (b.length < k →
      find_free_bit (input.block 1) (sb.inode_count (input.block 0) : Nat) ≠ -1 →
      main input filename file now = .error .InsufficientSpace) ∧
    (k ≤ b.length →
      find_free_bit (input.block 1) (sb.inode_count (input.block 0) : Nat) ≠ -1 →
      find_free_entry (input.block (sb.data_region_start (input.block 0))) 64 0 ≠ -1 →
      ∃ out, main input filename file now = .ok out) ∧
    (∃ out, main fresh [104, 105] (letters 5000) 1700000005 = .ok out ∧
      ((letters 5000).size + BS - 1) / BS = 2 ∧
      (List.range 12).map
        (fun t => ld32 (slice out.data (3 * BS + 1 * INODE_SIZE) INODE_SIZE) (44 + 4 * t))
        = [8, 9, 0, 0, 0, 0, 0, 0, 0, 0, 0, 0]) := by
  intro k b
  obtain ⟨hu, hbn⟩ := ld32_eq_of_fit hk
  -- the pointers after a successful ingest, for any well-formed image and any file
  have key : ∀ (inp : File), WellFormed inp → ∀ (fn : List Nat) (f : File) (nw : Nat),
      (f.size + BS - 1) / BS ≤ 12 → ∀ out, main inp fn f nw = .ok out →
      (f.size + BS - 1) / BS
          ≤ (clear_bits (inp.block 2) (sb.data_region_blocks (inp.block 0))).length ∧
      ∃ r : Nat, find_free_bit (inp.block 1) (sb.inode_count (inp.block 0) : Nat)
          = (r : Int) ∧
        (∀ t, t < (f.size + BS - 1) / BS →
          ld32 (slice out.data (3 * BS + r * INODE_SIZE) INODE_SIZE) (44 + 4 * t)
            = sb.data_region_start (inp.block 0) +
              (clear_bits (inp.block 2) (sb.data_region_blocks (inp.block 0))).getD t 0) ∧
        (∀ t, (f.size + BS - 1) / BS ≤ t → t < 12 →
          ld32 (slice out.data (3 * BS + r * INODE_SIZE) INODE_SIZE) (44 + 4 * t) = 0) := by
    intro inp hwi fn f nw hkf out ho
    obtain ⟨hu', hbn'⟩ := ld32_eq_of_fit hkf
    obtain ⟨k', r, h1, h2, h3, h4, h5⟩ := ingest_new_inode hwi ho
    have hkk : k' = (f.size + BS - 1) / BS := by
      rw [hbn'] at h1; omega
    subst hkk
    have hd : ∀ t, t < 12 →
        ld32 (slice out.data (3 * BS + r * INODE_SIZE) INODE_SIZE) (44 + 4 * t) =
          if t < (f.size + BS - 1) / BS then
            u64 (sb.data_region_start (inp.block 0) +
              ((clear_bits (inp.block 2) (sb.data_region_blocks (inp.block 0))).take
                ((f.size + BS - 1) / BS)).getD t 0) % 2 ^ 32
          else 0 := by
      intro t ht
      rw [← new_inode_direct (u64 f.size) nw _ _ _ h2 t ht]
      exact ld32_congr (fun j hj => h5 _ (by simp only [INODE_SIZE]; omega))
    refine ⟨h4, r, h3, ?_, ?_⟩
    · intro t ht
      rw [hd t (by omega), if_pos ht]
      have hlen : ((clear_bits (inp.block 2) (sb.data_region_blocks (inp.block 0))).take
          ((f.size + BS - 1) / BS)).length = (f.size + BS - 1) / BS := by
        rw [List.length_take]; omega
      have hb := (clear_bits_take_getD (inp.block 2) (sb.data_region_blocks (inp.block 0))
        ((f.size + BS - 1) / BS) t (by rw [hlen]; exact ht)).1
      have hg : ((clear_bits (inp.block 2) (sb.data_region_blocks (inp.block 0))).take
          ((f.size + BS - 1) / BS)).getD t 0
            = (clear_bits (inp.block 2) (sb.data_region_blocks (inp.block 0))).getD t 0 := by
        rw [List.getD_eq_getElem _ _ (by rw [hlen]; exact ht),
          List.getD_eq_getElem _ _ (by omega), List.getElem_take]
      rw [hg] at hb ⊢
      obtain ⟨b1, b2, b3, b4, b5, b6⟩ := hwi.bounds
      have := hwi.total_blocks
      unfold u64
      rw [Nat.mod_eq_of_lt (by simp only [BS] at *; omega),
        Nat.mod_eq_of_lt (by simp only [BS] at *; omega)]
    · intro t ht1 ht2
      rw [hd t ht2, if_neg (by omega)]
  refine ⟨key input hw filename file now hk, ?_, ?_, ?_, ?_, ?_⟩
  · intro t t' htt ht'
    have h := clear_bits_take_lt (input.block 2) (sb.data_region_blocks (input.block 0))
      b.length t t' htt (by rw [List.take_length]; exact ht')
    rw [List.take_length] at h
    exact h
  · intro t ht
    have h := clear_bits_take_getD (input.block 2) (sb.data_region_blocks (input.block 0))
      b.length t (by rw [List.take_length]; exact ht)
    rw [List.take_length] at h
    exact h
  · intro hlt hfi
    have hbn2 := hbn
    rw [hu] at hbn2
    rw [main_wf hw, hu, hbn2, scan_free_blocks_clear_bits,
      if_neg (show ¬ ((((file.size + BS - 1) / BS : Nat) : Int) > 12) by omega), if_neg hfi,
      if_pos]
    have hlt' : (clear_bits (input.block 2) (sb.data_region_blocks (input.block 0))).length
        < (file.size + BS - 1) / BS := hlt
    rw [List.length_take, Nat.min_eq_right (Nat.le_of_lt hlt')]
    exact Int.ofNat_lt.mpr hlt'
  · intro hle hfi hfe
    rcases find_free_bit_spec (input.block 1) (sb.inode_count (input.block 0)) with
      ⟨h1, _⟩ | ⟨r, hr, _⟩
    · exact absurd h1 hfi
    rcases find_free_entry_spec (input.block (sb.data_region_start (input.block 0))) 64 0 with
      ⟨h1, _⟩ | ⟨e, he, _⟩
    · exact absurd h1 hfe
    obtain ⟨out, ho, _⟩ := main_wf_ok_gen hw filename file now hbn hk
      (fun t ht => by rw [hu]; exact (to_read_sum rfl t ht).1) hr hle he
    exact ⟨out, ho⟩
  · obtain ⟨out, ho⟩ := fresh_ingest_ok [104, 105] 1700000005
    obtain ⟨f1, f2, f3, f4⟩ := fresh_clear_bits
    obtain ⟨_, r, hr, hlo, hhi⟩ :=
      key fresh fresh_wellFormed [104, 105] (letters 5000) 1700000005 (by rw [f4]; decide)
        out ho
    have hr1 : r = 1 := by
      have := fresh_ingest_facts.2.1
      rw [hr] at this
      omega
    subst hr1
    rw [f4] at hlo hhi
    have e0 := hlo 0 (by decide)
    have e1 := hlo 1 (by decide)
    rw [f1, f2] at e0
    rw [f1, f3] at e1
    refine ⟨out, ho, f4, ?_⟩
    have hl : List.range 12 = [0, 1, 2, 3, 4, 5, 6, 7, 8, 9, 10, 11] := by decide
    rw [hl]
    simp only [List.map_cons, List.map_nil]
    rw [e0, e1, hhi 2 (by decide) (by decide), hhi 3 (by decide) (by decide),
      hhi 4 (by decide) (by decide), hhi 5 (by decide) (by decide),
      hhi 6 (by decide) (by decide), hhi 7 (by decide) (by decide),
      hhi 8 (by decide) (by decide), hhi 9 (by decide) (by decide),
      hhi 10 (by decide) (by decide), hhi 11 (by decide) (by decide)]

/-- Witness of `data_block_allocation`: a 5000-byte file and the fresh image. -/
theorem data_block_allocation_witness :
    WellFormed fresh ∧ ((letters 5000).size + BS - 1) / BS ≤ 12 ∧
    ∃ out, main fresh [104, 105] (letters 5000) 1700000005 = .ok out ∧
      ((letters 5000).size + BS - 1) / BS = 2 ∧
      (List.range 12).map
        (fun t => ld32 (slice out.data (3 * BS + 1 * INODE_SIZE) INODE_SIZE) (44 + 4 * t))
        = [8, 9, 0, 0, 0, 0, 0, 0, 0, 0, 0, 0] :=
  ⟨fresh_wellFormed, by decide,
    (data_block_allocation fresh_wellFormed [104, 105] (letters 5000) 1700000005
      (by decide)).2.2.2.2.2⟩

end mkfs_adder

/-! ## The ingestor: the payload -/

namespace mkfs_adder

theorem outcome_ok {x : Except Err File} (h : outcome x = none) : x = .ok (result x) := by
  cases x with
  | ok o => rfl
  | error e => cases h

/-- The concatenation of the blocks named by a list of pointers, byte by byte. -/
theorem flatMap_blocks (g : Nat → Nat → Nat) (ps : List Nat) :
    ps.flatMap (fun p => (List.range BS).map (g p)) =
      (List.range (ps.length * BS)).map (fun i => g (ps.getD (i / BS) 0) (i % BS)) := by
  induction ps with
  | nil => simp
  | cons p ps ih =>
    have hlen : (p :: ps).length * BS = BS + ps.length * BS := by
      simp only [List.length_cons, BS]; omega
    rw [List.flatMap_cons, ih, hlen, List.range_add, List.map_append, List.map_map]
    refine congrArg₂ HAppend.hAppend ?_ ?_
    · apply List.map_congr_left
      intro i hi
      rw [List.mem_range] at hi
      rw [Nat.div_eq_of_lt hi, Nat.mod_eq_of_lt hi, List.getD_cons_zero]
    · apply List.map_congr_left
      intro i hi
      simp only [Function.comp]
      have h1 : (BS + i) / BS = i / BS + 1 := by simp only [BS]; omega
      have h2 : (BS + i) % BS = i % BS := by simp only [BS]; omega
      rw [h1, h2, List.getD_cons_succ]

/-- The non-zero direct pointers of an inode whose first `k` pointers are non-zero
and whose other pointers are zero. -/
theorem nonzero_direct_eq (ino : Bytes) (k : Nat) (hk : k ≤ 12)
    (hnz : ∀ t, t < k → ld32 ino (44 + 4 * t) ≠ 0)
    (hz : ∀ t, k ≤ t → t < 12 → ld32 ino (44 + 4 * t) = 0) :
    nonzero_direct ino = (List.range k).map (fun t => ld32 ino (44 + 4 * t)) := by
  unfold nonzero_direct
  have h12 : 12 = k + (12 - k) := by omega
  rw [h12, List.range_add, List.map_append, List.filter_append, List.map_map]
  have h1 : List.filter (fun p => decide (p ≠ 0))
      (List.map (fun t => ld32 ino (44 + 4 * t)) (List.range k))
        = List.map (fun t => ld32 ino (44 + 4 * t)) (List.range k) := by
    rw [List.filter_eq_self]
    intro a ha
    rw [List.mem_map] at ha
    obtain ⟨t, ht, rfl⟩ := ha
    rw [List.mem_range] at ht
    simpa using hnz t ht
  have h2 : List.filter (fun p => decide (p ≠ 0))
      (List.map ((fun t => ld32 ino (44 + 4 * t)) ∘ fun x => k + x) (List.range (12 - k)))
        = [] := by
    rw [List.filter_eq_nil_iff]
    intro a ha
    rw [List.mem_map] at ha
    obtain ⟨t, ht, rfl⟩ := ha
    rw [List.mem_range] at ht
    simpa using hz (k + t) (by omega) (by omega)
  rw [h1, h2, List.append_nil]

/-- C5, counterexample: the image `crafted` has a valid magic, a one-byte file is
ingested successfully, and reading the blocks named by the non-zero direct pointers
of the new inode (table slot 1) does not give the content of the file: the only
pointer is `data_region_start + 0 = 0`, which a reader takes for an unused pointer. -/
theorem crafted_image_loses_payload :
    sb.magic (crafted.block 0) = 0x4D565346 ∧
    ∃ out, main crafted [97] (letters 1) 1700000005 = .ok out ∧
      find_free_bit (crafted.block 1) (to_int (sb.inode_count (crafted.block 0)))
        = ((1 : Nat) : Int) ∧
      read_back out (slice out.data (3 * BS + 1 * INODE_SIZE) INODE_SIZE)
        ≠ content (letters 1) :=
  ⟨by decide!, result (main crafted [97] (letters 1) 1700000005),
    outcome_ok (by decide!), by decide!, by decide!⟩

/-- C5, amended: payload round trip on a well-formed image. For every successful
ingest into a well-formed image of a source file whose block count fits an `int`,
the new inode (table slot `r`, the lowest clear inode-bitmap bit) has
`size_bytes = |F|` and `ceil(|F|/4096)` non-zero direct pointers; reading the blocks
they name in index order, concatenating them and keeping the first `size_bytes`
bytes yields exactly the content of the file; the bytes of the last allocated block
beyond the end of the file are zero. -/
theorem payload_round_trip {input : File} (hw : WellFormed input) {filename : List Nat}
    {file : File} {now : Nat} {out : File} (hfit : (file.size + BS - 1) / BS < 2 ^ 31)
    (h : main input filename file now = .ok out) :
    ∃ r : Nat, find_free_bit (input.block 1) (sb.inode_count (input.block 0) : Nat)
        = (r : Int) ∧
      (let ino := slice out.data (3 * BS + r * INODE_SIZE) INODE_SIZE
       ld64 ino 12 = file.size ∧
       (nonzero_direct ino).length = (file.size + BS - 1) / BS ∧
       read_back out ino = content file ∧
       (∀ j, 0 < file.size → j < BS → file.size ≤ ((file.size + BS - 1) / BS - 1) * BS + j →
         out.data (ld32 ino (44 + 4 * ((file.size + BS - 1) / BS - 1)) * BS + j) = 0)) := by
  obtain ⟨hsz, _, _, _⟩ := main_wf_inv hw hfit h
  have hk : (file.size + BS - 1) / BS ≤ 12 := by simp only [BS] at hsz ⊢; omega
  obtain ⟨hu, hbn⟩ := ld32_eq_of_fit hk
  obtain ⟨k, r, e, h1, h2, h3, h4, h5, h6, _, _, _, _, ht, _, hp, _⟩ := main_wf_spec hw h
  have hkk : k = (file.size + BS - 1) / BS := by
    rw [hbn] at h1; omega
  obtain ⟨k', r', g1, g2, g3, g4, g5⟩ := ingest_new_inode hw h
  have hk' : k' = k := by rw [h1] at g1; omega
  have hr' : r' = r := by rw [h4] at g3; omega
  subst hk' hr'
  rw [hu] at g5 hp
  obtain ⟨b1, b2, b3, b4, b5, b6⟩ := hw.bounds
  have hlen : ((clear_bits (input.block 2) (sb.data_region_blocks (input.block 0))).take
      k').length = k' := by
    rw [List.length_take]; omega
  -- the direct pointers
  have hd : ∀ t, t < 12 →
      ld32 (slice out.data (3 * BS + r' * INODE_SIZE) INODE_SIZE) (44 + 4 * t) =
        if t < k' then
          sb.data_region_start (input.block 0) +
            ((clear_bits (input.block 2) (sb.data_region_blocks (input.block 0))).take
              k').getD t 0
        else 0 := by
    intro t ht12
    rw [ld32_congr (fun j hj => g5 _ (by simp only [INODE_SIZE]; omega)),
      new_inode_direct _ _ _ _ _ h2 t ht12]
    by_cases htk : t < k'
    · rw [if_pos htk, if_pos htk]
      have hb := (clear_bits_take_getD (input.block 2) (sb.data_region_blocks (input.block 0))
        k' t (by rw [hlen]; exact htk)).1
      have := hw.total_blocks
      unfold u64
      rw [Nat.mod_eq_of_lt (by simp only [BS] at *; omega),
        Nat.mod_eq_of_lt (by simp only [BS] at *; omega)]
    · rw [if_neg htk, if_neg htk]
  have hnz := nonzero_direct_eq (slice out.data (3 * BS + r' * INODE_SIZE) INODE_SIZE) k' h2
    (fun t ht' => by rw [hd t (by omega), if_pos ht']; omega)
    (fun t ht1 ht2 => by rw [hd t ht2, if_neg (by omega)])
  have hsize : ld64 (slice out.data (3 * BS + r' * INODE_SIZE) INODE_SIZE) 12 = file.size := by
    rw [ld64_congr (fun j hj => g5 _ (by simp only [INODE_SIZE]; omega)),
      (new_inode_fields _ _ _ _ _).2.2.1]
    exact hu
  -- the bytes of the payload blocks
  have hbyte : ∀ t j, t < k' → j < BS →
      out.data (ld32 (slice out.data (3 * BS + r' * INODE_SIZE) INODE_SIZE) (44 + 4 * t) * BS + j)
        = if j < to_read file.size k' t then file.data (t * BS + j) else 0 := by
    intro t j ht' hj
    rw [hd t (by omega), if_pos ht', hp t j ht' hj, slice_apply]
  refine ⟨r', h4, hsize, ?_, ?_, ?_⟩
  · rw [hnz, List.length_map, List.length_range, hkk]
  · unfold read_back content
    rw [hsize, flatMap_blocks (fun p j => out.data (p * BS + j)), ← List.map_take,
      List.take_range, hnz, List.length_map, List.length_range,
      Nat.min_eq_left (by rw [hkk]; simp only [BS]; omega)]
    apply List.map_congr_left
    intro i hi
    rw [List.mem_range] at hi
    have hik : i / BS < k' := by rw [hkk]; simp only [BS]; omega
    have hg : (List.map
        (fun t => ld32 (slice out.data (3 * BS + r' * INODE_SIZE) INODE_SIZE) (44 + 4 * t))
        (List.range k')).getD (i / BS) 0
          = ld32 (slice out.data (3 * BS + r' * INODE_SIZE) INODE_SIZE) (44 + 4 * (i / BS)) := by
      rw [List.getD_eq_getElem _ _ (by rw [List.length_map, List.length_range]; exact hik),
        List.getElem_map, List.getElem_range]
    rw [hg, hbyte (i / BS) (i % BS) hik (Nat.mod_lt _ (by decide)), if_pos]
    · exact congrArg _ (by simp only [BS]; omega)
    · have hs := (to_read_sum hkk (i / BS) hik).2
      by_cases hl : i / BS = k' - 1
      · rw [if_pos hl] at hs
        simp only [BS] at *
        omega
      · rw [if_neg hl] at hs
        simp only [BS] at *
        omega
  · intro j hpos hj hle
    rw [← hkk]
    have hk1 : k' - 1 < k' := by
      have : 0 < k' := by rw [hkk]; simp only [BS]; omega
      omega
    rw [hbyte (k' - 1) j hk1 hj, if_neg]
    have hs := (to_read_sum hkk (k' - 1) hk1).2
    rw [if_pos rfl] at hs
    rw [← hkk] at hle
    omega

/-- Witness of `payload_round_trip`: a 5000-byte file and the fresh image. -/
theorem payload_round_trip_witness :
    WellFormed fresh ∧ ((letters 5000).size + BS - 1) / BS < 2 ^ 31 ∧
    ∃ out, main fresh [104, 105] (letters 5000) 1700000005 = .ok out ∧
      ∃ r : Nat, find_free_bit (fresh.block 1) (sb.inode_count (fresh.block 0) : Nat)
          = (r : Int) ∧
        read_back out (slice out.data (3 * BS + r * INODE_SIZE) INODE_SIZE)
          = content (letters 5000) := by
  refine ⟨fresh_wellFormed, by decide, ?_⟩
  obtain ⟨out, ho⟩ := fresh_ingest_ok [104, 105] 1700000005
  obtain ⟨r, hr, _, _, hrb, _⟩ := payload_round_trip fresh_wellFormed (by decide) ho
  exact ⟨out, ho, r, hr, hrb⟩

end mkfs_adder

/-! ## The ingestor: the size limit -/

namespace mkfs_adder

theorem emit_ne_file_too_large (input file : File) (sbk ib db tbl : Bytes) (its : Nat)
    (rd ino : Bytes) (k : Nat) :
    emit input file sbk ib db tbl its rd ino k ≠ .error .FileTooLarge := by
  unfold emit
  split
  · intro h; cases h
  · simp only []
    split
    · intro h; cases h
    · intro h; cases h

/-- Once the image is loaded, `FileTooLarge` is reported exactly when
`blocks_needed > 12`. -/
theorem main_file_too_large_iff {input : File} {l : Loaded} (hl : load input = .ok l)
    (filename : List Nat) (file : File) (now : Nat) :
    main input filename file now = .error .FileTooLarge ↔
      blocks_needed (u64 file.size) > 12 := by
  unfold main
  rw [hl]
  simp only []
  constructor
  · intro h
    by_contra hc
    rw [if_neg hc] at h
    revert h
    repeat' split
    all_goals first
      | exact emit_ne_file_too_large _ _ _ _ _ _ _ _ _ _
      | (intro h; cases h)
  · intro h
    rw [if_pos h]

/-- The block count of a source of `2^44` bytes wraps to 0 in `int blocks_needed`. -/
theorem blocks_needed_wraps : blocks_needed (u64 (2 ^ 44)) = 0 ∧ (2 ^ 44 + BS - 1) / BS > 12 := by
  constructor <;> decide

/-- C6, counterexample: the image `truncated` has a valid magic and a source of
49153 bytes needs 13 blocks, yet the ingest does not fail with `FileTooLarge`: the
inode bitmap cannot be read and the run ends with an I/O error before the size of
the source is looked at. -/
theorem truncated_image_io_error :
    sb.magic (truncated.block 0) = 0x4D565346 ∧
    ((letters 49153).size + BS - 1) / BS > 12 ∧
    main truncated [97] (letters 49153) 1700000005 = .error .IOError ∧
    main truncated [97] (letters 49153) 1700000005 ≠ .error .FileTooLarge := by
  have h : main truncated [97] (letters 49153) 1700000005 = .error .IOError :=
    outcome_error (by decide!)
  refine ⟨by decide!, by decide, h, ?_⟩
  rw [h]
  intro hc
  cases hc

/-- C6, amended: file-size limit. For every input image whose superblock, bitmaps
and inode table can be read (magic valid) and every source file whose block count
fits an `int`, the ingest fails with `FileTooLarge` if and only if
`ceil(s/4096) > 12`; on a well-formed image with a free inode, at least 12 free
data blocks and a free root-directory slot, a source of exactly 49152 bytes is
ingested successfully and a source of 49153 bytes fails with `FileTooLarge`. -/
theorem file_size_limit {input : File} {l : Loaded} (hl : load input = .ok l)
    (filename : List Nat) (file : File) (now : Nat)
    (hfit : (file.size + BS - 1) / BS < 2 ^ 31) :
    (main input filename file now = .error .FileTooLarge ↔ (file.size + BS - 1) / BS > 12) ∧
    (WellFormed input →
      find_free_bit (input.block 1) (sb.inode_count (input.block 0) : Nat) ≠ -1 →
      12 ≤ (clear_bits (input.block 2) (sb.data_region_blocks (input.block 0))).length →
      find_free_entry (input.block (sb.data_region_start (input.block 0))) 64 0 ≠ -1 →
      (file.size = 12 * 4096 → ∃ out, main input filename file now = .ok out) ∧
      (file.size = 12 * 4096 + 1 → main input filename file now = .error .FileTooLarge)) := by
  have hiff : main input filename file now = .error .FileTooLarge ↔
      (file.size + BS - 1) / BS > 12 := by
    rw [main_file_too_large_iff hl, blocks_needed_small hfit]
    exact Int.ofNat_lt
  refine ⟨hiff, ?_⟩
  intro hw hfi hfb hfe
  constructor
  · intro hs
    have hk : (file.size + BS - 1) / BS = 12 := by rw [hs]; decide
    rcases find_free_bit_spec (input.block 1) (sb.inode_count (input.block 0)) with
      ⟨h1, _⟩ | ⟨r, hr, _⟩
    · exact absurd h1 hfi
    rcases find_free_entry_spec (input.block (sb.data_region_start (input.block 0))) 64 0 with
      ⟨h1, _⟩ | ⟨e, he, _⟩
    · exact absurd h1 hfe
    obtain ⟨hu, hbn⟩ := ld32_eq_of_fit (Nat.le_of_eq hk)
    obtain ⟨out, ho, _⟩ := main_wf_ok_gen hw filename file now hbn (Nat.le_of_eq hk)
      (fun t ht => by rw [hu]; exact (to_read_sum rfl t ht).1) hr (by rw [hk]; exact hfb) he
    exact ⟨out, ho⟩
  · intro hs
    rw [hiff, hs]
    decide

/-- Witness of `file_size_limit`: the fresh image and a source of 49153 bytes. -/
theorem file_size_limit_witness :
    (∃ l, load fresh = .ok l) ∧ ((letters 49153).size + BS - 1) / BS < 2 ^ 31 ∧
    (main fresh [97] (letters 49153) 1700000005 = .error .FileTooLarge ↔
      ((letters 49153).size + BS - 1) / BS > 12) :=
  ⟨⟨_, load_wf fresh_wellFormed⟩, by decide,
    (file_size_limit (load_wf fresh_wellFormed) [97] (letters 49153) 1700000005
      (by decide)).1⟩

end mkfs_adder

/-! ## The ingestor: the directory entry -/

namespace mkfs_adder

/-- `strncpy` of a NUL-free string: the first `n` bytes of the destination are the
bytes of the string followed by zeros. -/
theorem strncpy_apply (dst : Bytes) (o : Nat) (src : List Nat) (n : Nat)
    (hsrc : ∀ c, c ∈ src → c % 256 ≠ 0) (i : Nat) :
    strncpy dst o src n i =
      if o ≤ i ∧ i < o + n then (if i - o < src.length then src.getD (i - o) 0 % 256 else 0)
      else dst i := by
  induction n generalizing dst o src with
  | zero =>
    rw [if_neg (by omega)]
    cases src <;> rfl
  | succ n ih =>
    cases src with
    | nil =>
      rw [strncpy, ih _ _ _ (fun c hc => by cases hc)]
      simp only [st8, st_apply, List.length_nil, Nat.not_lt_zero, if_false]
      by_cases h1 : o + 1 ≤ i ∧ i < o + 1 + n
      · rw [if_pos h1, if_pos (show o ≤ i ∧ i < o + (n + 1) by omega)]
      · rw [if_neg h1]
        by_cases h2 : o ≤ i ∧ i < o + 1
        · rw [if_pos h2, if_pos (show o ≤ i ∧ i < o + (n + 1) by omega)]
          simp
        · rw [if_neg h2, if_neg (show ¬ (o ≤ i ∧ i < o + (n + 1)) by omega)]
    | cons c cs =>
      have hc : c % 256 ≠ 0 := hsrc c (List.mem_cons_self _ _)
      rw [strncpy, if_neg hc, ih _ _ _ (fun c' hc' => hsrc c' (List.mem_cons_of_mem _ hc'))]
      simp only [st8, st_apply, List.length_cons]
      by_cases h1 : o + 1 ≤ i ∧ i < o + 1 + n
      · rw [if_pos h1, if_pos (show o ≤ i ∧ i < o + (n + 1) by omega)]
        obtain ⟨d, hd⟩ : ∃ d, i - o = d + 1 := ⟨i - o - 1, by omega⟩
        have hd' : i - (o + 1) = d := by omega
        rw [hd, hd', List.getD_cons_succ]
        by_cases h3 : d < cs.length
        · rw [if_pos h3, if_pos (show d + 1 < cs.length + 1 by omega)]
        · rw [if_neg h3, if_neg (show ¬ d + 1 < cs.length + 1 by omega)]
      · rw [if_neg h1]
        by_cases h2 : o ≤ i ∧ i < o + 1
        · have hio : i = o := by omega
          subst hio
          rw [if_pos h2, if_pos (show i ≤ i ∧ i < i + (n + 1) by omega), Nat.sub_self,
            if_pos (show 0 < cs.length + 1 by omega), Nat.pow_zero, Nat.div_one,
            List.getD_cons_zero]
        · rw [if_neg h2, if_neg (show ¬ (o ≤ i ∧ i < o + (n + 1)) by omega)]

theorem free_entry_facts {blk : Bytes} {e : Nat}
    (he : find_free_entry blk 64 0 = (e : Int)) :
    e < 64 ∧ ld32 blk (64 * e) = 0 ∧ ∀ j, j < e → ld32 blk (64 * j) ≠ 0 := by
  rcases find_free_entry_spec blk 64 0 with ⟨h, _⟩ | ⟨e', he', _, h1, h2, h3⟩
  · rw [he] at h; omega
  · rw [he] at he'
    have : e = e' := by omega
    subst this
    exact ⟨by omega, h2, fun j hj => h3 j (Nat.zero_le _) hj⟩

/-- The bytes of the new directory entry, but for its checksum. -/
theorem new_entry_bytes (r : Nat) (hr : r + 1 < 2 ^ 32) (filename : List Nat)
    (hn : ∀ c, c ∈ filename → 0 < c ∧ c < 256) :
    ld32 (new_entry r filename) 0 = r + 1 ∧ ld8 (new_entry r filename) 4 = 1 ∧
    (∀ i, i < min filename.length 57 → new_entry r filename (5 + i) = filename.getD i 0) ∧
    (∀ i, min filename.length 57 ≤ i → i < 58 → new_entry r filename (5 + i) = 0) := by
  have hsrc : ∀ c, c ∈ filename → c % 256 ≠ 0 := fun c hc => by
    have := hn c hc; omega
  have hb : ∀ j, j < 63 → new_entry r filename j =
      strncpy (st8 (st32 zeros 0 (of_int ((r : Int) + 1))) 4 1) 5 filename (58 - 1) j := by
    intro j hj
    unfold new_entry
    rw [dirent_checksum_finalize_frame _ _ _ (by omega)]
  have hof : of_int ((r : Int) + 1) = r + 1 := by
    unfold of_int
    norm_num at hr ⊢
    omega
  refine ⟨?_, ?_, ?_, ?_⟩
  · rw [ld32_congr (b := st32 zeros 0 (r + 1)) (fun j hj => by
      rw [hb _ (by omega), strncpy_apply _ _ _ _ hsrc, if_neg (by omega), hof]
      simp only [st8]
      rw [st_outside (by omega)])]
    simp only [st32]
    rw [ld32_st_rt]
    exact Nat.mod_eq_of_lt hr
  · unfold ld8
    rw [hb _ (by omega), strncpy_apply _ _ _ _ hsrc, if_neg (by omega)]
    simp [st8, st_apply]
  · intro i hi
    rw [hb _ (by omega), strncpy_apply _ _ _ _ hsrc, if_pos (by omega), if_pos (by omega)]
    have hi' : i < filename.length := by omega
    have hm : filename.getD i 0 ∈ filename := by
      rw [List.getD_eq_getElem _ _ hi']
      exact List.getElem_mem _
    have := hn _ hm
    rw [show 5 + i - 5 = i by omega]
    omega
  · intro i hi1 hi2
    by_cases h57 : i = 57
    · subst h57
      rw [hb _ (by omega), strncpy_apply _ _ _ _ hsrc, if_neg (by omega)]
      simp only [st8, st32]
      rw [st_outside (by omega), st_outside (by omega)]
      rfl
    · rw [hb _ (by omega), strncpy_apply _ _ _ _ hsrc, if_pos (by omega), if_neg (by omega)]

/-- C8, counterexample: a base name of 58 bytes `a`, ingested into the fresh image
with a one-byte file: the entry is written in slot 2 of the root directory block
(block 7) and byte 57 of its name field is 0, not the 58th byte of the name. -/
theorem long_name_loses_byte_58 :
    (List.replicate 58 97).length = 58 ∧ (∀ c, c ∈ List.replicate 58 97 → c ≠ 0) ∧
    ∃ out, main fresh (List.replicate 58 97) (letters 1) 1700000005 = .ok out ∧
      sb.data_region_start (fresh.block 0) = 7 ∧
      find_free_entry (fresh.block 7) 64 0 = ((2 : Nat) : Int) ∧
      slice out.data (7 * BS + 64 * 2) 64 (5 + 57) = 0 ∧
      (List.replicate 58 97).getD 57 0 = 97 :=
  ⟨by decide, by decide, result (main fresh (List.replicate 58 97) (letters 1) 1700000005),
    outcome_ok (by decide!), by decide!, by decide!, by decide!, by decide⟩

/-- C8, amended: the directory entry written by a successful ingest into a
well-formed image, for a NUL-free base name `n`: it is written in the lowest free
slot `e` of the root directory block, has `type = 1`, inode number `r + 1` where `r`
is the newly allocated inode-bitmap bit, and a 58-byte name field whose first
`min(|n|, 57)` bytes are the first bytes of `n` and whose remaining bytes are zero:
the name is the base name truncated to 57 bytes. -/
theorem directory_entry_name {input : File} (hw : WellFormed input) {filename : List Nat}
    {file : File} {now : Nat} {out : File} (hn : ∀ c, c ∈ filename → 0 < c ∧ c < 256)
    (h : main input filename file now = .ok out) :
    ∃ r e : Nat,
      find_free_bit (input.block 1) (sb.inode_count (input.block 0) : Nat) = (r : Int) ∧
      find_free_entry (input.block (sb.data_region_start (input.block 0))) 64 0 = (e : Int) ∧
      e < 64 ∧
      (let de := slice out.data (sb.data_region_start (input.block 0) * BS + 64 * e) 64
       ld8 de 4 = 1 ∧ ld32 de 0 = r + 1 ∧
       (∀ i, i < min filename.length 57 → de (5 + i) = filename.getD i 0) ∧
       (∀ i, min filename.length 57 ≤ i → i < 58 → de (5 + i) = 0)) := by
  obtain ⟨k, r, e, _, _, _, h4, _, h6, _, _, _, _, _, hd, _⟩ := main_wf_spec hw h
  obtain ⟨r1, r2, _⟩ := free_inode_facts hw h4
  obtain ⟨e1, _⟩ := free_entry_facts h6
  have hic := hw.inode_bits
  obtain ⟨n1, n2, n3, n4⟩ := new_entry_bytes r (by simp only [BS] at hic; omega) filename hn
  have hbytes : ∀ j, j < 64 →
      slice out.data (sb.data_region_start (input.block 0) * BS + 64 * e) 64 j
        = new_entry r filename j := by
    intro j hj
    rw [slice_apply, if_pos hj, Nat.add_assoc, hd _ (by simp only [BS]; omega), memcpy_apply,
      if_pos (by omega)]
    exact congrArg _ (by omega)
  refine ⟨r, e, h4, h6, e1, ?_, ?_, ?_, ?_⟩
  · unfold ld8
    rw [hbytes _ (by omega)]
    exact n2
  · rw [ld32_congr (fun j hj => hbytes _ (by omega))]
    exact n1
  · intro i hi
    rw [hbytes _ (by omega)]
    exact n3 i hi
  · intro i hi1 hi2
    rw [hbytes _ (by omega)]
    exact n4 i hi1 hi2

/-- Witness of `directory_entry_name`: the name `hi` and the fresh image. -/
theorem directory_entry_name_witness :
    WellFormed fresh ∧ (∀ c, c ∈ [104, 105] → 0 < c ∧ c < 256) ∧
    ∃ out, main fresh [104, 105] (letters 5000) 1700000005 = .ok out ∧
      ∃ r e : Nat,
        find_free_bit (fresh.block 1) (sb.inode_count (fresh.block 0) : Nat) = (r : Int) ∧
        find_free_entry (fresh.block (sb.data_region_start (fresh.block 0))) 64 0
          = (e : Int) ∧
        ld32 (slice out.data (sb.data_region_start (fresh.block 0) * BS + 64 * e) 64) 0
          = r + 1 := by
  refine ⟨fresh_wellFormed, by decide, ?_⟩
  obtain ⟨out, ho⟩ := fresh_ingest_ok [104, 105] 1700000005
  obtain ⟨r, e, hr, he, _, _, hno, _⟩ :=
    directory_entry_name fresh_wellFormed (by decide) ho
  exact ⟨out, ho, r, e, hr, he, hno⟩

end mkfs_adder

/-! ## The ingestor: a sequence of ingests -/

namespace mkfs_adder

/-- Byte-level effect of `set_bit` on the bit test, checked over all byte values. -/
theorem or_and_bit : ∀ x, x < 256 → ∀ c, c < 8 → ∀ m, m < 8 →
    ((((x ||| (1 <<< c)) % 256) % 256) &&& (1 <<< m) = 0 ↔ (m ≠ c ∧ x &&& (1 <<< m) = 0)) := by
  decide!

/-- After `set_bit(bitmap, b)` the bit `b` is set and the other bits are as before. -/
theorem bit_mask_set_bit (bm : Bytes) (b i : Nat) :
    bit_mask (set_bit bm b) i = 0 ↔ (i ≠ b ∧ bit_mask bm i = 0) := by
  unfold bit_mask set_bit
  by_cases h : i / 8 = b / 8
  · rw [if_pos h]
    have := or_and_bit (bm (i / 8) % 256) (Nat.mod_lt _ (by norm_num)) (b % 8)
      (Nat.mod_lt _ (by norm_num)) (i % 8) (Nat.mod_lt _ (by norm_num))
    rw [this]
    constructor
    · rintro ⟨h1, h2⟩
      exact ⟨fun hc => h1 (by rw [hc]), h2⟩
    · rintro ⟨h1, h2⟩
      exact ⟨fun hc => h1 (by omega), h2⟩
  · rw [if_neg h]
    constructor
    · intro h2
      exact ⟨fun hc => h (by rw [hc]), h2⟩
    · rintro ⟨_, h2⟩
      exact h2

/-- After the loop that marks the data blocks, the marked bits are set and the other
bits are as before. -/
theorem bit_mask_mark_blocks (fb : List Nat) (bm : Bytes) (k i : Nat) :
    bit_mask (mark_blocks fb bm k) i = 0 ↔
      ((∀ t, t < k → fb.getD t 0 ≠ i) ∧ bit_mask bm i = 0) := by
  induction k with
  | zero =>
    simp [mark_blocks]
  | succ k ih =>
    unfold mark_blocks
    rw [bit_mask_set_bit, ih]
    constructor
    · rintro ⟨h1, h2, h3⟩
      refine ⟨fun t ht => ?_, h3⟩
      by_cases htk : t = k
      · rw [htk]; exact fun hc => h1 hc.symm
      · exact h2 t (by omega)
    · rintro ⟨h1, h2⟩
      exact ⟨fun hc => h1 k (by omega) hc.symm, fun t ht => h1 t (by omega), h2⟩

theorem filter_not_mem_take {l : List Nat} (hl : l.Nodup) (k : Nat) :
    l.filter (fun a => decide (a ∉ l.take k)) = l.drop k := by
  conv_lhs => rw [← List.take_append_drop k l]
  rw [List.filter_append]
  have h1 : (l.take k).filter (fun a => decide (a ∉ (l.take k ++ l.drop k).take k)) = [] := by
    rw [List.take_append_drop]
    rw [List.filter_eq_nil_iff]
    intro a ha
    simp [ha]
  have h2 : (l.drop k).filter (fun a => decide (a ∉ (l.take k ++ l.drop k).take k))
      = l.drop k := by
    rw [List.take_append_drop]
    rw [List.filter_eq_self]
    intro a ha
    have hd := List.disjoint_take_drop hl (Nat.le_refl k)
    simp only [decide_eq_true_eq]
    exact fun hc => hd hc ha
  rw [h1, h2, List.nil_append]

theorem clear_bits_nodup (bm : Bytes) (n : Nat) : (clear_bits bm n).Nodup :=
  List.Nodup.filter _ (List.nodup_range n)

theorem mem_take_iff_getD (fb : List Nat) (k i : Nat) (hk : k ≤ fb.length) :
    i ∈ fb.take k ↔ ∃ t, t < k ∧ fb.getD t 0 = i := by
  constructor
  · intro hi
    obtain ⟨t, ht, hti⟩ := List.getElem_of_mem hi
    have htk : t < k := by
      rw [List.length_take] at ht; omega
    refine ⟨t, htk, ?_⟩
    rw [List.getD_eq_getElem _ _ (by omega)]
    rw [List.getElem_take] at hti
    exact hti
  · rintro ⟨t, ht, hti⟩
    rw [List.getD_eq_getElem _ _ (by omega)] at hti
    rw [← hti, List.mem_take_iff_getElem]
    exact ⟨t, by omega, rfl⟩

theorem clear_bits_mark_filter (bm : Bytes) (fb : List Nat) (n k : Nat) (hk : k ≤ fb.length) :
    clear_bits (mark_blocks fb bm k) n =
      (clear_bits bm n).filter (fun a => decide (a ∉ fb.take k)) := by
  unfold clear_bits
  rw [List.filter_filter]
  apply List.filter_congr
  intro i _
  rw [Bool.eq_iff_iff]
  simp only [decide_eq_true_eq, Bool.and_eq_true, bit_mask_mark_blocks,
    mem_take_iff_getD fb k i hk]
  constructor
  · rintro ⟨h1, h2⟩
    exact ⟨fun ⟨t, ht, hti⟩ => h1 t ht hti, h2⟩
  · rintro ⟨h1, h2⟩
    exact ⟨fun t ht hti => h1 ⟨t, ht, hti⟩, h2⟩

/-- Marking the first `k` clear bits leaves the other clear bits, in order. -/
theorem clear_bits_mark_blocks (bm : Bytes) (n k : Nat)
    (hk : k ≤ (clear_bits bm n).length) :
    clear_bits (mark_blocks ((clear_bits bm n).take k) bm k) n = (clear_bits bm n).drop k := by
  rw [clear_bits_mark_filter _ _ _ _ (by rw [List.length_take]; omega), List.take_take,
    Nat.min_self, filter_not_mem_take (clear_bits_nodup bm n) k]

end mkfs_adder

set_option maxHeartbeats 800000

namespace mkfs_adder

/-- `strncpy(dst + o, src, n)` writes the `n` bytes from `o` on and no other. -/
theorem strncpy_frame (dst : Bytes) (o : Nat) (src : List Nat) (n i : Nat)
    (h : i < o ∨ o + n ≤ i) : strncpy dst o src n i = dst i := by
  induction n generalizing dst o src with
  | zero => cases src <;> rfl
  | succ n ih =>
    cases src with
    | nil =>
      rw [strncpy, ih _ _ _ (by omega)]
      simp only [st8]
      rw [st_outside (by omega)]
    | cons c cs =>
      rw [strncpy]
      by_cases hc : c % 256 = 0
      · rw [if_pos hc, ih _ _ _ (by omega)]
        simp only [st8]
        rw [st_outside (by omega)]
      · rw [if_neg hc, ih _ _ _ (by omega)]
        simp only [st8]
        rw [st_outside (by omega)]

/-- The inode number of the new directory entry, whatever the name. -/
theorem new_entry_inode_no (r : Nat) (hr : r + 1 < 2 ^ 32) (filename : List Nat) :
    ld32 (new_entry r filename) 0 = r + 1 := by
  have hof : of_int ((r : Int) + 1) = r + 1 := by
    unfold of_int
    norm_num at hr ⊢
    omega
  rw [ld32_congr (b := st32 zeros 0 (r + 1)) (fun j hj => by
    unfold new_entry
    rw [dirent_checksum_finalize_frame _ _ _ (by omega), strncpy_frame _ _ _ _ _ (by omega), hof]
    simp only [st8]
    rw [st_outside (by omega)])]
  simp only [st32]
  rw [ld32_st_rt]
  exact Nat.mod_eq_of_lt hr

theorem clear_bits_congr {a b : Bytes} {n : Nat}
    (h : ∀ i, i < n → bit_mask a i = bit_mask b i) : clear_bits a n = clear_bits b n := by
  unfold clear_bits
  apply List.filter_congr
  intro i hi
  rw [h i (List.mem_range.mp hi)]

/-- What a successful ingest into a well-formed image leaves behind: the superblock
is the same, the bit `r` of the new inode is set in the inode bitmap, the first `k`
clear bits of the data bitmap are set, slot `e` of the root directory names inode
`r + 1`, and the image is well-formed. -/
theorem ingest_step {input : File} (hw : WellFormed input) {filename : List Nat}
    {file : File} {now : Nat} {out : File} (h : main input filename file now = .ok out) :
    ∃ k r e : Nat, blocks_needed (u64 file.size) = (k : Int) ∧
      find_free_bit (input.block 1) (sb.inode_count (input.block 0) : Nat) = (r : Int) ∧
      k ≤ (clear_bits (input.block 2) (sb.data_region_blocks (input.block 0))).length ∧
      find_free_entry (input.block (sb.data_region_start (input.block 0))) 64 0 = (e : Int) ∧
      out.block 0 = input.block 0 ∧
      (∀ i, i < 8 * BS →
        (bit_mask (out.block 1) i = 0 ↔ i ≠ r ∧ bit_mask (input.block 1) i = 0)) ∧
      (∀ i, i < 8 * BS →
        (bit_mask (out.block 2) i = 0 ↔
          (∀ t, t < k → ((clear_bits (input.block 2)
            (sb.data_region_blocks (input.block 0))).take k).getD t 0 ≠ i) ∧
          bit_mask (input.block 2) i = 0)) ∧
      clear_bits (out.block 2) (sb.data_region_blocks (input.block 0)) =
        (clear_bits (input.block 2) (sb.data_region_blocks (input.block 0))).drop k ∧
      (∀ s, s < 64 →
        ld32 (out.block (sb.data_region_start (input.block 0))) (64 * s) =
          if s = e then r + 1
          else ld32 (input.block (sb.data_region_start (input.block 0))) (64 * s)) ∧
      WellFormed out := by
  obtain ⟨k, r, e, h1, h2, h3, h4, h5, h6, hsz, hb0, hb1, hb2, htbl, hdir, _, _⟩ :=
    main_wf_spec hw h
  obtain ⟨r1, r2, r3, r4, r5⟩ := free_inode_facts hw h4
  obtain ⟨e1, e2, e3⟩ := free_entry_facts h6
  have hblk0 : out.block 0 = input.block 0 := by
    funext j
    rw [block_apply, block_apply]
    by_cases hj : j < BS
    · rw [if_pos hj, if_pos hj, Nat.zero_mul, Nat.zero_add, hb0 j hj]
    · rw [if_neg hj, if_neg hj]
  have hbit1 : ∀ i, i < 8 * BS →
      bit_mask (out.block 1) i = bit_mask (set_bit (input.block 1) r) i := by
    intro i hi
    apply bit_mask_congr
    rw [block_apply, if_pos (by omega), Nat.one_mul, hb1 _ (by omega)]
  have hbit2 : ∀ i, i < 8 * BS →
      bit_mask (out.block 2) i = bit_mask (mark_blocks ((clear_bits (input.block 2)
          (sb.data_region_blocks (input.block 0))).take k) (input.block 2) k) i := by
    intro i hi
    apply bit_mask_congr
    rw [block_apply, if_pos (by omega), hb2 _ (by omega)]
  have hslot : ∀ s, s < 64 →
      ld32 (out.block (sb.data_region_start (input.block 0))) (64 * s) =
        if s = e then r + 1
        else ld32 (input.block (sb.data_region_start (input.block 0))) (64 * s) := by
    intro s hs
    have hc : ld32 (out.block (sb.data_region_start (input.block 0))) (64 * s) =
        ld32 (memcpy (input.block (sb.data_region_start (input.block 0))) (64 * e)
          (new_entry r filename) 64) (64 * s) :=
      ld32_congr (fun j hj => by
        rw [block_apply, if_pos (by simp only [BS]; omega), hdir _ (by simp only [BS]; omega)])
    rw [hc]
    by_cases hse : s = e
    · rw [if_pos hse, hse, ld32_memcpy_inside (by omega), Nat.sub_self]
      have := hw.inode_bits
      exact new_entry_inode_no r (by simp only [BS] at this; omega) filename
    · rw [if_neg hse]
      exact ld32_congr (fun j hj => by rw [memcpy_apply, if_neg (by omega)])
  have hroot : ld32 (out.block 3) 44 = ld32 (input.block 3) 44 :=
    ld32_congr (fun j hj => by
      have hitb := hw.inode_table_blocks
      rw [block_apply, block_apply, if_pos (by simp only [BS]; omega),
        if_pos (by simp only [BS]; omega), htbl _ (by simp only [BS] at *; omega),
        inode_crc_finalize_frame _ _ _ (by omega)]
      simp only [st16]
      rw [st_outside (by omega), memcpy_apply, if_neg (by simp only [INODE_SIZE]; omega),
        slice_apply, if_pos (by simp only [BS] at *; omega)])
  refine ⟨k, r, e, h1, h4, h5, h6, hblk0, ?_, ?_, ?_, hslot, ?_⟩
  · intro i hi
    rw [hbit1 i hi, bit_mask_set_bit]
  · intro i hi
    rw [hbit2 i hi, bit_mask_mark_blocks]
  · rw [← clear_bits_mark_blocks _ _ _ h5]
    apply clear_bits_congr
    intro i hi
    have := hw.data_bits
    exact hbit2 i (by omega)
  · have hz1 : bit_mask (out.block 1) 0 ≠ 0 := by
      intro hc
      rw [hbit1 0 (by norm_num [BS]), bit_mask_set_bit] at hc
      exact hw.root_inode_used hc.2
    have hz2 : bit_mask (out.block 2) 0 ≠ 0 := by
      intro hc
      rw [hbit2 0 (by norm_num [BS]), bit_mask_mark_blocks] at hc
      exact hw.root_dir_used hc.2
    have hsize : out.size = sb.total_blocks (out.block 0) * BS := by
      rw [hblk0, hsz]; exact hw.size
    exact ⟨by rw [hblk0]; exact hw.magic, by rw [hblk0]; exact hw.inode_bitmap_start,
      by rw [hblk0]; exact hw.data_bitmap_start, by rw [hblk0]; exact hw.inode_table_start,
      by rw [hblk0]; exact hw.inode_table_blocks, by rw [hblk0]; exact hw.data_region_start,
      by rw [hblk0]; exact hw.data_region_blocks, by rw [hblk0]; exact hw.total_blocks,
      by rw [hblk0]; exact hw.small, hsize,
      by rw [hblk0]; exact hw.inode_slots, by rw [hblk0]; exact hw.inode_bits,
      by rw [hblk0]; exact hw.data_bits, hz1,
      by rw [hroot, hblk0]; exact hw.root_dir_block, hz2⟩

end mkfs_adder

namespace mkfs_adder

theorem small_file_facts {s : Nat} (hs : s ≤ BS) :
    ∃ k : Nat, k ≤ 1 ∧ blocks_needed (u64 s) = (k : Int) ∧
      ∀ t, t < k → t * BS + to_read (u64 s) k t ≤ s := by
  have hk : (s + BS - 1) / BS ≤ 1 := by simp only [BS] at *; omega
  refine ⟨(s + BS - 1) / BS, hk, blocks_needed_small (by omega), ?_⟩
  intro t ht
  rw [u64_of_fit (by omega)]
  exact (to_read_sum rfl t ht).1

theorem holds_free_inode {n room : Nat} {img : File} (hh : Holds n room img) (hn : n ≤ 62) :
    find_free_bit (img.block 1) (sb.inode_count (img.block 0) : Nat) = ((n + 1 : Nat) : Int) := by
  have hic := hh.inodes
  rcases find_free_bit_spec (img.block 1) (sb.inode_count (img.block 0)) with
    ⟨_, h2⟩ | ⟨r, hr, h1, h2, h3⟩
  · have := (hh.inode_bits (n + 1) (by omega)).mp (h2 (n + 1) (by omega))
    omega
  · have hrn : ¬ r ≤ n := fun hc => (hh.inode_bits r h1).mpr hc h2
    have hle : ¬ n + 1 < r := fun hc => by
      have := (hh.inode_bits (n + 1) (by omega)).mp (h3 (n + 1) hc)
      omega
    have : r = n + 1 := by omega
    rw [hr, this]

theorem holds_free_entry {n room : Nat} {img : File} (hh : Holds n room img) (hn : n ≤ 61) :
    find_free_entry (img.block (sb.data_region_start (img.block 0))) 64 0
      = ((n + 2 : Nat) : Int) := by
  rcases find_free_entry_spec (img.block (sb.data_region_start (img.block 0))) 64 0 with
    ⟨_, h2⟩ | ⟨e, he, _, h1, h2, h3⟩
  · have := (hh.slots 63 (by omega)).mp (h2 63 (by omega) (by omega))
    omega
  · have hen : ¬ e < n + 2 := fun hc => (hh.slots e (by omega)).mpr hc h2
    have hle : ¬ n + 2 < e := fun hc => by
      have := (hh.slots (n + 2) (by omega)).mp (h3 (n + 2) (by omega) hc)
      omega
    have : e = n + 2 := by omega
    rw [he, this]

theorem holds_no_free_entry {room : Nat} {img : File} (hh : Holds 62 room img) :
    find_free_entry (img.block (sb.data_region_start (img.block 0))) 64 0 = -1 := by
  rcases find_free_entry_spec (img.block (sb.data_region_start (img.block 0))) 64 0 with
    ⟨h1, _⟩ | ⟨e, he, _, h1, h2, h3⟩
  · exact h1
  · exact absurd h2 ((hh.slots e (by omega)).mpr (by omega))

/-- One more small file goes into an image that holds at most 61 files and has a
free data block. -/
theorem holds_step {n room : Nat} {img : File} (hh : Holds n room img) (hn : n ≤ 61)
    (hroom : 1 ≤ room) (filename : List Nat) {file : File} (hs : file.size ≤ BS) (now : Nat) :
    ∃ out, main img filename file now = .ok out ∧ Holds (n + 1) (room - 1) out := by
  obtain ⟨k, hk1, hbn, hread⟩ := small_file_facts hs
  have hr := holds_free_inode hh (by omega)
  have he := holds_free_entry hh hn
  have hfree := hh.free
  obtain ⟨out, ho, _⟩ := main_wf_ok_gen hh.wf filename file now hbn (by omega) hread hr
    (by omega) he
  refine ⟨out, ho, ?_⟩
  obtain ⟨k', r', e', g1, g2, g3, g4, hb0, hi1, _, hcl, hsl, hwf⟩ := ingest_step hh.wf ho
  have hkk : k' = k := by rw [hbn] at g1; omega
  have hrr : r' = n + 1 := by rw [hr] at g2; omega
  have hee : e' = n + 2 := by rw [he] at g4; omega
  subst hkk hrr hee
  have hbits := hh.wf.inode_bits
  refine ⟨hwf, by rw [hb0]; exact hh.inodes, ?_, ?_, ?_⟩
  · intro i hi
    rw [hb0] at hi
    have h1 := hi1 i (by omega)
    have h2 := hh.inode_bits i hi
    constructor
    · intro hne
      by_contra hc
      exact hne (h1.mpr ⟨by omega, by
        by_contra hc2
        have := h2.mp hc2
        omega⟩)
    · intro hle hz
      have := h1.mp hz
      exact (h2.mpr (by omega)) this.2
  · intro s hs
    rw [hb0, hsl s hs]
    by_cases hse : s = n + 2
    · rw [if_pos hse]
      constructor
      · intro _; omega
      · intro _; omega
    · rw [if_neg hse, hh.slots s hs]
      omega
  · rw [hb0, hcl, List.length_drop]
    omega

/-- The ingest of a small file into an image that holds 62 files and has a free data
block fails with `DirectoryFull`. -/
theorem holds_full {room : Nat} {img : File} (hh : Holds 62 room img) (hroom : 1 ≤ room)
    (filename : List Nat) {file : File} (hs : file.size ≤ BS) (now : Nat) :
    main img filename file now = .error .DirectoryFull := by
  obtain ⟨k, hk1, hbn, hread⟩ := small_file_facts hs
  have hr := holds_free_inode hh (Nat.le_refl _)
  have he := holds_no_free_entry hh
  have hfree := hh.free
  rw [main_wf hh.wf, hbn, hr, he, scan_free_blocks_clear_bits, List.length_take]
  rw [if_neg (by omega), if_neg (by omega), if_neg (by omega), if_neg (by omega), if_pos rfl]

/-- Small files go in one after another as long as the image holds at most 62 of
them in the end. -/
theorem ingest_all_ok (files : List (List Nat × File × Nat)) :
    ∀ (n room : Nat) (img : File), Holds n room img → n + files.length ≤ 62 →
      files.length ≤ room → (∀ x, x ∈ files → x.2.1.size ≤ BS) →
      ∃ out, ingest_all img files = .ok out ∧
        Holds (n + files.length) (room - files.length) out := by
  induction files with
  | nil =>
    intro n room img hh _ _ _
    exact ⟨img, rfl, hh⟩
  | cons x rest ih =>
    intro n room img hh hn hroom hs
    obtain ⟨filename, file, now⟩ := x
    simp only [List.length_cons] at hn hroom ⊢
    obtain ⟨out, ho, hh'⟩ := holds_step hh (by omega) (by omega) filename
      (hs (filename, file, now) (List.mem_cons_self _ _)) now
    obtain ⟨out', ho', hh''⟩ := ih (n + 1) (room - 1) out hh' (by omega) (by omega)
      (fun y hy => hs y (List.mem_cons_of_mem _ hy))
    refine ⟨out', ?_, ?_⟩
    · rw [ingest_all, ho]
      exact ho'
    · have e1 : n + (rest.length + 1) = n + 1 + rest.length := by omega
      have e2 : room - (rest.length + 1) = room - 1 - rest.length := by omega
      rw [e1, e2]
      exact hh''

/-- Of a longer sequence of small files, the one that would make the 63rd file
fails with `DirectoryFull`. -/
theorem ingest_all_full (files : List (List Nat × File × Nat)) :
    ∀ (n room : Nat) (img : File), Holds n room img → n ≤ 62 → 63 ≤ n + files.length →
      63 ≤ n + room → (∀ x, x ∈ files → x.2.1.size ≤ BS) →
      ingest_all img files = .error .DirectoryFull := by
  induction files with
  | nil =>
    intro n room img _ hn hl _ _
    simp only [List.length_nil] at hl
    omega
  | cons x rest ih =>
    intro n room img hh hn hl hroom hs
    obtain ⟨filename, file, now⟩ := x
    simp only [List.length_cons] at hl
    have hsz := hs (filename, file, now) (List.mem_cons_self _ _)
    by_cases h62 : n = 62
    · subst h62
      rw [ingest_all, holds_full hh (by omega) filename hsz now]
    · obtain ⟨out, ho, hh'⟩ := holds_step hh (by omega) (by omega) filename hsz now
      rw [ingest_all, ho]
      exact ih (n + 1) (room - 1) out hh' (by omega) (by omega) (by omega)
        (fun y hy => hs y (List.mem_cons_of_mem _ hy))

end mkfs_adder

namespace mkfs_adder

/-- A bitmap whose only set bit below `n` is bit 0 has `n - 1` clear bits. -/
theorem clear_bits_length_first_only (bm : Bytes) (n : Nat)
    (h : ∀ i, i < n → (bit_mask bm i ≠ 0 ↔ i = 0)) : (clear_bits bm n).length = n - 1 := by
  cases n with
  | zero => rfl
  | succ d =>
    unfold clear_bits
    rw [List.range_eq_range', List.range'_succ, List.filter_cons,
      if_neg (by
        have := (h 0 (by omega)).mpr rfl
        simpa using this)]
    rw [List.filter_eq_self.mpr, List.length_range']
    · rfl
    · intro i hi
      rw [List.mem_range'_1] at hi
      have := (h i (by omega)).not
      simp only [ne_eq, not_not] at this
      simp only [decide_eq_true_eq]
      exact this.mpr (by omega)

/-- The image written by the formatter holds no file: one inode and two directory
slots are used, and all data blocks but the first are free. -/
theorem image_holds (s n : Int) (t1 t2 : Nat) (hv : mkfs_builder.validated s n) :
    Holds 0 (mkfs_builder.data_region_blocks s n - 1) (mkfs_builder.image s n t1 t2) := by
  obtain ⟨h1, h2, h3, h4, h5, h6, h7, h8, h9, h10⟩ := mkfs_builder.layout_facts s n hv
  obtain ⟨f0, f1, f2, f3, f4, f5, f6, f7, f8⟩ := mkfs_builder.image_block0_fields s n t1 t2 hv
  have hv' := hv
  unfold mkfs_builder.validated at hv'
  have hw := mkfs_builder.image_wellFormed s n t1 t2 hv
  have hb : ∀ j, j < BS →
      (mkfs_builder.image s n t1 t2).block
        (sb.data_region_start ((mkfs_builder.image s n t1 t2).block 0)) j =
      memcpy (memcpy zeros 0 (mkfs_builder.root_dirent [46]) 64) 64
        (mkfs_builder.root_dirent [46, 46]) 64 j := by
    intro j hj
    rw [f7, h3, block_apply, if_pos hj]
    exact mkfs_builder.image_root_dir s n t1 t2 j hj
  refine ⟨hw, by rw [f2]; omega, ?_, ?_, ?_⟩
  · intro i hi
    have := hw.inode_bits
    rw [(mkfs_builder.image_bitmap_bits s n t1 t2 i (by omega)).1]
    omega
  · intro sl hsl
    have hc : ld32 ((mkfs_builder.image s n t1 t2).block
        (sb.data_region_start ((mkfs_builder.image s n t1 t2).block 0))) (64 * sl) =
        ld32 (memcpy (memcpy zeros 0 (mkfs_builder.root_dirent [46]) 64) 64
          (mkfs_builder.root_dirent [46, 46]) 64) (64 * sl) :=
      ld32_congr (fun j hj => hb _ (by simp only [BS]; omega))
    rw [hc]
    have hd1 : ld32 (mkfs_builder.root_dirent [46]) 0 = 1 := by
      unfold ld32
      rw [mkfs_builder.root_dirent_dot_bytes _ (by omega),
        mkfs_builder.root_dirent_dot_bytes _ (by omega),
        mkfs_builder.root_dirent_dot_bytes _ (by omega),
        mkfs_builder.root_dirent_dot_bytes _ (by omega)]
      rfl
    have hd2 : ld32 (mkfs_builder.root_dirent [46, 46]) 0 = 1 := by
      unfold ld32
      rw [mkfs_builder.root_dirent_dotdot_bytes _ (by omega),
        mkfs_builder.root_dirent_dotdot_bytes _ (by omega),
        mkfs_builder.root_dirent_dotdot_bytes _ (by omega),
        mkfs_builder.root_dirent_dotdot_bytes _ (by omega)]
      rfl
    rcases Nat.lt_or_ge sl 2 with h | h
    · have : sl = 0 ∨ sl = 1 := by omega
      rcases this with h0 | h0
      · subst h0
        have : ld32 (memcpy (memcpy zeros 0 (mkfs_builder.root_dirent [46]) 64) 64
            (mkfs_builder.root_dirent [46, 46]) 64) (64 * 0) =
            ld32 (mkfs_builder.root_dirent [46]) 0 :=
          ld32_congr (fun j hj => by
            rw [memcpy_apply, if_neg (by omega), memcpy_apply, if_pos (by omega)]
            exact congrArg _ (by omega))
        rw [this, hd1]
        omega
      · subst h0
        rw [ld32_memcpy_inside (by omega), Nat.sub_self, hd2]
        omega
    · have : ld32 (memcpy (memcpy zeros 0 (mkfs_builder.root_dirent [46]) 64) 64
          (mkfs_builder.root_dirent [46, 46]) 64) (64 * sl) = ld32 zeros 0 :=
        ld32_congr (fun j hj => by
          rw [memcpy_apply, if_neg (by omega), memcpy_apply, if_neg (by omega)]
          rfl)
      rw [this]
      have hz : ld32 zeros 0 = 0 := rfl
      rw [hz]
      omega
  · rw [f8, clear_bits_length_first_only]
    intro i hi
    have := hw.data_bits
    rw [f8] at this
    exact (mkfs_builder.image_bitmap_bits s n t1 t2 i (by omega)).2

theorem batch_length (n : Nat) : (batch n).length = n := by
  unfold batch
  rw [List.length_map, List.length_range]

theorem batch_small (n : Nat) (hn : n ≤ BS) :
    ∀ x, x ∈ batch n → x.2.1.size ≤ BS := by
  intro x hx
  unfold batch at hx
  rw [List.mem_map] at hx
  obtain ⟨j, hj, rfl⟩ := hx
  rw [List.mem_range] at hj
  show j + 1 ≤ BS
  omega

/-- C7, counterexample: the formatter accepts `size_kib = 1024`, `inode_count = 128`;
the image `roomy` it writes has 128 inodes and 248 free data blocks; the 128 files of
`batch 128` have distinct names and at most 128 bytes each, so that each needs at
most one block. The first 62 are ingested one after another, but the 63rd ingest
does not succeed: it fails with `DirectoryFull`, the root directory block having 64
slots of which the formatter used two. -/
theorem sixty_third_ingest_fails :
    mkfs_builder.validated 1024 128 ∧
    roomy = mkfs_builder.image 1024 128 1700000000 1700000000 ∧
    sb.inode_count (roomy.block 0) = 128 ∧
    (clear_bits (roomy.block 2) (sb.data_region_blocks (roomy.block 0))).length = 248 ∧
    (batch 128).length = 128 ∧ ((batch 128).map Prod.fst).Nodup ∧
    (∀ x, x ∈ batch 128 → x.2.1.size ≤ 128) ∧
    (∃ out, ingest_all roomy ((batch 128).take 62) = .ok out) ∧
    ingest_all roomy ((batch 128).take 63) = .error .DirectoryFull := by
  have hv : mkfs_builder.validated 1024 128 := by decide
  have hd : mkfs_builder.data_region_blocks 1024 128 - 1 = 248 := by decide!
  have hh := image_holds 1024 128 1700000000 1700000000 hv
  rw [hd] at hh
  have hsm : ∀ m, ∀ x, x ∈ (batch 128).take m → x.2.1.size ≤ BS := fun m x hx =>
    batch_small 128 (by norm_num [BS]) x (List.mem_of_mem_take hx)
  refine ⟨hv, rfl, by decide!, ?_, batch_length 128, by decide!, ?_, ?_, ?_⟩
  · have := hh.free
    have h2 := clear_bits_length_first_only (roomy.block 2)
      (sb.data_region_blocks (roomy.block 0)) (fun i hi =>
        (mkfs_builder.image_bitmap_bits 1024 128 1700000000 1700000000 i (by
          have := hh.wf.data_bits
          exact Nat.lt_of_lt_of_le hi this)).2)
    rw [h2]
    decide!
  · intro x hx
    unfold batch at hx
    rw [List.mem_map] at hx
    obtain ⟨j, hj, rfl⟩ := hx
    rw [List.mem_range] at hj
    show j + 1 ≤ 128
    omega
  · obtain ⟨out, ho, _⟩ := ingest_all_ok ((batch 128).take 62) 0 248 roomy hh
      (by rw [List.length_take, batch_length]; omega)
      (by rw [List.length_take, batch_length]; omega) (hsm 62)
    exact ⟨out, ho⟩
  · exact ingest_all_full ((batch 128).take 63) 0 248 roomy hh (by omega)
      (by rw [List.length_take, batch_length]; omega) (by omega) (hsm 63)

/-- C7 (amended): starting from an image written by the formatter (for any accepted
`size_kib` and `inode_count`, so for `inode_count = 128`) whose data region has at
least 64 blocks, the ingest one after another of files of at most 4096 bytes, each
ingest taking the previous output as its input, succeeds for each of the first 62
files, after which the image holds exactly these files (inodes `1 .. n + 1`
allocated, directory slots `0 .. n + 1` used), and fails on the 63rd with
`DirectoryFull`; no such sequence, however long, ends with `NoFreeInodes`. -/
theorem directory_fills_before_inodes (size_kib inode_count : Int) (now_sb now_ino : Nat)
    (hv : mkfs_builder.validated size_kib inode_count)
    (hbig : 64 ≤ mkfs_builder.data_region_blocks size_kib inode_count)
    (files : List (List Nat × File × Nat)) (hsmall : ∀ x, x ∈ files → x.2.1.size ≤ BS) :
    (files.length ≤ 62 →
      ∃ out, ingest_all (mkfs_builder.image size_kib inode_count now_sb now_ino) files
          = .ok out ∧
        Holds files.length
          (mkfs_builder.data_region_blocks size_kib inode_count - 1 - files.length) out) ∧
    (63 ≤ files.length →
      ingest_all (mkfs_builder.image size_kib inode_count now_sb now_ino) files
        = .error .DirectoryFull) := by
  have hh := image_holds size_kib inode_count now_sb now_ino hv
  constructor
  · intro hl
    obtain ⟨out, ho, hh'⟩ := ingest_all_ok files 0 _ _ hh (by omega) (by omega) hsmall
    rw [Nat.zero_add] at hh'
    exact ⟨out, ho, hh'⟩
  · intro hl
    exact ingest_all_full files 0 _ _ hh (by omega) (by omega) (by omega) hsmall

/-- Witness of `directory_fills_before_inodes` at `size_kib = 1024`,
`inode_count = 128` and the 63 files of `batch 63`. -/
theorem directory_fills_before_inodes_witness :
    mkfs_builder.validated 1024 128 ∧ 64 ≤ mkfs_builder.data_region_blocks 1024 128 ∧
    (∀ x, x ∈ batch 63 → x.2.1.size ≤ BS) ∧ 63 ≤ (batch 63).length ∧
    ingest_all (mkfs_builder.image 1024 128 1700000000 1700000000) (batch 63)
      = .error .DirectoryFull :=
  ⟨by decide, by decide!, batch_small 63 (by decide), by decide,
    (directory_fills_before_inodes 1024 128 1700000000 1700000000 (by decide) (by decide!)
      (batch 63) (batch_small 63 (by decide))).2 (by decide)⟩

end mkfs_adder

/-! ## The ingestor: what an ingest leaves untouched -/

namespace mkfs_adder

/-- C11, counterexample: the image `stretched` has a valid magic and is exactly
`total_blocks * 4096` bytes long (45 blocks); the ingest of a one-byte file
succeeds, but the output is 47 blocks long: the new data block is written at block
`data_region_start + 1 = 46`, past the end of the input. -/
theorem stretched_image_grows :
    sb.magic (stretched.block 0) = 0x4D565346 ∧
    sb.total_blocks (stretched.block 0) = 45 ∧
    stretched.size = sb.total_blocks (stretched.block 0) * BS ∧
    ∃ out, main stretched [97] (letters 1) 1700000005 = .ok out ∧
      out.size = 47 * BS ∧ out.size ≠ stretched.size :=
  ⟨by decide!, by decide!, by decide!,
    result (main stretched [97] (letters 1) 1700000005),
    outcome_ok (by decide!), by decide!, by decide!⟩

/-- C11, amended: frame of ingest on a well-formed image. For every successful
ingest into a well-formed image, with `k` the number of blocks of the source, `r` the
bit of the new inode and `e` the directory slot chosen, the output has the length of
the input; every block after the root directory block that is not one of the `k`
newly allocated data blocks is the same as in the input (the blocks before it are
the superblock block, the two bitmap blocks and the inode table); within the inode
table every byte outside slot 0 and slot `r` is the same as in the input; and within
the root directory block every byte outside slot `e` is the same as in the input. -/
theorem ingest_frame {input : File} (hw : WellFormed input) {filename : List Nat}
    {file : File} {now : Nat} {out : File} (h : main input filename file now = .ok out) :
    ∃ k r e : Nat, blocks_needed (u64 file.size) = (k : Int) ∧
      find_free_bit (input.block 1) (sb.inode_count (input.block 0) : Nat) = (r : Int) ∧
      find_free_entry (input.block (sb.data_region_start (input.block 0))) 64 0 = (e : Int) ∧
      out.size = input.size ∧
      (∀ b, sb.data_region_start (input.block 0) < b → b < sb.total_blocks (input.block 0) →
        (∀ t, t < k → b ≠ sb.data_region_start (input.block 0) +
          ((clear_bits (input.block 2) (sb.data_region_blocks (input.block 0))).take
            k).getD t 0) →
        out.block b = input.block b) ∧
      (∀ j, j < sb.inode_table_blocks (input.block 0) * BS → INODE_SIZE ≤ j →
        ¬ (r * INODE_SIZE ≤ j ∧ j < r * INODE_SIZE + INODE_SIZE) →
        out.data (3 * BS + j) = input.data (3 * BS + j)) ∧
      (∀ j, j < BS → ¬ (64 * e ≤ j ∧ j < 64 * e + 64) →
        out.data (sb.data_region_start (input.block 0) * BS + j) =
          input.data (sb.data_region_start (input.block 0) * BS + j)) := by
  obtain ⟨k, r, e, h1, h2, h3, h4, h5, h6, hsz, hb0, hb1, hb2, htbl, hdir, hpay, hrest⟩ :=
    main_wf_spec hw h
  refine ⟨k, r, e, h1, h4, h6, hsz, ?_, ?_, ?_⟩
  · intro b hb1 hb2 hnew
    funext j
    rw [block_apply, block_apply]
    by_cases hj : j < BS
    · rw [if_pos hj, if_pos hj]
      have hsize := hw.size
      apply hrest
      · simp only [BS] at *
        nlinarith
      · rw [hsize]
        simp only [BS] at *
        nlinarith
      · intro t ht
        have : (b * BS + j) / BS = b := by
          simp only [BS] at *
          omega
        rw [this]
        exact hnew t ht
    · rw [if_neg hj, if_neg hj]
  · intro j hj h128 hr
    rw [htbl j hj, inode_crc_finalize_frame _ _ _ (by simp only [INODE_SIZE] at *; omega)]
    simp only [st16]
    rw [st_outside (by simp only [INODE_SIZE] at *; omega), memcpy_apply, if_neg hr,
      slice_apply, if_pos hj]
  · intro j hj he
    rw [hdir j hj, memcpy_apply, if_neg he, block_apply, if_pos hj]

/-- Witness of `ingest_frame`: a 5000-byte file ingested into the fresh image. -/
theorem ingest_frame_witness :
    WellFormed fresh ∧
    ∃ out, main fresh [104, 105] (letters 5000) 1700000005 = .ok out ∧
      out.size = fresh.size := by
  refine ⟨fresh_wellFormed, ?_⟩
  obtain ⟨out, ho⟩ := fresh_ingest_ok [104, 105] 1700000005
  obtain ⟨_, _, _, _, _, _, hsz, _⟩ := ingest_frame fresh_wellFormed ho
  exact ⟨out, ho, hsz⟩

end mkfs_adder

/-! ## The checksum codec: CRC-32 -/

namespace MiniVSFS

/-- The round of `crc32_init` is the step of the bit-at-a-time CRC-32. -/
theorem crc32_round_eq (c : Nat) : crc32_round c = mkfs_adder.reflected_crc32_bit c := by
  unfold crc32_round mkfs_adder.reflected_crc32_bit
  rw [Nat.and_one_is_mod, Nat.shiftRight_eq_div_pow, Nat.pow_one, Nat.xor_comm]

theorem crc32_rounds_eq_iterate (j c : Nat) :
    crc32_rounds j c = mkfs_adder.reflected_crc32_bit^[j] c := by
  induction j generalizing c with
  | zero => rfl
  | succ j ih => rw [crc32_rounds, ih, crc32_round_eq, Function.iterate_succ_apply]

theorem shiftRight_xor (a b i : Nat) : (a ^^^ b) >>> i = (a >>> i) ^^^ (b >>> i) := by
  apply Nat.eq_of_testBit_eq
  intro j
  rw [Nat.testBit_shiftRight, Nat.testBit_xor, Nat.testBit_xor, Nat.testBit_shiftRight,
    Nat.testBit_shiftRight]

/-- The round of `crc32_init` is linear over XOR. -/
theorem crc32_round_xor (u v : Nat) :
    crc32_round (u ^^^ v) = crc32_round u ^^^ crc32_round v := by
  unfold crc32_round
  rw [Nat.and_xor_distrib_right, shiftRight_xor, Nat.and_one_is_mod,
    Nat.and_one_is_mod]
  rcases Nat.mod_two_eq_zero_or_one u with hu | hu <;>
    rcases Nat.mod_two_eq_zero_or_one v with hv | hv <;>
    rw [hu, hv] <;>
    apply Nat.eq_of_testBit_eq <;> intro i <;>
    simp only [Nat.testBit_xor, Nat.zero_xor, Nat.xor_zero, Nat.xor_self, if_true, if_false,
      Nat.zero_ne_one, Nat.one_ne_zero, show (1 ^^^ 1 : Nat) = 0 from rfl,
      show (0 ^^^ 1 : Nat) = 1 from rfl, show (1 ^^^ 0 : Nat) = 1 from rfl,
      show (0 ^^^ 0 : Nat) = 0 from rfl] <;>
    cases Nat.testBit 3988292384 i <;> cases Nat.testBit (u >>> 1) i <;>
    cases Nat.testBit (v >>> 1) i <;> rfl

theorem crc32_rounds_xor (j u v : Nat) :
    crc32_rounds j (u ^^^ v) = crc32_rounds j u ^^^ crc32_rounds j v := by
  induction j generalizing u v with
  | zero => rfl
  | succ j ih => rw [crc32_rounds, crc32_rounds, crc32_rounds, crc32_round_xor, ih]

/-- The rounds shift out the zero bits at the low end and nothing else. -/
theorem crc32_rounds_shiftLeft (j y : Nat) : crc32_rounds j (y <<< j) = y := by
  induction j generalizing y with
  | zero => rfl
  | succ j ih =>
    rw [crc32_rounds]
    have h : crc32_round (y <<< (j + 1)) = y <<< j := by
      unfold crc32_round
      rw [Nat.and_one_is_mod, Nat.shiftLeft_eq, Nat.shiftLeft_eq, Nat.shiftRight_eq_div_pow,
        Nat.pow_one, Nat.pow_succ, ← Nat.mul_assoc, Nat.mul_mod_left,
        if_neg (by decide), Nat.mul_div_cancel _ (by decide)]
    rw [h, ih]

theorem split_low_byte (x : Nat) : x = (x &&& 0xFF) ^^^ ((x >>> 8) <<< 8) := by
  apply Nat.eq_of_testBit_eq
  intro i
  have h255 : (0xFF : Nat) = 2 ^ 8 - 1 := rfl
  rw [Nat.testBit_xor, Nat.testBit_and, h255, Nat.testBit_two_pow_sub_one,
    Nat.testBit_shiftLeft, Nat.testBit_shiftRight]
  by_cases h : i < 8
  · simp [h, Nat.not_le.mpr h]
  · have h8 : 8 ≤ i := Nat.le_of_not_lt h
    simp [h, h8, Nat.add_sub_cancel' h8]

/-- One step of the table-driven loop is eight steps of the bit-at-a-time CRC-32
on the register with the byte added. -/
theorem crc32_table_step (c b : Nat) (hb : b < 256) :
    CRC32_TAB ((c ^^^ b) &&& 0xFF) ^^^ (c >>> 8) =
      mkfs_adder.reflected_crc32_bit^[8] (c ^^^ b) := by
  rw [← crc32_rounds_eq_iterate]
  conv_rhs => rw [split_low_byte (c ^^^ b)]
  rw [crc32_rounds_xor, crc32_rounds_shiftLeft, shiftRight_xor]
  have hb8 : b >>> 8 = 0 := by
    rw [Nat.shiftRight_eq_div_pow]
    exact Nat.div_eq_of_lt hb
  rw [hb8, Nat.xor_zero]
  rfl

theorem bytes_of_succ (p : Bytes) (n : Nat) :
    mkfs_adder.bytes_of p (n + 1) = mkfs_adder.bytes_of p n ++ [p n % 256] := by
  unfold mkfs_adder.bytes_of
  rw [List.range_succ, List.map_append]
  rfl

theorem crc32_loop_eq (p : Bytes) (n : Nat) :
    crc32_loop p n = mkfs_adder.reflected_crc32_register (mkfs_adder.bytes_of p n).reverse := by
  induction n with
  | zero => rfl
  | succ n ih =>
    rw [bytes_of_succ, List.reverse_append, List.reverse_singleton, List.singleton_append,
      mkfs_adder.reflected_crc32_register, ← ih, crc32_loop]
    exact crc32_table_step _ _ (Nat.mod_lt _ (by decide))

/-- C12. The table-driven `crc32` is the standard CRC-32: for every buffer and every
length it equals the bit-at-a-time reflected CRC-32 (polynomial `0xEDB88320`, initial
value `0xFFFFFFFF`, final XOR `0xFFFFFFFF`) of the bytes, and on the nine bytes
`123456789` it returns `0xCBF43926`. -/
theorem crc32_is_standard (p : Bytes) (n : Nat) :
    crc32 p n = mkfs_adder.reflected_crc32 (mkfs_adder.bytes_of p n) ∧
    mkfs_adder.bytes_of mkfs_adder.check_string 9 = [49, 50, 51, 52, 53, 54, 55, 56, 57] ∧
    crc32 mkfs_adder.check_string 9 = 0xCBF43926 := by
  refine ⟨?_, by decide, by decide!⟩
  unfold crc32 mkfs_adder.reflected_crc32
  rw [crc32_loop_eq]

end MiniVSFS

/-! ## The bitmap allocator: first-fit search -/

namespace mkfs_adder

/-- The bit test of the scans, checked over all byte values: the mask is zero exactly
when the bit, counted from the least-significant end, is 0. -/
theorem and_shift_bit : ∀ x, x < 256 → ∀ m, m < 8 →
    (x &&& (1 <<< m) = 0 ↔ ¬ (x / 2 ^ m % 2 = 1)) := by
  decide!

theorem bit_mask_eq_zero_iff (bm : Bytes) (i : Nat) :
    bit_mask bm i = 0 ↔ ¬ bit_is_set bm i := by
  unfold bit_mask bit_is_set
  exact and_shift_bit _ (Nat.mod_lt _ (by decide)) _ (Nat.mod_lt _ (by decide))

theorem bit_mask_ne_zero_iff (bm : Bytes) (i : Nat) :
    bit_mask bm i ≠ 0 ↔ bit_is_set bm i := by
  rw [ne_eq, bit_mask_eq_zero_iff, not_not]

/-- C13. First-fit search: for every bitmap and every limit `n`, `find_free_bit`
returns `-1` exactly when all the bits `0 .. n-1` are set, it returns the index `i`
exactly when `i < n`, bit `i` is clear and all the bits below `i` are set (so the
lowest clear bit below `n`), and it returns nothing else: never a set bit, never an
index of `n` or more. -/
theorem first_fit_search (bitmap : Bytes) (n : Nat) :
    (find_free_bit bitmap (n : Int) = -1 ↔ ∀ j, j < n → bit_is_set bitmap j) ∧
    (∀ i : Nat, find_free_bit bitmap (n : Int) = (i : Int) ↔
      (i < n ∧ ¬ bit_is_set bitmap i ∧ ∀ j, j < i → bit_is_set bitmap j)) ∧
    (find_free_bit bitmap (n : Int) = -1 ∨
      ∃ i : Nat, find_free_bit bitmap (n : Int) = (i : Int)) := by
  rcases find_free_bit_spec bitmap n with ⟨h1, h2⟩ | ⟨r, hr, h1, h2, h3⟩
  · refine ⟨⟨fun _ j hj => (bit_mask_ne_zero_iff _ _).mp (h2 j hj), fun _ => h1⟩, ?_, Or.inl h1⟩
    intro i
    constructor
    · intro hi
      rw [h1] at hi
      omega
    · rintro ⟨hi, hc, _⟩
      exact absurd ((bit_mask_ne_zero_iff _ _).mp (h2 i hi)) hc
  · have hclear : ¬ bit_is_set bitmap r := (bit_mask_eq_zero_iff _ _).mp h2
    refine ⟨⟨fun hc => ?_, fun hall => absurd (hall r h1) hclear⟩, ?_, Or.inr ⟨r, hr⟩⟩
    · rw [hr] at hc
      omega
    · intro i
      constructor
      · intro hi
        rw [hr] at hi
        have : r = i := by omega
        subst this
        exact ⟨h1, hclear, fun j hj => (bit_mask_ne_zero_iff _ _).mp (h3 j hj)⟩
      · rintro ⟨hi, hc, hlow⟩
        have h4 : ¬ i < r := fun hlt => hc ((bit_mask_ne_zero_iff _ _).mp (h3 i hlt))
        have h5 : ¬ r < i := fun hlt => hclear (hlow r hlt)
        have : r = i := by omega
        rw [hr, this]

end mkfs_adder

/-! ## The bitmap allocator: setting a bit -/

namespace mkfs_adder

/-- Setting a bit of a byte twice, and setting a bit that is set, checked over all
byte values. -/
theorem or_shift_twice : ∀ x, x < 256 → ∀ m, m < 8 →
    (((x ||| (1 <<< m)) % 256) % 256 ||| (1 <<< m)) % 256 = (x ||| (1 <<< m)) % 256 ∧
    (x / 2 ^ m % 2 = 1 → (x ||| (1 <<< m)) % 256 = x) := by
  decide!

theorem bit_is_set_set_bit (bm : Bytes) (b i : Nat) :
    bit_is_set (set_bit bm b) i ↔ (i = b ∨ bit_is_set bm i) := by
  rw [← bit_mask_ne_zero_iff, ← bit_mask_ne_zero_iff, ne_eq, bit_mask_set_bit]
  constructor
  · intro h
    by_cases hib : i = b
    · exact Or.inl hib
    · right
      intro hz
      exact h ⟨hib, hz⟩
  · rintro (h | h) ⟨h1, h2⟩
    · exact h1 h
    · exact h h2

/-- C14. Allocator set/find interplay: `set_bit(bitmap, i)` makes bit `i` set and
leaves every other bit as it was; it is idempotent, and on a bitmap whose bit `i` is
set it leaves every byte, as the `uint8_t` it is, unchanged; afterwards
`find_free_bit`, for any limit, does not return `i`; and if `find_free_bit` returned
`i` before the set, with the same limit it then returns the exhausted signal or an
index strictly greater than `i`. -/
theorem set_bit_then_find (bitmap : Bytes) (i : Nat) :
    bit_is_set (set_bit bitmap i) i ∧
    (∀ j, j ≠ i → (bit_is_set (set_bit bitmap i) j ↔ bit_is_set bitmap j)) ∧
    set_bit (set_bit bitmap i) i = set_bit bitmap i ∧
    (bit_is_set bitmap i → ∀ j, set_bit bitmap i j % 256 = bitmap j % 256) ∧
    (∀ n : Nat, find_free_bit (set_bit bitmap i) (n : Int) ≠ (i : Int)) ∧
    (∀ n : Nat, find_free_bit bitmap (n : Int) = (i : Int) →
      find_free_bit (set_bit bitmap i) (n : Int) = -1 ∨
      ∃ r : Nat, find_free_bit (set_bit bitmap i) (n : Int) = (r : Int) ∧ i < r) := by
  refine ⟨(bit_is_set_set_bit _ _ _).mpr (Or.inl rfl), ?_, ?_, ?_, ?_, ?_⟩
  · intro j hj
    rw [bit_is_set_set_bit]
    constructor
    · rintro (h | h)
      · exact absurd h hj
      · exact h
    · exact Or.inr
  · funext j
    unfold set_bit
    by_cases hj : j = i / 8
    · simp only [if_pos hj]
      exact (or_shift_twice _ (Nat.mod_lt _ (by decide)) _ (Nat.mod_lt _ (by decide))).1
    · simp only [if_neg hj]
  · intro hset j
    unfold set_bit
    by_cases hj : j = i / 8
    · rw [if_pos hj, Nat.mod_mod, hj]
      exact (or_shift_twice _ (Nat.mod_lt _ (by decide)) _ (Nat.mod_lt _ (by decide))).2 hset
    · rw [if_neg hj]
  · intro n hc
    rcases find_free_bit_spec (set_bit bitmap i) n with ⟨h1, _⟩ | ⟨r, hr, _, h2, _⟩
    · rw [h1] at hc; omega
    · rw [hr] at hc
      have : r = i := by omega
      subst this
      exact ((bit_mask_set_bit _ _ _).mp h2).1 rfl
  · intro n hfind
    rcases find_free_bit_spec bitmap n with ⟨h1, _⟩ | ⟨r0, hr0, _, _, hlow⟩
    · rw [h1] at hfind; omega
    · rw [hr0] at hfind
      have : r0 = i := by omega
      subst this
      rcases find_free_bit_spec (set_bit bitmap r0) n with ⟨h1, _⟩ | ⟨r, hr, _, h2, _⟩
      · exact Or.inl h1
      · right
        refine ⟨r, hr, ?_⟩
        have h3 := (bit_mask_set_bit _ _ _).mp h2
        have h4 : ¬ r < r0 := fun hlt => hlow r hlt h3.2
        have h5 := h3.1
        omega

end mkfs_adder

/-! ## The checksum codec: the two record finalizers -/

namespace MiniVSFS

/-- The checksum that `inode_crc_finalize` stores depends only on the first 120 bytes
of the record. -/
theorem inode_crc_value (m : Bytes) (o : Nat) :
    crc32 (st64 (slice m o INODE_SIZE) 120 0) 120 = crc32 (slice m o 120) 120 := by
  apply crc32_congr
  intro i hi
  simp only [st64]
  rw [st_outside (by omega), slice_apply, slice_apply, if_pos (by simp only [INODE_SIZE]; omega),
    if_pos hi]

/-- C15. Inode checksum finalizer: for every record (128 bytes at offset `o` of a
buffer), `inode_crc_finalize` leaves every byte outside the trailing 8-byte field
unchanged, sets that field to the CRC-32 of the first 120 bytes, a value below
`2^32` so that the upper four bytes of the field are zero; the finalized record does
not depend on the previous content of the field, and the finalizer is idempotent. -/
theorem inode_checksum_finalizer (m : Bytes) (o : Nat) :
    (∀ i, i < o + 120 ∨ o + 128 ≤ i → inode_crc_finalize m o i = m i) ∧
    ld64 (inode_crc_finalize m o) (o + 120) = crc32 (slice m o 120) 120 ∧
    crc32 (slice m o 120) 120 < 2 ^ 32 ∧
    ld32 (inode_crc_finalize m o) (o + 124) = 0 ∧
    (∀ m' : Bytes, (∀ i, i < 120 → m' (o + i) = m (o + i)) →
      ∀ i, i < 128 → inode_crc_finalize m' o (o + i) = inode_crc_finalize m o (o + i)) ∧
    inode_crc_finalize (inode_crc_finalize m o) o = inode_crc_finalize m o := by
  have hlt := crc32_lt (slice m o 120) 120
  have hval : ∀ m' : Bytes, (∀ i, i < 120 → m' (o + i) = m (o + i)) →
      crc32 (slice m' o 120) 120 = crc32 (slice m o 120) 120 := by
    intro m' hm
    apply crc32_congr
    intro i hi
    rw [slice_apply, slice_apply, if_pos hi, if_pos hi, hm i hi]
  have hdef : ∀ m' : Bytes, inode_crc_finalize m' o =
      st64 m' (o + 120) (crc32 (slice m' o 120) 120) := by
    intro m'
    unfold inode_crc_finalize
    simp only []
    rw [inode_crc_value]
  refine ⟨fun i hi => inode_crc_finalize_frame m o i hi, ?_, hlt, ?_, ?_, ?_⟩
  · rw [hdef]
    simp only [st64]
    rw [ld64_st_rt]
    exact Nat.mod_eq_of_lt (Nat.lt_of_lt_of_le hlt (by norm_num))
  · rw [hdef]
    unfold ld32
    simp only [st64]
    rw [st_inside (by omega), st_inside (by omega), st_inside (by omega), st_inside (by omega)]
    have e0 : o + 124 - (o + 120) = 4 := by omega
    have e1 : o + 124 + 1 - (o + 120) = 5 := by omega
    have e2 : o + 124 + 2 - (o + 120) = 6 := by omega
    have e3 : o + 124 + 3 - (o + 120) = 7 := by omega
    rw [e0, e1, e2, e3]
    norm_num at hlt ⊢
    omega
  · intro m' hm i hi
    rw [hdef, hdef, hval m' hm]
    simp only [st64]
    by_cases h : i < 120
    · rw [st_outside (by omega), st_outside (by omega), hm i h]
    · rw [st_inside (by omega), st_inside (by omega)]
  · have hsame : crc32 (slice (inode_crc_finalize m o) o 120) 120
        = crc32 (slice m o 120) 120 :=
      hval _ (fun i hi => inode_crc_finalize_frame m o _ (by omega))
    rw [hdef (inode_crc_finalize m o), hsame, hdef m]
    funext i
    simp only [st64]
    by_cases h : o + 120 ≤ i ∧ i < o + 120 + 8
    · rw [st_inside h, st_inside h]
    · rw [st_outside (by omega), st_outside (by omega)]

theorem dirent_xor_eq (p : Bytes) (n : Nat) :
    dirent_xor p n = mkfs_adder.xor_all (mkfs_adder.bytes_of p n) := by
  induction n with
  | zero => rfl
  | succ n ih =>
    rw [bytes_of_succ, dirent_xor, ih]
    unfold mkfs_adder.xor_all
    rw [List.foldl_append]
    rfl

/-- C16. Directory-entry checksum finalizer: for every entry (64 bytes at offset `o`
of a buffer), `dirent_checksum_finalize` leaves every byte but byte 63 of the entry
unchanged and sets byte 63 to the XOR of bytes 0..62, so that the XOR of all 64 bytes
of the finalized entry is 0; the finalizer is idempotent. -/
theorem dirent_checksum_finalizer (m : Bytes) (o : Nat) :
    (∀ i, i ≠ o + 63 → dirent_checksum_finalize m o i = m i) ∧
    dirent_checksum_finalize m o (o + 63) =
      mkfs_adder.xor_all (mkfs_adder.bytes_of (slice m o 64) 63) ∧
    mkfs_adder.xor_all (mkfs_adder.bytes_of (slice (dirent_checksum_finalize m o) o 64) 64)
      = 0 ∧
    dirent_checksum_finalize (dirent_checksum_finalize m o) o
      = dirent_checksum_finalize m o := by
  have hlt : dirent_xor (slice m o 64) 63 < 256 := dirent_xor_lt (slice m o 64) 63
  have hbyte : dirent_checksum_finalize m o (o + 63) = dirent_xor (slice m o 64) 63 := by
    unfold dirent_checksum_finalize
    simp only [st8]
    rw [st_inside (by omega), Nat.sub_self, Nat.pow_zero, Nat.div_one]
    exact Nat.mod_eq_of_lt hlt
  have hsame : dirent_xor (slice (dirent_checksum_finalize m o) o 64) 63 =
      dirent_xor (slice m o 64) 63 := by
    apply dirent_xor_congr
    intro i hi
    rw [slice_apply, slice_apply, if_pos (by omega), if_pos (by omega),
      dirent_checksum_finalize_frame _ _ _ (by omega)]
  refine ⟨fun i hi => dirent_checksum_finalize_frame m o i hi, ?_, ?_, ?_⟩
  · rw [hbyte, dirent_xor_eq]
  · rw [← dirent_xor_eq, dirent_xor, hsame, slice_apply, if_pos (by omega), hbyte,
      Nat.mod_eq_of_lt hlt, Nat.xor_self]
  · funext i
    by_cases h : i = o + 63
    · rw [h, hbyte]
      unfold dirent_checksum_finalize
      simp only [st8]
      rw [st_inside (by omega), Nat.sub_self, Nat.pow_zero, Nat.div_one]
      have := hsame
      unfold dirent_checksum_finalize at this
      simp only [st8] at this
      rw [this]
      exact Nat.mod_eq_of_lt hlt
    · rw [dirent_checksum_finalize_frame _ _ _ h]

end MiniVSFS

/-! ## The ingestor: allocation accounting -/

namespace mkfs_adder

theorem used_bits_succ (bm : Bytes) (n : Nat) :
    used_bits bm (n + 1) = used_bits bm n + if bit_is_set bm n then 1 else 0 := by
  unfold used_bits
  rw [List.range_succ, List.countP_append, List.countP_singleton]
  by_cases h : bit_is_set bm n
  · simp [h]
  · simp [h]

theorem used_bits_congr {a b : Bytes} {n : Nat}
    (h : ∀ i, i < n → (bit_is_set a i ↔ bit_is_set b i)) : used_bits a n = used_bits b n := by
  unfold used_bits
  apply List.countP_congr
  intro i hi
  rw [List.mem_range] at hi
  simp only [decide_eq_true_eq]
  exact h i hi

/-- Setting a clear bit below the limit adds one to the number of set bits. -/
theorem used_bits_set_bit_aux (bm : Bytes) (b : Nat) (hc : ¬ bit_is_set bm b) (n : Nat) :
    used_bits (set_bit bm b) n = used_bits bm n + if b < n then 1 else 0 := by
  induction n with
  | zero => rfl
  | succ n ih =>
    rw [used_bits_succ, used_bits_succ, ih]
    by_cases hbn : b = n
    · subst hbn
      rw [if_pos ((bit_is_set_set_bit _ _ _).mpr (Or.inl rfl)), if_neg hc,
        if_neg (Nat.lt_irrefl _), if_pos (Nat.lt_succ_self _)]
    · have hiff : bit_is_set (set_bit bm b) n ↔ bit_is_set bm n := by
        rw [bit_is_set_set_bit]
        constructor
        · rintro (h | h)
          · exact absurd h.symm hbn
          · exact h
        · exact Or.inr
      by_cases hs : bit_is_set bm n
      · rw [if_pos (hiff.mpr hs), if_pos hs]
        by_cases hlt : b < n
        · rw [if_pos hlt, if_pos (by omega)]
        · rw [if_neg hlt, if_neg (by omega)]
      · rw [if_neg (fun h => hs (hiff.mp h)), if_neg hs]
        by_cases hlt : b < n
        · rw [if_pos hlt, if_pos (by omega)]
        · rw [if_neg hlt, if_neg (by omega)]

theorem used_bits_set_bit (bm : Bytes) (b n : Nat) (hc : ¬ bit_is_set bm b) (hb : b < n) :
    used_bits (set_bit bm b) n = used_bits bm n + 1 := by
  rw [used_bits_set_bit_aux bm b hc n, if_pos hb]

/-- Marking `k` distinct clear bits below the limit adds `k` to the number of set
bits. -/
theorem used_bits_mark_blocks (fb : List Nat) (bm : Bytes) (n k : Nat)
    (hd : ∀ t t', t < t' → t' < k → fb.getD t 0 ≠ fb.getD t' 0)
    (hc : ∀ t, t < k → bit_mask bm (fb.getD t 0) = 0)
    (hn : ∀ t, t < k → fb.getD t 0 < n) :
    used_bits (mark_blocks fb bm k) n = used_bits bm n + k := by
  induction k with
  | zero => rfl
  | succ k ih =>
    rw [mark_blocks, used_bits_set_bit _ _ _ _ (hn k (Nat.lt_succ_self _)),
      ih (fun t t' h1 h2 => hd t t' h1 (by omega)) (fun t ht => hc t (by omega))
        (fun t ht => hn t (by omega))]
    · omega
    · rw [← bit_mask_eq_zero_iff, bit_mask_mark_blocks]
      exact ⟨fun t ht => hd t k ht (Nat.lt_succ_self _), hc k (Nat.lt_succ_self _)⟩

theorem bit_is_set_block_lt {f : File} {b i : Nat} (h : bit_is_set (f.block b) i) :
    i < 8 * BS := by
  by_contra hc
  unfold bit_is_set at h
  rw [block_apply, if_neg (by omega)] at h
  simp at h

/-- The counts of a successful ingest into a well-formed image: one more inode bit,
`k` more data bits, one more directory slot, and nothing freed. -/
theorem ingest_counts {input : File} (hw : WellFormed input) {filename : List Nat}
    {file : File} {now : Nat} {out : File} (h : main input filename file now = .ok out) :
    ∃ k r e : Nat, blocks_needed (u64 file.size) = (k : Int) ∧ k ≤ 12 ∧ e < 64 ∧
      used_bits (out.block 1) (8 * BS) = used_bits (input.block 1) (8 * BS) + 1 ∧
      used_bits (out.block 2) (8 * BS) = used_bits (input.block 2) (8 * BS) + k ∧
      ld32 (input.block (sb.data_region_start (input.block 0))) (64 * e) = 0 ∧
      ld32 (out.block (sb.data_region_start (input.block 0))) (64 * e) = r + 1 ∧
      (∀ s, s < 64 → s ≠ e →
        ld32 (out.block (sb.data_region_start (input.block 0))) (64 * s) =
          ld32 (input.block (sb.data_region_start (input.block 0))) (64 * s)) ∧
      (∀ i, bit_is_set (input.block 1) i → bit_is_set (out.block 1) i) ∧
      (∀ i, bit_is_set (input.block 2) i → bit_is_set (out.block 2) i) := by
  obtain ⟨k, r, e, g1, g2, g3, g4, _, hi1, hi2, _, hsl, _⟩ := ingest_step hw h
  have hk12' : k ≤ 12 := by
    obtain ⟨k', _, _, gk, gk12, _⟩ := main_wf_spec hw h
    rw [g1] at gk
    omega
  obtain ⟨r1, r2, r3, r4, r5⟩ := free_inode_facts hw g2
  obtain ⟨e1, e2, e3⟩ := free_entry_facts g4
  have hib := hw.inode_bits
  have hdb := hw.data_bits
  have hlen : ((clear_bits (input.block 2) (sb.data_region_blocks (input.block 0))).take
      k).length = k := by
    rw [List.length_take]; omega
  refine ⟨k, r, e, g1, hk12', e1, ?_, ?_, e2, ?_, ?_, ?_, ?_⟩
  · rw [← used_bits_set_bit (input.block 1) r (8 * BS)
      ((bit_mask_eq_zero_iff _ _).mp r3) (by omega)]
    apply used_bits_congr
    intro i hi
    rw [← bit_mask_ne_zero_iff, ← bit_mask_ne_zero_iff, ne_eq, ne_eq, hi1 i hi,
      bit_mask_set_bit]
  · rw [← used_bits_mark_blocks ((clear_bits (input.block 2)
        (sb.data_region_blocks (input.block 0))).take k) (input.block 2) (8 * BS) k
      (fun t t' h1 h2 => Nat.ne_of_lt (clear_bits_take_lt _ _ _ t t' h1 (by omega)))
      (fun t ht => (clear_bits_take_getD _ _ _ t (by omega)).2)
      (fun t ht => Nat.lt_of_lt_of_le (clear_bits_take_getD _ _ _ t (by omega)).1 hdb)]
    apply used_bits_congr
    intro i hi
    rw [← bit_mask_ne_zero_iff, ← bit_mask_ne_zero_iff, ne_eq, ne_eq, hi2 i hi,
      bit_mask_mark_blocks]
  · rw [hsl e e1, if_pos rfl]
  · intro s hs hse
    rw [hsl s hs, if_neg hse]
  · intro i hset
    have hi := bit_is_set_block_lt hset
    rw [← bit_mask_ne_zero_iff] at hset ⊢
    intro hz
    exact hset ((hi1 i hi).mp hz).2
  · intro i hset
    have hi := bit_is_set_block_lt hset
    rw [← bit_mask_ne_zero_iff] at hset ⊢
    intro hz
    exact hset ((hi2 i hi).mp hz).2

/-- C17, counterexample: the ingest of a source file without content into the fresh
image succeeds and the output data bitmap has as many set bits as the input's: no
`k` with `1 ≤ k ≤ 12` is the number of data bits added. -/
theorem empty_file_takes_no_block :
    empty_file.size = 0 ∧
    ∃ out, main fresh [101] empty_file 1700000005 = .ok out ∧
      used_bits (out.block 2) (8 * BS) = used_bits (fresh.block 2) (8 * BS) ∧
      ¬ ∃ k, 1 ≤ k ∧ k ≤ 12 ∧
        used_bits (out.block 2) (8 * BS) = used_bits (fresh.block 2) (8 * BS) + k := by
  obtain ⟨out, ho⟩ : ∃ out, main fresh [101] empty_file 1700000005 = .ok out :=
    ⟨_, outcome_ok (by decide!)⟩
  obtain ⟨k, r, e, g1, _, _, _, g5, _⟩ := ingest_counts fresh_wellFormed ho
  have hk : blocks_needed (u64 empty_file.size) = ((0 : Nat) : Int) := by decide
  rw [hk] at g1
  have hk0 : k = 0 := by omega
  subst hk0
  rw [Nat.add_zero] at g5
  refine ⟨rfl, out, ho, g5, ?_⟩
  rintro ⟨k, h1, _, h3⟩
  rw [g5] at h3
  omega

/-- C17, amended: allocation accounting of ingest on a well-formed image. For every
successful ingest into a well-formed image, with `k` the value of `blocks_needed`
(`ceil(size / 4096)` when that fits an `int`; 0 for a source without content), the
output inode bitmap has exactly one more set bit than the input's, the output data
bitmap has exactly `k` more set bits with `0 ≤ k ≤ 12`, exactly one slot `e` of the
root directory goes from inode number 0 to a non-zero inode number while the other
63 keep theirs, and every bit that is set in a bitmap of the input is set in the
output. -/
theorem allocation_accounting {input : File} (hw : WellFormed input) {filename : List Nat}
    {file : File} {now : Nat} {out : File} (h : main input filename file now = .ok out) :
    ∃ k e : Nat, blocks_needed (u64 file.size) = (k : Int) ∧ k ≤ 12 ∧
      ((file.size + BS - 1) / BS < 2 ^ 31 → k = (file.size + BS - 1) / BS) ∧
      used_bits (out.block 1) (8 * BS) = used_bits (input.block 1) (8 * BS) + 1 ∧
      used_bits (out.block 2) (8 * BS) = used_bits (input.block 2) (8 * BS) + k ∧
      e < 64 ∧
      ld32 (input.block (sb.data_region_start (input.block 0))) (64 * e) = 0 ∧
      ld32 (out.block (sb.data_region_start (input.block 0))) (64 * e) ≠ 0 ∧
      (∀ s, s < 64 → s ≠ e →
        ld32 (out.block (sb.data_region_start (input.block 0))) (64 * s) =
          ld32 (input.block (sb.data_region_start (input.block 0))) (64 * s)) ∧
      (∀ i, bit_is_set (input.block 1) i → bit_is_set (out.block 1) i) ∧
      (∀ i, bit_is_set (input.block 2) i → bit_is_set (out.block 2) i) := by
  obtain ⟨k, r, e, g1, g2, g3, g4, g5, g6, g7, g8, g9, g10⟩ := ingest_counts hw h
  refine ⟨k, e, g1, g2, ?_, g4, g5, g3, g6, ?_, g8, g9, g10⟩
  · intro hfit
    have := blocks_needed_small hfit
    rw [g1] at this
    omega
  · rw [g7]
    omega

/-- Witness of `allocation_accounting`: a 5000-byte file ingested into the fresh
image takes one inode bit and two data bits. -/
theorem allocation_accounting_witness :
    WellFormed fresh ∧
    ∃ out, main fresh [104, 105] (letters 5000) 1700000005 = .ok out ∧
      used_bits (out.block 1) (8 * BS) = used_bits (fresh.block 1) (8 * BS) + 1 ∧
      used_bits (out.block 2) (8 * BS) = used_bits (fresh.block 2) (8 * BS) + 2 := by
  refine ⟨fresh_wellFormed, ?_⟩
  obtain ⟨out, ho⟩ := fresh_ingest_ok [104, 105] 1700000005
  obtain ⟨k, e, g1, _, g3, g4, g5, _⟩ := allocation_accounting fresh_wellFormed ho
  have hk : k = 2 := g3 (by decide)
  subst hk
  exact ⟨out, ho, g4, g5⟩

end mkfs_adder

/-! ## Reachable images: the pointer invariant and a source of 16 TiB -/

namespace mkfs_adder

theorem fresh_reachable : Reachable fresh :=
  @ReachableBy.format (fun _ => True) 180 128 1700000000 1700000000 fresh (by
    unfold mkfs_builder.main
    rw [if_neg (by decide), if_neg (by decide!)]
    rfl)

/-- C18, failing input: a source file of `2^44` bytes is ingested into the fresh
image, `blocks_needed` being 0 after the conversion to `int`. The output is
reachable, bit 1 of its inode bitmap is set, and the inode record of that bit has
`size_bytes = 2^44` and no non-zero direct pointer, where `ceil(size_bytes / 4096)`
is `2^32`. -/
theorem huge_file_gets_no_pointer :
    blocks_needed (u64 huge.size) = 0 ∧ (huge.size + BS - 1) / BS = 2 ^ 32 ∧
    ∃ out, main fresh [104] huge 1700000005 = .ok out ∧ Reachable out ∧
      bit_is_set (out.block 1) 1 ∧
      ld64 (inode_at out 1) 12 = 2 ^ 44 ∧
      nonzero_direct (inode_at out 1) = [] := by
  have ho : ∃ out, main fresh [104] huge 1700000005 = .ok out ∧
      out = result (main fresh [104] huge 1700000005) := ⟨_, outcome_ok (by decide!), rfl⟩
  obtain ⟨out, ho, he⟩ := ho
  refine ⟨by decide!, by decide, out, ho, ReachableBy.ingest fresh_reachable trivial ho,
    ?_, ?_, ?_⟩
  · rw [he]; decide!
  · rw [he]; decide!
  · rw [he]; decide!

end mkfs_adder

/-! ## The ingestor: the choice of the directory slot -/

namespace mkfs_adder

/-- The reads of the source succeed whenever the size check has passed. -/
theorem source_readable {s k : Nat} (hbn : blocks_needed (u64 s) = (k : Int)) (hk : k ≤ 12) :
    ∀ t, t < k → t * BS + to_read (u64 s) k t ≤ s := by
  intro t ht
  by_cases hfit : (s + BS - 1) / BS < 2 ^ 31
  · have h1 := blocks_needed_small hfit
    rw [hbn] at h1
    rw [u64_of_fit hfit]
    exact (to_read_sum (by omega) t ht).1
  · have h1 := to_read_le (u64 s) k t
    simp only [BS] at *
    omega

/-- The root inode after a successful ingest into a well-formed image: the link
count is one more (in `uint16_t`), the checksum is that of the record, and the other
bytes are those of the input. -/
theorem ingest_root_inode {input : File} (hw : WellFormed input) {filename : List Nat}
    {file : File} {now : Nat} {out : File} (h : main input filename file now = .ok out) :
    ld16 (inode_at out 0) 2 = (ld16 (inode_at input 0) 2 + 1) % 2 ^ 16 ∧
    ld64 (inode_at out 0) 120 = crc32 (inode_at out 0) 120 ∧
    (∀ j, j < 120 → ¬ (2 ≤ j ∧ j < 4) → inode_at out 0 j = inode_at input 0 j) := by
  obtain ⟨_, _, _, _, _, _, _, hb0, _⟩ := ingest_step hw h
  obtain ⟨k, r, e, _, _, _, g2, _, _, _, _, _, _, htbl, _⟩ := main_wf_spec hw h
  obtain ⟨r1, r2, r3, r4, r5⟩ := free_inode_facts hw g2
  have hitb := hw.inode_table_blocks
  have hout : ∀ j, j < INODE_SIZE → inode_at out 0 j = out.data (3 * BS + j) := by
    intro j hj
    unfold inode_at
    rw [slice_apply, if_pos hj, hb0, hw.inode_table_start, Nat.zero_mul, Nat.add_zero]
  have hin : ∀ j, j < INODE_SIZE → inode_at input 0 j = input.data (3 * BS + j) := by
    intro j hj
    unfold inode_at
    rw [slice_apply, if_pos hj, hw.inode_table_start, Nat.zero_mul, Nat.add_zero]
  have hrec : ∀ j, j < INODE_SIZE → inode_at out 0 j =
      inode_crc_finalize
        (st16
          (memcpy (slice input.data (3 * BS) (sb.inode_table_blocks (input.block 0) * BS))
            (r * INODE_SIZE)
            (new_inode (u64 file.size) now (sb.data_region_start (input.block 0)) k
              ((clear_bits (input.block 2) (sb.data_region_blocks (input.block 0))).take k))
            INODE_SIZE)
          2
          (ld16
            (memcpy (slice input.data (3 * BS) (sb.inode_table_blocks (input.block 0) * BS))
              (r * INODE_SIZE)
              (new_inode (u64 file.size) now (sb.data_region_start (input.block 0)) k
                ((clear_bits (input.block 2)
                  (sb.data_region_blocks (input.block 0))).take k))
              INODE_SIZE) 2 + 1))
        0 j := by
    intro j hj
    rw [hout j hj]
    exact htbl j (by simp only [BS, INODE_SIZE] at hj ⊢; omega)
  have hold : ∀ j, j < INODE_SIZE →
      memcpy (slice input.data (3 * BS) (sb.inode_table_blocks (input.block 0) * BS))
        (r * INODE_SIZE)
        (new_inode (u64 file.size) now (sb.data_region_start (input.block 0)) k
          ((clear_bits (input.block 2) (sb.data_region_blocks (input.block 0))).take k))
        INODE_SIZE j = inode_at input 0 j := by
    intro j hj
    rw [memcpy_apply, if_neg (by simp only [INODE_SIZE] at hj ⊢; omega), slice_apply,
      if_pos (by simp only [BS, INODE_SIZE] at hj ⊢; omega), hin j hj]
  refine ⟨?_, ?_, ?_⟩
  · rw [ld16_congr (fun j hj => hrec (2 + j) (by simp only [INODE_SIZE]; omega))]
    rw [ld16_congr (fun j hj => inode_crc_finalize_frame _ 0 (2 + j) (by omega))]
    simp only [st16]
    rw [ld16_st_rt, ld16_congr (fun j hj => hold (2 + j) (by simp only [INODE_SIZE]; omega))]
  · rw [ld64_congr (fun j hj => hrec (120 + j) (by simp only [INODE_SIZE]; omega)),
      inode_crc_finalize_crc0]
    apply crc32_congr
    intro j hj
    rw [hrec j (by simp only [INODE_SIZE]; omega)]
  · intro j hj hl
    rw [hrec j (by simp only [INODE_SIZE]; omega), inode_crc_finalize_frame _ _ _ (by omega)]
    simp only [st16]
    rw [st_outside (by omega), hold j (by simp only [INODE_SIZE]; omega)]

/-- The scan of the root directory returns the lowest slot whose inode number is 0. -/
theorem find_free_entry_lowest {blk : Bytes} {e : Nat} (he : e < 64)
    (hz : ld32 blk (64 * e) = 0) (hlow : ∀ s, s < e → ld32 blk (64 * s) ≠ 0) :
    find_free_entry blk 64 0 = (e : Int) := by
  rcases find_free_entry_spec blk 64 0 with ⟨_, h2⟩ | ⟨e', he', _, h1, h2, h3⟩
  · exact absurd hz (h2 e (Nat.zero_le _) (by omega))
  · have h4 : ¬ e' < e := fun hlt => hlow e' hlt h2
    have h5 : ¬ e < e' := fun hlt => h3 e (Nat.zero_le _) hlt hz
    have : e' = e := by omega
    rw [he', this]

/-- C19, counterexample: the image `unmarked` has a valid magic; for a one-byte
source the size check passes (one block), the inode check passes (bit 1 is free) and
the data-block check passes (bit 0 is the first clear bit of the data bitmap); slot 2
is the lowest slot of the root directory block (block 7) whose inode number is 0, so
not all 64 slots are used. The ingest succeeds, but the new entry (inode number 2) is
in no slot of the root directory block of the output: the new inode points to block
`7 + 0`, the root directory block itself, and the payload is written over it after
the directory, so that slot 2 still reads 0 and slot 0 reads 65, the byte `A`. -/
theorem unmarked_directory_block_reused :
    sb.magic (unmarked.block 0) = 0x4D565346 ∧
    blocks_needed (u64 (letters 1).size) = 1 ∧
    find_free_bit (unmarked.block 1) (sb.inode_count (unmarked.block 0) : Nat) = 1 ∧
    (clear_bits (unmarked.block 2) (sb.data_region_blocks (unmarked.block 0))).getD 0 1 = 0 ∧
    sb.data_region_start (unmarked.block 0) = 7 ∧
    ld32 (inode_at unmarked 0) 44 = 7 ∧
    find_free_entry (unmarked.block 7) 64 0 = 2 ∧
    ld32 (unmarked.block 7) (64 * 2) = 0 ∧
    ∃ out, main unmarked [97] (letters 1) 1700000005 = .ok out ∧
      ld32 (inode_at out 0) 44 = 7 ∧
      ld32 (inode_at out 1) 44 = 7 ∧
      ld32 (out.block 7) (64 * 2) = 0 ∧
      ld32 (out.block 7) (64 * 0) = 65 ∧
      (∀ s, s < 64 → ld32 (out.block 7) (64 * s) ≠ 1 + 1) :=
  ⟨by decide!, by decide!, by decide!, by decide!, by decide!, by decide!, by decide!,
    by decide!, result (main unmarked [97] (letters 1) 1700000005), outcome_ok (by decide!),
    by decide!, by decide!, by decide!, by decide!, by decide!⟩

/-- C19, amended: root-directory slot selection on a well-formed image (valid
magic, laid out as the formatter lays images out, the bits of the root inode and of
the root directory block set) on which the size, inode and data-block checks have
passed (`k ≤ 12` blocks are needed, bit `r` of the
inode bitmap is free, `k` data bits are free): the ingest fails with `DirectoryFull`
if and only if all 64 slots of the root directory block have a non-zero inode number;
otherwise, with `e` the lowest slot whose inode number is 0, the ingest succeeds, the
new entry (inode number `r + 1`) is in slot `e`, the other slots keep their inode
numbers, the link count of the root inode is one more (in `uint16_t`) and the
checksum of the root inode is that of its record. Consequently, from an image written
by the formatter whose data region has at least 64 blocks, small files are ingested
one after another into the slots 2, 3, .. 63 in this order, and the 63rd ingest fails
with `DirectoryFull`. -/
theorem root_directory_slot_selection {input : File} (hw : WellFormed input)
    (filename : List Nat) (file : File) (now : Nat) {k r : Nat}
    (hsize : blocks_needed (u64 file.size) = (k : Int)) (hk : k ≤ 12)
    (hr : find_free_bit (input.block 1) (sb.inode_count (input.block 0) : Nat) = (r : Int))
    (hfb : k ≤ (clear_bits (input.block 2) (sb.data_region_blocks (input.block 0))).length) :
    (main input filename file now = .error .DirectoryFull ↔
      ∀ s, s < 64 → ld32 (input.block (sb.data_region_start (input.block 0))) (64 * s) ≠ 0) ∧
    (∀ e, e < 64 →
      ld32 (input.block (sb.data_region_start (input.block 0))) (64 * e) = 0 →
      (∀ s, s < e → ld32 (input.block (sb.data_region_start (input.block 0))) (64 * s) ≠ 0) →
      ∃ out, main input filename file now = .ok out ∧
        ld32 (out.block (sb.data_region_start (input.block 0))) (64 * e) = r + 1 ∧
        (∀ s, s < 64 → s ≠ e →
          ld32 (out.block (sb.data_region_start (input.block 0))) (64 * s) =
            ld32 (input.block (sb.data_region_start (input.block 0))) (64 * s)) ∧
        ld16 (inode_at out 0) 2 = (ld16 (inode_at input 0) 2 + 1) % 2 ^ 16 ∧
        ld64 (inode_at out 0) 120 = crc32 (inode_at out 0) 120) ∧
    (∀ (size_kib inode_count : Int) (now_sb now_ino : Nat),
      mkfs_builder.validated size_kib inode_count →
      64 ≤ mkfs_builder.data_region_blocks size_kib inode_count →
      ∀ (pre : List (List Nat × File × Nat)) (x : List Nat × File × Nat),
      (∀ y, y ∈ pre → y.2.1.size ≤ BS) → x.2.1.size ≤ BS →
      (pre.length ≤ 61 →
        ∃ mid out,
          ingest_all (mkfs_builder.image size_kib inode_count now_sb now_ino) pre = .ok mid ∧
          main mid x.1 x.2.1 x.2.2 = .ok out ∧
          find_free_entry (mid.block (sb.data_region_start (mid.block 0))) 64 0
            = ((pre.length + 2 : Nat) : Int) ∧
          ld32 (mid.block (sb.data_region_start (mid.block 0))) (64 * (pre.length + 2)) = 0 ∧
          ld32 (out.block (sb.data_region_start (mid.block 0))) (64 * (pre.length + 2)) ≠ 0) ∧
      (pre.length = 62 →
        ∃ mid,
          ingest_all (mkfs_builder.image size_kib inode_count now_sb now_ino) pre = .ok mid ∧
          main mid x.1 x.2.1 x.2.2 = .error .DirectoryFull)) := by
  have hread := source_readable hsize hk
  refine ⟨⟨?_, ?_⟩, ?_, ?_⟩
  · intro hfull
    rcases find_free_entry_spec (input.block (sb.data_region_start (input.block 0))) 64 0 with
      ⟨_, h2⟩ | ⟨e, he, _, _, _, _⟩
    · exact fun s hs => h2 s (Nat.zero_le _) (by omega)
    · obtain ⟨out, ho, _⟩ := main_wf_ok_gen hw filename file now hsize hk hread hr hfb he
      rw [ho] at hfull
      cases hfull
  · intro hall
    have he : find_free_entry (input.block (sb.data_region_start (input.block 0))) 64 0
        = -1 := by
      rcases find_free_entry_spec (input.block (sb.data_region_start (input.block 0))) 64 0
        with ⟨h1, _⟩ | ⟨e, _, _, h1, h2, _⟩
      · exact h1
      · exact absurd h2 (hall e (by omega))
    rw [main_wf hw, hsize, hr, he, scan_free_blocks_clear_bits, List.length_take]
    rw [if_neg (by omega), if_neg (by omega), if_neg (by omega), if_neg (by omega),
      if_pos rfl]
  · intro e he hz hlow
    have hfe := find_free_entry_lowest he hz hlow
    obtain ⟨out, ho, _⟩ := main_wf_ok_gen hw filename file now hsize hk hread hr hfb hfe
    obtain ⟨k', r', e', _, g2, _, g4, _, _, _, _, hsl, _⟩ := ingest_step hw ho
    have hrr : r' = r := by rw [hr] at g2; omega
    have hee : e' = e := by rw [hfe] at g4; omega
    subst hrr hee
    obtain ⟨l1, l2, _⟩ := ingest_root_inode hw ho
    refine ⟨out, ho, ?_, ?_, l1, l2⟩
    · rw [hsl e' he, if_pos rfl]
    · intro s hs hse
      rw [hsl s hs, if_neg hse]
  · intro size_kib inode_count now_sb now_ino hv hbig pre x hpre hx
    have hh := image_holds size_kib inode_count now_sb now_ino hv
    constructor
    · intro hlen
      obtain ⟨mid, hm, hmid⟩ := ingest_all_ok pre 0 _ _ hh (by omega) (by omega) hpre
      rw [Nat.zero_add] at hmid
      obtain ⟨out, ho, _⟩ := holds_step hmid hlen (by omega) x.1 hx x.2.2
      have hfe := holds_free_entry hmid hlen
      obtain ⟨e1, e2, _⟩ := free_entry_facts hfe
      obtain ⟨k', r', e', _, _, _, g4, _, _, _, _, hsl, _⟩ := ingest_step hmid.wf ho
      have hee : e' = pre.length + 2 := by rw [hfe] at g4; omega
      subst hee
      refine ⟨mid, out, hm, ho, hfe, e2, ?_⟩
      rw [hsl _ e1, if_pos rfl]
      omega
    · intro hlen
      obtain ⟨mid, hm, hmid⟩ := ingest_all_ok pre 0 _ _ hh (by omega) (by omega) hpre
      rw [Nat.zero_add, hlen] at hmid
      exact ⟨mid, hm, holds_full hmid (by omega) x.1 hx x.2.2⟩

/-- Witness of `root_directory_slot_selection`: a 5000-byte file and the fresh image,
where slot 2 is the lowest free slot and bit 1 the free inode. -/
theorem root_directory_slot_selection_witness :
    WellFormed fresh ∧
    blocks_needed (u64 (letters 5000).size) = ((2 : Nat) : Int) ∧
    find_free_bit (fresh.block 1) (sb.inode_count (fresh.block 0) : Nat) = ((1 : Nat) : Int) ∧
    2 ≤ (clear_bits (fresh.block 2) (sb.data_region_blocks (fresh.block 0))).length ∧
    main fresh [104, 105] (letters 5000) 1700000005 ≠ .error .DirectoryFull := by
  refine ⟨fresh_wellFormed, fresh_ingest_facts.1, fresh_ingest_facts.2.1,
    fresh_ingest_facts.2.2.1, ?_⟩
  intro hc
  have h := (root_directory_slot_selection fresh_wellFormed [104, 105] (letters 5000)
    1700000005 fresh_ingest_facts.1 (by decide) fresh_ingest_facts.2.1
    fresh_ingest_facts.2.2.1).1.mp hc 2 (by decide)
  exact h (free_entry_facts fresh_ingest_facts.2.2.2.1).2.1

end mkfs_adder

/-! ## Reachable images: inode numbering -/

namespace mkfs_adder

theorem format_ok_inv {size_kib inode_count : Int} {now_sb now_ino : Nat} {img : File}
    (h : mkfs_builder.main size_kib inode_count now_sb now_ino = .ok img) :
    mkfs_builder.validated size_kib inode_count ∧
      img = mkfs_builder.image size_kib inode_count now_sb now_ino := by
  unfold mkfs_builder.main at h
  by_cases hv : mkfs_builder.validated size_kib inode_count
  · rw [if_neg (not_not.mpr hv)] at h
    by_cases hl : mkfs_builder.data_region_blocks size_kib inode_count < 1
    · rw [if_pos hl] at h; cases h
    · rw [if_neg hl] at h
      cases h
      exact ⟨hv, rfl⟩
  · rw [if_pos hv] at h; cases h

/-- The inode numbers in the root directory block written by the formatter: 1 in
slots 0 and 1, 0 in the other slots. -/
theorem image_dir_slots (s n : Int) (t1 t2 : Nat) (hv : mkfs_builder.validated s n)
    (sl : Nat) (hsl : sl < 64) :
    ld32 ((mkfs_builder.image s n t1 t2).block
        (sb.data_region_start ((mkfs_builder.image s n t1 t2).block 0))) (64 * sl) =
      if sl < 2 then 1 else 0 := by
  obtain ⟨h1, h2, h3, h4, h5, h6, h7, h8, h9, h10⟩ := mkfs_builder.layout_facts s n hv
  obtain ⟨f0, f1, f2, f3, f4, f5, f6, f7, f8⟩ := mkfs_builder.image_block0_fields s n t1 t2 hv
  have hb : ∀ j, j < BS →
      (mkfs_builder.image s n t1 t2).block
        (sb.data_region_start ((mkfs_builder.image s n t1 t2).block 0)) j =
      memcpy (memcpy zeros 0 (mkfs_builder.root_dirent [46]) 64) 64
        (mkfs_builder.root_dirent [46, 46]) 64 j := by
    intro j hj
    rw [f7, h3, block_apply, if_pos hj]
    exact mkfs_builder.image_root_dir s n t1 t2 j hj
  have hc : ld32 ((mkfs_builder.image s n t1 t2).block
      (sb.data_region_start ((mkfs_builder.image s n t1 t2).block 0))) (64 * sl) =
      ld32 (memcpy (memcpy zeros 0 (mkfs_builder.root_dirent [46]) 64) 64
        (mkfs_builder.root_dirent [46, 46]) 64) (64 * sl) :=
    ld32_congr (fun j hj => hb _ (by simp only [BS]; omega))
  rw [hc]
  have hd1 : ld32 (mkfs_builder.root_dirent [46]) 0 = 1 := by
    unfold ld32
    rw [mkfs_builder.root_dirent_dot_bytes _ (by omega),
      mkfs_builder.root_dirent_dot_bytes _ (by omega),
      mkfs_builder.root_dirent_dot_bytes _ (by omega),
      mkfs_builder.root_dirent_dot_bytes _ (by omega)]
    rfl
  have hd2 : ld32 (mkfs_builder.root_dirent [46, 46]) 0 = 1 := by
    unfold ld32
    rw [mkfs_builder.root_dirent_dotdot_bytes _ (by omega),
      mkfs_builder.root_dirent_dotdot_bytes _ (by omega),
      mkfs_builder.root_dirent_dotdot_bytes _ (by omega),
      mkfs_builder.root_dirent_dotdot_bytes _ (by omega)]
    rfl
  rcases Nat.lt_or_ge sl 2 with h | h
  · rw [if_pos h]
    have : sl = 0 ∨ sl = 1 := by omega
    rcases this with h0 | h0
    · subst h0
      have : ld32 (memcpy (memcpy zeros 0 (mkfs_builder.root_dirent [46]) 64) 64
          (mkfs_builder.root_dirent [46, 46]) 64) (64 * 0) =
          ld32 (mkfs_builder.root_dirent [46]) 0 :=
        ld32_congr (fun j hj => by
          rw [memcpy_apply, if_neg (by omega), memcpy_apply, if_pos (by omega)]
          exact congrArg _ (by omega))
      rw [this, hd1]
    · subst h0
      rw [ld32_memcpy_inside (by omega), Nat.sub_self, hd2]
  · rw [if_neg (by omega)]
    have : ld32 (memcpy (memcpy zeros 0 (mkfs_builder.root_dirent [46]) 64) 64
        (mkfs_builder.root_dirent [46, 46]) 64) (64 * sl) = ld32 zeros 0 :=
      ld32_congr (fun j hj => by
        rw [memcpy_apply, if_neg (by omega), memcpy_apply, if_neg (by omega)]
        rfl)
    rw [this]
    rfl

/-- Every reachable image is well-formed. -/
theorem reachable_wf {P : File → Prop} {img : File} (h : ReachableBy P img) :
    WellFormed img := by
  induction h with
  | @format s n t1 t2 img hm =>
    obtain ⟨hv, rfl⟩ := format_ok_inv hm
    exact mkfs_builder.image_wellFormed s n t1 t2 hv
  | @ingest input filename file now out _ _ hmain ih =>
    obtain ⟨_, _, _, _, _, _, _, _, _, _, _, _, hwf⟩ := ingest_step ih hmain
    exact hwf

/-- In every reachable image the non-zero inode numbers of the root directory are
numbers of allocated inodes. -/
theorem reachable_entries {P : File → Prop} {img : File} (h : ReachableBy P img) :
    ∀ s, s < 64 →
      ld32 (img.block (sb.data_region_start (img.block 0))) (64 * s) ≠ 0 →
      1 ≤ ld32 (img.block (sb.data_region_start (img.block 0))) (64 * s) ∧
      ld32 (img.block (sb.data_region_start (img.block 0))) (64 * s)
        ≤ sb.inode_count (img.block 0) ∧
      bit_is_set (img.block 1)
        (ld32 (img.block (sb.data_region_start (img.block 0))) (64 * s) - 1) := by
  induction h with
  | @format sz n t1 t2 img hm =>
    obtain ⟨hv, rfl⟩ := format_ok_inv hm
    intro s hs hne
    have hw := mkfs_builder.image_wellFormed sz n t1 t2 hv
    have hic := (mkfs_builder.image_block0_fields sz n t1 t2 hv).2.2.1
    have hv' := hv
    unfold mkfs_builder.validated at hv'
    rw [image_dir_slots sz n t1 t2 hv s hs] at hne ⊢
    by_cases h2 : s < 2
    · rw [if_pos h2]
      refine ⟨Nat.le_refl _, by rw [hic]; omega, ?_⟩
      exact (bit_mask_ne_zero_iff _ _).mp hw.root_inode_used
    · rw [if_neg h2] at hne
      exact absurd rfl hne
  | @ingest input filename file now out hprev _ hmain ih =>
    have hw := reachable_wf hprev
    obtain ⟨k, r, e, _, g2, _, g4, hb0, hi1, _, _, hsl, _⟩ := ingest_step hw hmain
    obtain ⟨r1, r2, r3, r4, r5⟩ := free_inode_facts hw g2
    have hib := hw.inode_bits
    have hkeep : ∀ i, bit_is_set (input.block 1) i → bit_is_set (out.block 1) i :=
      fun i hset => by
        have hi := bit_is_set_block_lt hset
        rw [← bit_mask_ne_zero_iff] at hset ⊢
        intro hz
        exact hset ((hi1 i hi).mp hz).2
    intro s hs hne
    rw [hb0] at hne ⊢
    rw [hsl s hs] at hne ⊢
    by_cases hse : s = e
    · rw [if_pos hse]
      refine ⟨by omega, by omega, ?_⟩
      rw [Nat.add_sub_cancel, ← bit_mask_ne_zero_iff]
      intro hz
      exact ((hi1 r (by omega)).mp hz).1 rfl
    · rw [if_neg hse] at hne ⊢
      obtain ⟨a1, a2, a3⟩ := ih s hs hne
      exact ⟨a1, a2, hkeep _ a3⟩

theorem inode_at_eq {img : File} (hw : WellFormed img) (i j : Nat) (hj : j < INODE_SIZE) :
    inode_at img i j = img.data (3 * BS + i * INODE_SIZE + j) := by
  unfold inode_at
  rw [slice_apply, if_pos hj, hw.inode_table_start]

/-- In every reachable image slot 0 of the root directory names inode 1 and the
record of inode 1 is a directory. -/
theorem reachable_root {P : File → Prop} {img : File} (h : ReachableBy P img) :
    ld32 (img.block (sb.data_region_start (img.block 0))) (64 * 0) = 1 ∧
      ld16 (inode_at img 0) 0 = 0o40000 := by
  induction h with
  | @format sz n t1 t2 img hm =>
    obtain ⟨hv, rfl⟩ := format_ok_inv hm
    have hw := mkfs_builder.image_wellFormed sz n t1 t2 hv
    obtain ⟨h1, h2, h3, h4, h5, h6, h7, h8, h9, h10⟩ := mkfs_builder.layout_facts sz n hv
    refine ⟨by rw [image_dir_slots sz n t1 t2 hv 0 (by omega), if_pos (by omega)], ?_⟩
    rw [← (mkfs_builder.root_inode_fields n t2 (by omega)).1]
    apply ld16_congr
    intro j hj
    rw [inode_at_eq hw 0 _ (by simp only [INODE_SIZE]; omega), Nat.zero_mul, Nat.add_zero,
      ← mkfs_builder.image_root_inode sz n t1 t2 hv _ (by simp only [INODE_SIZE]; omega),
      slice_apply, if_pos (by simp only [INODE_SIZE]; omega)]
    rfl
  | @ingest input filename file now out hprev _ hmain ih =>
    have hw := reachable_wf hprev
    obtain ⟨k, r, e, _, _, _, g4, hb0, _, _, _, hsl, _⟩ := ingest_step hw hmain
    obtain ⟨e1, e2, _⟩ := free_entry_facts g4
    obtain ⟨_, _, l3⟩ := ingest_root_inode hw hmain
    constructor
    · rw [hb0, hsl 0 (by omega)]
      by_cases he : 0 = e
      · rw [← he, ih.1] at e2
        omega
      · rw [if_neg he]
        exact ih.1
    · rw [← ih.2]
      exact ld16_congr (fun j hj => l3 _ (by omega) (by omega))

/-- C20. Inode numbering is consistent between formatter and ingestor. In every image
reachable from a formatter output by successful ingests, every root-directory entry
with a non-zero inode number `n` has `1 ≤ n ≤ inode_count`, bit `n - 1` of the inode
bitmap is set, and the record at byte offset `(n - 1) * 128` of the inode table lies
inside the table (`n * 128 ≤ inode_table_blocks * 4096`); an ingest into such an
image that allocates bit `i` writes an entry with inode number `i + 1` and stores the
new inode record in slot `i` of the table; and bit 0 is set, slot 0 of the directory
names inode 1 and the record in slot 0 of the table is the root directory. -/
theorem inode_numbering {img : File} (h : Reachable img) :
    (∀ s, s < 64 →
      ld32 (img.block (sb.data_region_start (img.block 0))) (64 * s) ≠ 0 →
      1 ≤ ld32 (img.block (sb.data_region_start (img.block 0))) (64 * s) ∧
      ld32 (img.block (sb.data_region_start (img.block 0))) (64 * s)
        ≤ sb.inode_count (img.block 0) ∧
      bit_is_set (img.block 1)
        (ld32 (img.block (sb.data_region_start (img.block 0))) (64 * s) - 1) ∧
      ld32 (img.block (sb.data_region_start (img.block 0))) (64 * s) * INODE_SIZE
        ≤ sb.inode_table_blocks (img.block 0) * BS) ∧
    (∀ (filename : List Nat) (file : File) (now : Nat) (out : File),
      main img filename file now = .ok out →
      ∃ i e k : Nat,
        find_free_bit (img.block 1) (sb.inode_count (img.block 0) : Nat) = (i : Int) ∧
        find_free_entry (img.block (sb.data_region_start (img.block 0))) 64 0 = (e : Int) ∧
        blocks_needed (u64 file.size) = (k : Int) ∧
        ¬ bit_is_set (img.block 1) i ∧ bit_is_set (out.block 1) i ∧
        ld32 (out.block (sb.data_region_start (out.block 0))) (64 * e) = i + 1 ∧
        (i + 1) * INODE_SIZE ≤ sb.inode_table_blocks (out.block 0) * BS ∧
        ∀ j, j < INODE_SIZE → inode_at out i j =
          new_inode (u64 file.size) now (sb.data_region_start (img.block 0)) k
            ((clear_bits (img.block 2) (sb.data_region_blocks (img.block 0))).take k) j) ∧
    (bit_is_set (img.block 1) 0 ∧
      ld32 (img.block (sb.data_region_start (img.block 0))) (64 * 0) = 1 ∧
      ld16 (inode_at img 0) 0 = 0o40000) := by
  unfold Reachable at h
  have hw := reachable_wf h
  refine ⟨?_, ?_, (bit_mask_ne_zero_iff _ _).mp hw.root_inode_used, reachable_root h⟩
  · intro s hs hne
    obtain ⟨a1, a2, a3⟩ := reachable_entries h s hs hne
    refine ⟨a1, a2, a3, ?_⟩
    have := hw.inode_slots
    simp only [INODE_SIZE, BS]
    omega
  · intro filename file now out hmain
    obtain ⟨k, r, e, g1, g2, _, g4, hb0, hi1, _, _, hsl, hwo⟩ := ingest_step hw hmain
    obtain ⟨r1, r2, r3, r4, r5⟩ := free_inode_facts hw g2
    obtain ⟨e1, _, _⟩ := free_entry_facts g4
    obtain ⟨k', r', g1', _, g2', _, hrec⟩ := ingest_new_inode hw hmain
    have hkk : k' = k := by rw [g1] at g1'; omega
    have hrr : r' = r := by rw [g2] at g2'; omega
    subst hkk hrr
    have hib := hw.inode_bits
    refine ⟨r', e, k', g2, g4, g1, (bit_mask_eq_zero_iff _ _).mp r3, ?_, ?_, ?_, ?_⟩
    · rw [← bit_mask_ne_zero_iff]
      intro hz
      exact ((hi1 r' (by omega)).mp hz).1 rfl
    · rw [hb0, hsl e e1, if_pos rfl]
    · rw [hb0]
      exact r5
    · intro j hj
      rw [← hrec j hj, inode_at_eq hwo r' j hj, slice_apply, if_pos hj]

/-- Witness of `inode_numbering`: the fresh image is reachable, and slot 1 of its
root directory names inode 1, whose bit is set. -/
theorem inode_numbering_witness :
    Reachable fresh ∧
    ld32 (fresh.block (sb.data_region_start (fresh.block 0))) (64 * 1) = 1 ∧
    bit_is_set (fresh.block 1)
      (ld32 (fresh.block (sb.data_region_start (fresh.block 0))) (64 * 1) - 1) :=
  ⟨fresh_reachable, by decide!,
    ((inode_numbering fresh_reachable).1 1 (by decide) (by decide!)).2.2.1⟩

end mkfs_adder

/-! ## Reachable images: the pointer invariant for sources whose block count fits -/

namespace mkfs_adder

/-- The pointer invariant holds for the record of the new inode when the block count
of the source fits an `int`. -/
theorem new_inode_pointers {input : File} (hw : WellFormed input) {file : File} {k : Nat}
    (now : Nat) (hfit : (file.size + BS - 1) / BS < 2 ^ 31)
    (hbn : blocks_needed (u64 file.size) = (k : Int)) (hk : k ≤ 12)
    (hfb : k ≤ (clear_bits (input.block 2) (sb.data_region_blocks (input.block 0))).length)
    {ino : Bytes}
    (hino : ∀ j, j < INODE_SIZE → ino j =
      new_inode (u64 file.size) now (sb.data_region_start (input.block 0)) k
        ((clear_bits (input.block 2) (sb.data_region_blocks (input.block 0))).take k) j) :
    (ld64 ino 12 + BS - 1) / BS ≤ 12 ∧
    (∀ t, t < (ld64 ino 12 + BS - 1) / BS →
      sb.data_region_start (input.block 0) ≤ ld32 ino (44 + 4 * t) ∧
      ld32 ino (44 + 4 * t) < sb.total_blocks (input.block 0)) ∧
    (∀ t, (ld64 ino 12 + BS - 1) / BS ≤ t → t < 12 → ld32 ino (44 + 4 * t) = 0) ∧
    ld64 ino 120 = crc32 ino 120 := by
  have hk' := blocks_needed_small hfit
  rw [hbn] at hk'
  have hkc : k = (file.size + BS - 1) / BS := by omega
  have hu : u64 file.size = file.size := u64_of_fit hfit
  have hsize : ld64 ino 12 = file.size := by
    rw [ld64_congr (fun j hj => hino (12 + j) (by simp only [INODE_SIZE]; omega)),
      (new_inode_fields _ _ _ _ _).2.2.1, hu]
    apply Nat.mod_eq_of_lt
    simp only [BS] at hfit
    omega
  have hptr : ∀ t, t < 12 → ld32 ino (44 + 4 * t) =
      if t < k then u64 (sb.data_region_start (input.block 0) +
        ((clear_bits (input.block 2) (sb.data_region_blocks (input.block 0))).take
          k).getD t 0) % 2 ^ 32 else 0 := by
    intro t ht
    rw [ld32_congr (fun j hj => hino (44 + 4 * t + j) (by simp only [INODE_SIZE]; omega))]
    exact new_inode_direct _ _ _ _ _ hk t ht
  rw [hsize, ← hkc]
  refine ⟨hk, ?_, ?_, ?_⟩
  · intro t ht
    rw [hptr t (by omega), if_pos ht]
    have hb := (clear_bits_take_getD (input.block 2) (sb.data_region_blocks (input.block 0))
      k t (by rw [List.length_take]; omega)).1
    have h1 := hw.total_blocks
    have h2 := hw.small
    have hval : u64 (sb.data_region_start (input.block 0) +
        ((clear_bits (input.block 2) (sb.data_region_blocks (input.block 0))).take
          k).getD t 0) % 2 ^ 32 = sb.data_region_start (input.block 0) +
        ((clear_bits (input.block 2) (sb.data_region_blocks (input.block 0))).take
          k).getD t 0 := by
      unfold u64
      rw [Nat.mod_eq_of_lt (a := sb.data_region_start (input.block 0) + _) (by omega)]
      exact Nat.mod_eq_of_lt (by omega)
    rw [hval]
    omega
  · intro t h1 h2
    rw [hptr t h2, if_neg (by omega)]
  · rw [ld64_congr (fun j hj => hino (120 + j) (by simp only [INODE_SIZE]; omega)),
      (new_inode_fields _ _ _ _ _).2.2.2]
    apply crc32_congr
    intro j hj
    rw [hino j (by simp only [INODE_SIZE]; omega)]

/-- The bytes of the inode table outside slot 0 and the slot of the new inode are
those of the input. -/
theorem ingest_table_frame {input : File} (hw : WellFormed input) {filename : List Nat}
    {file : File} {now : Nat} {out : File} (h : main input filename file now = .ok out)
    {r : Nat}
    (hr : find_free_bit (input.block 1) (sb.inode_count (input.block 0) : Nat) = (r : Int))
    (i : Nat) (hi0 : i ≠ 0) (hir : i ≠ r) (hi : i < sb.inode_count (input.block 0)) (j : Nat)
    (hj : j < INODE_SIZE) : inode_at out i j = inode_at input i j := by
  obtain ⟨_, _, _, _, _, _, _, _, _, _, _, _, hwo⟩ := ingest_step hw h
  obtain ⟨k, r', e, _, _, _, g2, _, _, _, _, _, _, htbl, _⟩ := main_wf_spec hw h
  have hrr : r' = r := by rw [hr] at g2; omega
  subst hrr
  have hsl := hw.inode_slots
  rw [inode_at_eq hwo i j hj, inode_at_eq hw i j hj, Nat.add_assoc,
    htbl _ (by simp only [BS, INODE_SIZE] at hj ⊢; omega),
    inode_crc_finalize_frame _ _ _ (by simp only [INODE_SIZE] at hj ⊢; omega)]
  simp only [st16]
  rw [st_outside (by simp only [INODE_SIZE] at hj ⊢; omega), memcpy_apply,
    if_neg (by simp only [INODE_SIZE] at hj ⊢; omega), slice_apply,
    if_pos (by simp only [BS, INODE_SIZE] at hj ⊢; omega)]

/-- The pointer invariant, for sources whose block count fits an `int`: in every
image reachable from a formatter output by successful ingests of such sources, every
set bit of the inode bitmap is below `inode_count` and its inode record has
`c = ceil(size_bytes / 4096) ≤ 12`, its pointers `direct[0 .. c-1]` lie inside the
data region (so they are non-zero), `direct[c .. 11]` are 0, and `inode_crc` is the
CRC-32 of the first 120 bytes of the record. -/
theorem reachable_pointers {img : File}
    (h : ReachableBy (fun f => (f.size + BS - 1) / BS < 2 ^ 31) img) :
    ∀ i, bit_is_set (img.block 1) i →
      i < sb.inode_count (img.block 0) ∧
      (ld64 (inode_at img i) 12 + BS - 1) / BS ≤ 12 ∧
      (∀ t, t < (ld64 (inode_at img i) 12 + BS - 1) / BS →
        sb.data_region_start (img.block 0) ≤ ld32 (inode_at img i) (44 + 4 * t) ∧
        ld32 (inode_at img i) (44 + 4 * t) < sb.total_blocks (img.block 0)) ∧
      (∀ t, (ld64 (inode_at img i) 12 + BS - 1) / BS ≤ t → t < 12 →
        ld32 (inode_at img i) (44 + 4 * t) = 0) ∧
      ld64 (inode_at img i) 120 = crc32 (inode_at img i) 120 := by
  induction h with
  | @format sz n t1 t2 img hm =>
    obtain ⟨hv, rfl⟩ := format_ok_inv hm
    have hw := mkfs_builder.image_wellFormed sz n t1 t2 hv
    obtain ⟨h1, h2, h3, h4, h5, h6, h7, h8, h9, h10⟩ := mkfs_builder.layout_facts sz n hv
    obtain ⟨f0, f1, f2, f3, f4, f5, f6, f7, f8⟩ :=
      mkfs_builder.image_block0_fields sz n t1 t2 hv
    have hv' := hv
    unfold mkfs_builder.validated at hv'
    obtain ⟨q1, q2, q3, q4, q5, q6⟩ := mkfs_builder.root_inode_fields n t2 (by omega)
    intro i hset
    have hi := bit_is_set_block_lt hset
    have hi0 : i = 0 :=
      (mkfs_builder.image_bitmap_bits sz n t1 t2 i hi).1.mp ((bit_mask_ne_zero_iff _ _).mpr hset)
    subst hi0
    have hrec : ∀ j, j < INODE_SIZE →
        inode_at (mkfs_builder.image sz n t1 t2) 0 j = mkfs_builder.root_inode n t2 j := by
      intro j hj
      rw [inode_at_eq hw 0 j hj, Nat.zero_mul, Nat.add_zero,
        ← mkfs_builder.image_root_inode sz n t1 t2 hv j hj, slice_apply, if_pos hj]
      rfl
    have hsize : ld64 (inode_at (mkfs_builder.image sz n t1 t2) 0) 12 = 128 := by
      rw [← q3]
      exact ld64_congr (fun j hj => hrec _ (by simp only [INODE_SIZE]; omega))
    have hptr : ∀ t, t < 12 → ld32 (inode_at (mkfs_builder.image sz n t1 t2) 0) (44 + 4 * t)
        = ld32 (mkfs_builder.root_inode n t2) (44 + 4 * t) :=
      fun t ht => ld32_congr (fun j hj => hrec _ (by simp only [INODE_SIZE]; omega))
    have hc : (128 + BS - 1) / BS = 1 := by decide
    rw [hsize, hc]
    refine ⟨by rw [f2]; omega, by omega, ?_, ?_, ?_⟩
    · intro t ht
      have : t = 0 := by omega
      subst this
      rw [hptr 0 (by omega), q4, f7, f1]
      omega
    · intro t ht1 ht2
      rw [hptr t ht2]
      exact q5 t ht1 ht2
    · rw [ld64_congr (fun j hj => hrec (120 + j) (by simp only [INODE_SIZE]; omega)), q6]
      apply crc32_congr
      intro j hj
      rw [hrec j (by simp only [INODE_SIZE]; omega)]
  | @ingest input filename file now out hprev hfit hmain ih =>
    have hw := reachable_wf hprev
    obtain ⟨k, r, e, g1, g2, g3, g4, hb0, hi1, _, _, _, hwo⟩ := ingest_step hw hmain
    obtain ⟨r1, r2, r3, r4, r5⟩ := free_inode_facts hw g2
    obtain ⟨k', r', g1', gk12, g2', _, hrec⟩ := ingest_new_inode hw hmain
    have hkk : k' = k := by rw [g1] at g1'; omega
    have hrr : r' = r := by rw [g2] at g2'; omega
    subst hkk hrr
    intro i hset
    rw [hb0]
    by_cases hir : i = r'
    · subst hir
      refine ⟨r2, ?_⟩
      exact new_inode_pointers hw now hfit g1 gk12 g3 (fun j hj => by
        rw [← hrec j hj, inode_at_eq hwo i j hj, slice_apply, if_pos hj])
    · have hin : bit_is_set (input.block 1) i := by
        have hi := bit_is_set_block_lt hset
        rw [← bit_mask_ne_zero_iff] at hset ⊢
        intro hz
        exact hset ((hi1 i hi).mpr ⟨hir, hz⟩)
      obtain ⟨a1, a2, a3, a4, a5⟩ := ih i hin
      have hsame : ld64 (inode_at out i) 12 = ld64 (inode_at input i) 12 ∧
          (∀ t, t < 12 →
            ld32 (inode_at out i) (44 + 4 * t) = ld32 (inode_at input i) (44 + 4 * t)) ∧
          ld64 (inode_at out i) 120 = crc32 (inode_at out i) 120 := by
        by_cases hi0 : i = 0
        · subst hi0
          obtain ⟨_, l2, l3⟩ := ingest_root_inode hw hmain
          exact ⟨ld64_congr (fun j hj => l3 _ (by omega) (by omega)),
            fun t ht => ld32_congr (fun j hj => l3 _ (by omega) (by omega)), l2⟩
        · have hb : ∀ j, j < INODE_SIZE → inode_at out i j = inode_at input i j :=
            fun j hj => ingest_table_frame hw hmain g2 i hi0 hir a1 j hj
          refine ⟨ld64_congr (fun j hj => hb _ (by simp only [INODE_SIZE]; omega)),
            fun t ht => ld32_congr (fun j hj => hb _ (by simp only [INODE_SIZE]; omega)), ?_⟩
          rw [ld64_congr (fun j hj => hb (120 + j) (by simp only [INODE_SIZE]; omega)), a5]
          apply crc32_congr
          intro j hj
          rw [hb j (by simp only [INODE_SIZE]; omega)]
      obtain ⟨s1, s2, s3⟩ := hsame
      rw [s1]
      refine ⟨a1, a2, ?_, ?_, s3⟩
      · intro t ht
        rw [s2 t (by omega)]
        exact a3 t ht
      · intro t ht1 ht2
        rw [s2 t ht2]
        exact a4 t ht1 ht2

end mkfs_adder
